import Mathlib

/-!
# list-store: a persistent ordered list on an ordered key-value store

Shallow embedding of `PersistentList.cpp`, `PersistentList.h` and
`PersistentListIterator.cpp`.

* A byte string (`std::string`, `leveldb::Slice`) is a list of byte values.
* The store (`leveldb::DB`) is the list of its entries in ascending key order,
  under the bytewise comparator.  A store iterator reads the snapshot taken
  when it was created.
* A member function that reads or writes the store takes the store as an
  argument and returns the new store.  The result is an `Option`: `none`
  stands for a run that does not return normally (a failed `assert`, an
  exception, or a read through an iterator that is not valid).
* `long long` arithmetic is two's complement arithmetic on 64 bits: a signed
  overflow, which the language leaves undefined, wraps around.
-/

namespace ListStore

/-! ## Byte strings and the ordered store -/

/-- A byte string: the bytes of a `std::string`, each a number below 256. -/
abbrev Bytes := List Nat

/-- The bytewise comparator of the store: the first differing byte decides,
and a proper initial segment sorts before its extensions. -/
def bytesLt : Bytes → Bytes → Bool
  | [], [] => false
  | [], _ :: _ => true
  | _ :: _, [] => false
  | a :: as, b :: bs => if a < b then true else if b < a then false else bytesLt as bs

/-- A store entry: key and value. -/
abbrev Entry := Bytes × Bytes

/-- The store: its entries in ascending key order. -/
abbrev DB := List Entry

/-- Reading `DB::Get`: the value under `key`, if the key is present. -/
def DB.Get (db : DB) (key : Bytes) : Option Bytes :=
  (db.find? (fun e => decide (e.1 = key))).map (fun e => e.2)

/-- Writing `DB::Put`: insert at the sorted position, replacing the value when
the key is present. -/
def DB.Put : DB → Bytes → Bytes → DB
  | [], k, v => [(k, v)]
  | e :: rest, k, v =>
    if bytesLt k e.1 then (k, v) :: e :: rest
    else if e.1 = k then (k, v) :: rest
    else e :: DB.Put rest k v

/-- Writing `DB::Delete`: remove the key; an absent key is not an error. -/
def DB.Delete (db : DB) (key : Bytes) : DB :=
  db.filter (fun e => decide (e.1 ≠ key))

/-- The keys of the store are strictly ascending. -/
def DB.Sorted (db : DB) : Prop :=
  List.Pairwise (fun a b => bytesLt a.1 b.1 = true) db

/-- A `leveldb::Iterator`: the snapshot it reads and its position.  It is
valid exactly when the position is inside the snapshot. -/
structure Iterator where
  snap : DB
  pos : Nat
deriving DecidableEq

/-- A new iterator, `DB::NewIterator`: not positioned yet. -/
def DB.NewIterator (db : DB) : Iterator := ⟨db, db.length⟩

/-- The test `Iterator::Valid`. -/
def Iterator.Valid (it : Iterator) : Bool := decide (it.pos < it.snap.length)

/-- The move `Iterator::Seek`: the first entry whose key is not below `target`. -/
def Iterator.Seek (it : Iterator) (target : Bytes) : Iterator :=
  ⟨it.snap, it.snap.findIdx (fun e => !bytesLt e.1 target)⟩

/-- The move `Iterator::Next`; it requires a valid iterator. -/
def Iterator.Next (it : Iterator) : Option Iterator :=
  if it.Valid then some ⟨it.snap, it.pos + 1⟩ else none

/-- The move `Iterator::Prev`; it requires a valid iterator, and stepping back
from the first entry leaves the iterator not valid. -/
def Iterator.Prev (it : Iterator) : Option Iterator :=
  if it.Valid then
    some ⟨it.snap, if it.pos = 0 then it.snap.length else it.pos - 1⟩
  else none

/-- Reading `Iterator::key`; it requires a valid iterator. -/
def Iterator.key (it : Iterator) : Option Bytes :=
  (it.snap.get? it.pos).map (fun e => e.1)

/-- Reading `Iterator::value`; it requires a valid iterator. -/
def Iterator.value (it : Iterator) : Option Bytes :=
  (it.snap.get? it.pos).map (fun e => e.2)

/-! ## Constants of `PersistentList.h` -/

def KEY_BASE : Nat := 92
def KEY_LEN : Nat := 8
/-- The byte `'!'`. -/
def START_SYM : Nat := 33
/-- The byte `'~'`. -/
def END_SYM : Nat := 126
/-- The byte `'N'`. -/
def MIDDLE_SYM : Nat := 78
def ASCII_OFFSET : Nat := 34
/-- The string `"NNNNNNNN"`. -/
def INIT_KEY_SEQ : Bytes := [78, 78, 78, 78, 78, 78, 78, 78]

/-- The number of bytes that a `std::string` of the C++ library keeps inside
the string object itself; a longer string is kept in heap memory. -/
def SSO_CAPACITY : Nat := 15

/-- The data members of a `PersistentList` object (the store handle is passed
to each operation instead). -/
structure PersistentList where
  mListName : Bytes
  mListId : Bytes
  mHeadKey : Bytes
  mTailKey : Bytes
  mKeyPrefix : Bytes
deriving DecidableEq

namespace PersistentList

def Id (l : PersistentList) : Bytes := l.mListId

def Name (l : PersistentList) : Bytes := l.mListName

def GetKey (l : PersistentList) (keySeq : Bytes) : Bytes := l.mKeyPrefix ++ keySeq

/-! ## The key codec -/

/-- The carry loop of `NextKey`, entered with `n = i + 1`; the result is the
buffer `nextKeyData` when the loop ends.  `char` arithmetic is taken modulo 256. -/
def NextKey.loop (nextKeyData : List Nat) (carry : Nat) : Nat → List Nat
  | 0 => nextKeyData
  | i + 1 =>
    let c := nextKeyData.getD i 0
    let next_c := (c + carry + (if i = KEY_LEN - 1 then 1 else 0)) % 256
    if next_c = END_SYM then
      NextKey.loop (nextKeyData.set i (START_SYM + 1)) 1 i
    else
      nextKeyData.set i next_c

/-- The function `PersistentList::NextKey`.  The buffer is filled from the
first `KEY_LEN` bytes after the key prefix; a key with fewer bytes has no
defined result (the copy loop reads past the string).  The source copies the
bytes through `c_str()` of a temporary string that is destroyed before the
copy: up to `SSO_CAPACITY` bytes lie inside the destroyed object and are taken
as still there; a longer sequence lies in heap memory that is freed before the
copy, and the read has no defined result. -/
def NextKey (l : PersistentList) (key : Bytes) : Option Bytes :=
  if key.length < l.mKeyPrefix.length + KEY_LEN then none
  else if l.mKeyPrefix.length + SSO_CAPACITY < key.length then none
  else
    let keyData := key.drop l.mKeyPrefix.length
    let nextKeyData := keyData.take KEY_LEN
    some (l.mKeyPrefix ++ NextKey.loop nextKeyData 0 KEY_LEN)

/-- The borrow loop of `PrevKey`, entered with `n = i + 1`. -/
def PrevKey.loop (nextKeyData : List Nat) (carry : Nat) : Nat → List Nat
  | 0 => nextKeyData
  | i + 1 =>
    let c := nextKeyData.getD i 0
    let next_c := (c + 256 - carry - (if i = KEY_LEN - 1 then 1 else 0)) % 256
    if next_c = START_SYM then
      PrevKey.loop (nextKeyData.set i (END_SYM - 1)) 1 i
    else
      nextKeyData.set i next_c

/-- The function `PersistentList::PrevKey`, with the same reading of the
buffer as `NextKey`, through `c_str()` of a destroyed temporary string. -/
def PrevKey (l : PersistentList) (key : Bytes) : Option Bytes :=
  if key.length < l.mKeyPrefix.length + KEY_LEN then none
  else if l.mKeyPrefix.length + SSO_CAPACITY < key.length then none
  else
    let keyData := key.drop l.mKeyPrefix.length
    let nextKeyData := keyData.take KEY_LEN
    some (l.mKeyPrefix ++ PrevKey.loop nextKeyData 0 KEY_LEN)

/-- Conversion of an `int` or wider value to `long long`: two's complement on
64 bits. -/
def wrap64 (x : Int) : Int := (x + 2 ^ 63) % 2 ^ 64 - 2 ^ 63

/-- Conversion to `int`: two's complement on 32 bits. -/
def wrap32 (x : Int) : Int := (x + 2 ^ 31) % 2 ^ 32 - 2 ^ 31

/-- The value of a `char` as an `int` (`char` is signed). -/
def charVal (b : Nat) : Int := if b < 128 then (b : Int) else (b : Int) - 256

/-- The vectors `key1Data` and `key2Data` of `MidKey`: `maxKeyLen` entries,
zero except for the digit values of the bytes of `keySeq`. -/
def MidKey.data (keySeq : Bytes) (maxKeyLen : Nat) : List Int :=
  keySeq.map (fun c => charVal c - (START_SYM : Int) - 1)
    ++ List.replicate (maxKeyLen - keySeq.length) 0

/-- The subtraction loop of `MidKey`, entered with `n = i + 1`; the result is
`diff` when the loop ends. -/
def MidKey.diffLoop (key1Data key2Data : List Int) :
    Nat → (carry diff posVal : Int) → Int
  | 0, _, diff, _ => diff
  | i + 1, carry, diff, posVal =>
    let val := key2Data.getD i 0 - key1Data.getD i 0 - carry
    let val1 := if val < 0 then val + (KEY_BASE : Int) else val
    let carry1 : Int := if val < 0 then 1 else 0
    MidKey.diffLoop key1Data key2Data i carry1
      (wrap64 (diff + wrap64 (val1 * posVal))) (wrap64 (posVal * (KEY_BASE : Int)))

/-- The loop of `MidKey` that writes the digits of `offset`, entered with
`n = i + 1`; it stops when `offset` is no longer positive. -/
def MidKey.offsetLoop : Nat → (offset : Int) → (offsetData : List Int) → List Int
  | 0, _, offsetData => offsetData
  | i + 1, offset, offsetData =>
    if 0 < offset then
      MidKey.offsetLoop i (Int.tdiv offset (KEY_BASE : Int))
        (offsetData.set i (Int.tmod offset (KEY_BASE : Int)))
    else offsetData

/-- The addition loop of `MidKey`, entered with `n = i + 1`; the result is the
vector `keyData` when the loop ends. -/
def MidKey.addLoop (key1Data offsetData : List Int) :
    Nat → (carry : Int) → (keyData : List Int) → List Int
  | 0, _, keyData => keyData
  | i + 1, carry, keyData =>
    let val := key1Data.getD i 0 + offsetData.getD i 0 + carry
    let val1 := if (KEY_BASE : Int) ≤ val then val - (KEY_BASE : Int) else val
    let carry1 : Int := if (KEY_BASE : Int) ≤ val then 1 else 0
    MidKey.addLoop key1Data offsetData i carry1 (keyData.set i val1)

/-- The function `PersistentList::MidKey`.  A key shorter than the key prefix
makes the `std::string` substring constructor throw. -/
def MidKey (l : PersistentList) (key1 key2 : Bytes) : Option Bytes :=
  if key1.length < l.mKeyPrefix.length ∨ key2.length < l.mKeyPrefix.length then none
  else
    let key1Seq := key1.drop l.mKeyPrefix.length
    let key2Seq := key2.drop l.mKeyPrefix.length
    let maxKeyLen := max key1Seq.length key2Seq.length
    let key1Data := MidKey.data key1Seq maxKeyLen
    let key2Data := MidKey.data key2Seq maxKeyLen
    let diff := MidKey.diffLoop key1Data key2Data maxKeyLen 0 0 1
    let offset := Int.tdiv diff 2
    if offset = 0 then
      some (key1 ++ [MIDDLE_SYM])
    else
      let offsetData := MidKey.offsetLoop maxKeyLen offset (List.replicate maxKeyLen 0)
      let keyData :=
        MidKey.addLoop key1Data offsetData maxKeyLen 0 (List.replicate maxKeyLen 0)
      let middleKey := keyData.map (fun d => ((d + (START_SYM : Int) + 1) % 256).toNat)
      some (l.mKeyPrefix ++ middleKey)

/-! ## List operations -/

/-- The scan loop of `Size`; `fuel` bounds the number of rounds.  The counter
`count` is an `int`: `count++` is taken in two's complement on 32 bits. -/
def Size.loop (l : PersistentList) : Nat → Iterator → Int → Option Int
  | 0, _, _ => none
  | fuel + 1, iter, count =>
    (iter.Next).bind fun iter1 =>
    (iter1.key).bind fun nextKey =>
    if l.mTailKey = nextKey then some count
    else Size.loop l fuel iter1 (wrap32 (count + 1))

/-- The function `PersistentList::Size`, with its `int` result.  Each round
moves the iterator one entry forward, so the loop needs at most one round per
entry of the store. -/
def Size (l : PersistentList) (db : DB) : Option Int :=
  Size.loop l (db.length + 1) ((DB.NewIterator db).Seek l.mHeadKey) 0

/-- The function `PersistentList::PushFront`: the new key and the new store. -/
def PushFront (l : PersistentList) (db : DB) (value : Bytes) : Option (Bytes × DB) :=
  (((DB.NewIterator db).Seek l.mHeadKey).Next).bind fun iter =>
  (iter.key).bind fun firstKey =>
  (if l.mTailKey = firstKey then some (l.GetKey INIT_KEY_SEQ)
   else l.PrevKey firstKey).bind fun prevKey =>
  some (prevKey, DB.Put db prevKey value)

/-- The function `PersistentList::PushBack`: the new key and the new store. -/
def PushBack (l : PersistentList) (db : DB) (value : Bytes) : Option (Bytes × DB) :=
  (((DB.NewIterator db).Seek l.mTailKey).Prev).bind fun iter =>
  (iter.key).bind fun lastKey =>
  (if l.mHeadKey = lastKey then some (l.GetKey INIT_KEY_SEQ)
   else l.NextKey lastKey).bind fun nextKey =>
  some (nextKey, DB.Put db nextKey value)

/-- The function `PersistentList::Front`. -/
def Front (l : PersistentList) (db : DB) : Option (Bool × Bytes) :=
  (((DB.NewIterator db).Seek l.mHeadKey).Next).bind fun iter =>
  (iter.key).bind fun firstKey =>
  if l.mTailKey ≠ firstKey then (iter.value).bind fun v => some (true, v)
  else some (false, [])

/-- The function `PersistentList::Back`. -/
def Back (l : PersistentList) (db : DB) : Option (Bool × Bytes) :=
  (((DB.NewIterator db).Seek l.mTailKey).Prev).bind fun iter =>
  (iter.key).bind fun lastKey =>
  if l.mHeadKey ≠ lastKey then (iter.value).bind fun v => some (true, v)
  else some (false, [])

/-- The function `PersistentList::PopFront`: the result and the new store. -/
def PopFront (l : PersistentList) (db : DB) : Option (Bool × DB) :=
  (((DB.NewIterator db).Seek l.mHeadKey).Next).bind fun iter =>
  (iter.key).bind fun firstKey =>
  if l.mTailKey ≠ firstKey then some (true, DB.Delete db firstKey)
  else some (false, db)

/-- The function `PersistentList::PopBack`: the result and the new store. -/
def PopBack (l : PersistentList) (db : DB) : Option (Bool × DB) :=
  (((DB.NewIterator db).Seek l.mTailKey).Prev).bind fun iter =>
  (iter.key).bind fun lastKey =>
  if l.mHeadKey ≠ lastKey then some (true, DB.Delete db lastKey)
  else some (false, db)

/-- The function `PersistentList::PopKey`. -/
def PopKey (_l : PersistentList) (db : DB) (key : Bytes) : Bool × DB :=
  (true, DB.Delete db key)

end PersistentList

/-! ## The cursor -/

/-- The data members of a `PersistentListIterator`. -/
structure PersistentListIterator where
  mList : PersistentList
  mValid : Bool
  mIter : Iterator
deriving DecidableEq

namespace PersistentListIterator

/-- The constructor: a cursor over the current store, not positioned. -/
def new (list : PersistentList) (db : DB) : PersistentListIterator :=
  ⟨list, false, DB.NewIterator db⟩

def Valid (c : PersistentListIterator) : Bool := c.mValid

def ListId (c : PersistentListIterator) : Bytes := c.mList.Id

/-- The function `PersistentListIterator::Key`, with its `assert(mValid)`. -/
def Key (c : PersistentListIterator) : Option Bytes :=
  if c.mValid then c.mIter.key else none

/-- The function `PersistentListIterator::Value`, with its `assert(mValid)`. -/
def Value (c : PersistentListIterator) : Option Bytes :=
  if c.mValid then c.mIter.value else none

/-- The function `PersistentListIterator::Next`: the returned flag and the
cursor after the call. -/
def Next (c : PersistentListIterator) : Option (Bool × PersistentListIterator) :=
  if c.mIter.Valid then
    (c.mIter.key).bind fun k =>
    if c.mList.mTailKey ≠ k then
      (c.mIter.Next).bind fun it =>
      (it.key).bind fun k1 =>
      some (decide (c.mList.mTailKey ≠ k1), ⟨c.mList, decide (c.mList.mTailKey ≠ k1), it⟩)
    else some (false, ⟨c.mList, false, c.mIter⟩)
  else none

/-- The function `PersistentListIterator::Prev`. -/
def Prev (c : PersistentListIterator) : Option (Bool × PersistentListIterator) :=
  if c.mIter.Valid then
    (c.mIter.key).bind fun k =>
    if c.mList.mHeadKey ≠ k then
      (c.mIter.Prev).bind fun it =>
      (it.key).bind fun k1 =>
      some (decide (c.mList.mHeadKey ≠ k1), ⟨c.mList, decide (c.mList.mHeadKey ≠ k1), it⟩)
    else some (false, ⟨c.mList, false, c.mIter⟩)
  else none

def SeekFront (c : PersistentListIterator) : PersistentListIterator :=
  ⟨c.mList, false, c.mIter.Seek c.mList.mHeadKey⟩

def SeekBack (c : PersistentListIterator) : PersistentListIterator :=
  ⟨c.mList, false, c.mIter.Seek c.mList.mTailKey⟩

end PersistentListIterator

namespace PersistentList

/-- The function `PersistentList::InsertAt`, with its two assertions: the new
key and the new store. -/
def InsertAt (l : PersistentList) (db : DB) (iter : PersistentListIterator)
    (value : Bytes) : Option (Bytes × DB) :=
  if iter.Valid = false then none
  else if iter.ListId ≠ l.mListId then none
  else
    (iter.Key).bind fun nextKey =>
    ((((DB.NewIterator db).Seek nextKey).Prev)).bind fun dbIter =>
    (dbIter.key).bind fun prevKey =>
    if l.mHeadKey = prevKey then l.PushFront db value
    else
      (l.MidKey prevKey nextKey).bind fun middleKey =>
      some (middleKey, DB.Put db middleKey value)

end PersistentList

/-! ## Client loops -/

namespace PersistentListIterator

/-- The loop `while (iter->Next()) { ... iter->Valid() ... iter->Value() ... }`
of the tests: the pairs read at the visited entries, in visiting order, and the
cursor when the loop ends; `fuel` bounds the number of rounds. -/
def forwardLoop : Nat → PersistentListIterator → List (Bool × Bytes) →
    Option (List (Bool × Bytes) × PersistentListIterator)
  | 0, _, _ => none
  | fuel + 1, c, acc =>
    (c.Next).bind fun r =>
    if r.1 then (r.2.Value).bind fun v => forwardLoop fuel r.2 (acc ++ [(r.2.Valid, v)])
    else some (acc, r.2)

/-- The loop `while (iter->Prev()) { ... }` of the tests. -/
def backwardLoop : Nat → PersistentListIterator → List (Bool × Bytes) →
    Option (List (Bool × Bytes) × PersistentListIterator)
  | 0, _, _ => none
  | fuel + 1, c, acc =>
    (c.Prev).bind fun r =>
    if r.1 then (r.2.Value).bind fun v => backwardLoop fuel r.2 (acc ++ [(r.2.Valid, v)])
    else some (acc, r.2)

/-- A forward traversal with a new cursor: `SeekFront()`, then `Next()` until
it returns false. -/
def forwardTraversal (l : PersistentList) (db : DB) :
    Option (List (Bool × Bytes) × PersistentListIterator) :=
  forwardLoop (db.length + 1) (new l db).SeekFront []

/-- A backward traversal with a new cursor: `SeekBack()`, then `Prev()` until
it returns false. -/
def backwardTraversal (l : PersistentList) (db : DB) :
    Option (List (Bool × Bytes) × PersistentListIterator) :=
  backwardLoop (db.length + 1) (new l db).SeekBack []

/-- The values met by a forward traversal. -/
def forwardValues (l : PersistentList) (db : DB) : Option (List Bytes) :=
  (forwardTraversal l db).map fun r => r.1.map fun p => p.2

/-- The values met by a backward traversal. -/
def backwardValues (l : PersistentList) (db : DB) : Option (List Bytes) :=
  (backwardTraversal l db).map fun r => r.1.map fun p => p.2

/-- The cursor after `n` calls of `Next()`. -/
def nextTimes : Nat → PersistentListIterator → Option PersistentListIterator
  | 0, c => some c
  | n + 1, c => (c.Next).bind fun r => nextTimes n r.2

/-- A new cursor moved to entry number `n` of the list (counted from 0):
`SeekFront()`, then `n + 1` calls of `Next()`. -/
def atEntry (l : PersistentList) (db : DB) (n : Nat) : Option PersistentListIterator :=
  nextTimes (n + 1) (new l db).SeekFront

end PersistentListIterator

/-- A call of a client on a list; `insertAt n v` is `InsertAt` with a new
cursor moved to entry number `n`. -/
inductive Op where
  | pushFront (v : Bytes)
  | pushBack (v : Bytes)
  | insertAt (n : Nat) (v : Bytes)
  | popFront
  | popBack
deriving DecidableEq

/-- The store after one call. -/
def Op.run (l : PersistentList) (db : DB) : Op → Option DB
  | .pushFront v => (l.PushFront db v).map fun r => r.2
  | .pushBack v => (l.PushBack db v).map fun r => r.2
  | .insertAt n v =>
    (PersistentListIterator.atEntry l db n).bind fun c =>
    (l.InsertAt db c v).map fun r => r.2
  | .popFront => (l.PopFront db).map fun r => r.2
  | .popBack => (l.PopBack db).map fun r => r.2

/-- The store after a sequence of calls. -/
def runOps (l : PersistentList) : DB → List Op → Option DB
  | db, [] => some db
  | db, op :: ops => (op.run l db).bind fun db1 => runOps l db1 ops

/-- The abstract sequence of values after one call, in the words of the
specification: `PushFront` prepends, `PushBack` appends, `InsertAt` inserts
immediately before the entry of the cursor, `PopFront` and `PopBack` remove the
first and the last value. -/
def Op.abstract (xs : List Bytes) : Op → List Bytes
  | .pushFront v => v :: xs
  | .pushBack v => xs ++ [v]
  | .insertAt n v => xs.take n ++ v :: xs.drop n
  | .popFront => xs.tail
  | .popBack => xs.dropLast

/-- The abstract sequence of values after a sequence of calls. -/
def abstractOps : List Bytes → List Op → List Bytes
  | xs, [] => xs
  | xs, op :: ops => abstractOps (Op.abstract xs op) ops

/-! ## A concrete list -/

/-- The list object for the name `mylist` with id `0` and key prefix `pl/0/`. -/
def exampleList : PersistentList :=
  ⟨[109, 121, 108, 105, 115, 116], [48], [112, 108, 47, 48, 47, 33],
    [112, 108, 47, 48, 47, 126], [112, 108, 47, 48, 47]⟩

/-- The store right after the list `mylist` was created as the first list of
an empty store, with `pl/` as the constant key prefix: the two sentinels
`pl/0/!` and `pl/0/~`, the record `pl/mylist/id` and the counter `pl/next_id`. -/
def exampleStore : DB :=
  [([112, 108, 47, 48, 47, 33], [52, 50]),
   ([112, 108, 47, 48, 47, 126], [52, 50]),
   ([112, 108, 47, 109, 121, 108, 105, 115, 116, 47, 105, 100], [48]),
   ([112, 108, 47, 110, 101, 120, 116, 95, 105, 100], [49])]

/-- Two values pushed at the back, then six values inserted one after the
other before the second entry. -/
def denseOps : List Op :=
  [.pushBack [97], .pushBack [98], .insertAt 1 [49], .insertAt 1 [50], .insertAt 1 [51],
   .insertAt 1 [52], .insertAt 1 [53], .insertAt 1 [54]]

/-! ## Notions used to state the properties -/

/-- Every byte is one of the 92 digit bytes, strictly between `START_SYM` and
`END_SYM`. -/
def ValidSeq (s : Bytes) : Prop := ∀ b ∈ s, START_SYM < b ∧ b < END_SYM

/-- The base-92 value of a digit sequence, most significant digit first; the
digit of a byte is the byte minus `START_SYM + 1`. -/
def seqVal (s : Bytes) : Nat :=
  s.foldl (fun acc b => acc * KEY_BASE + (b - (START_SYM + 1))) 0

/-- The sentinel keys are the key prefix followed by `START_SYM` and by
`END_SYM`, as the constructor sets them. -/
def PersistentList.WellFormed (l : PersistentList) : Prop :=
  l.mHeadKey = l.GetKey [START_SYM] ∧ l.mTailKey = l.GetKey [END_SYM]

/-- The store is sorted and holds the list: its head sentinel, then exactly
the entries `ents`, then its tail sentinel. -/
def PersistentList.Holds (l : PersistentList) (db : DB) (ents : List Entry) : Prop :=
  DB.Sorted db ∧ ∃ (pre post : DB) (hv tv : Bytes),
    db = pre ++ (l.mHeadKey, hv) :: (ents ++ (l.mTailKey, tv) :: post)

/-- The loop `for (...) pl->PushBack(data)` of the tests. -/
def pushBackAll (l : PersistentList) : DB → List Bytes → Option DB
  | db, [] => some db
  | db, v :: vs => (l.PushBack db v).bind fun r => pushBackAll l r.2 vs

/-- The loop `for (...) pl->PushFront(data)` of the tests. -/
def pushFrontAll (l : PersistentList) : DB → List Bytes → Option DB
  | db, [] => some db
  | db, v :: vs => (l.PushFront db v).bind fun r => pushFrontAll l r.2 vs

/-- The loop of the tests that calls `Front()` and then `PopFront()`, `n`
times: the pairs of results, in order, and the store at the end. -/
def frontPopRounds (l : PersistentList) :
    Nat → DB → Option (List ((Bool × Bytes) × Bool) × DB)
  | 0, db => some ([], db)
  | n + 1, db =>
    (l.Front db).bind fun f =>
    (l.PopFront db).bind fun p =>
    (frontPopRounds l n p.2).bind fun r =>
    some ((f, p.1) :: r.1, r.2)

/-- The loop of the tests that calls `Back()` and then `PopBack()`, `n` times. -/
def backPopRounds (l : PersistentList) :
    Nat → DB → Option (List ((Bool × Bytes) × Bool) × DB)
  | 0, db => some ([], db)
  | n + 1, db =>
    (l.Back db).bind fun f =>
    (l.PopBack db).bind fun p =>
    (backPopRounds l n p.2).bind fun r =>
    some ((f, p.1) :: r.1, r.2)

/-- The entries of the store strictly between the two sentinel keys of the
list, in ascending key order. -/
def PersistentList.entries (l : PersistentList) (db : DB) : List Entry :=
  db.filter fun e => bytesLt l.mHeadKey e.1 && bytesLt e.1 l.mTailKey

/-- The key is present in the store. -/
def DB.HasKey (db : DB) (key : Bytes) : Prop := ∃ v, (key, v) ∈ db

/-- The store `exampleStore` after `PushBack` of `a` and of `b`: the entries
`pl/0/NNNNNNNN` and `pl/0/NNNNNNNO` between the sentinels. -/
def exampleStoreTwo : DB :=
  [([112, 108, 47, 48, 47, 33], [52, 50]),
   ([112, 108, 47, 48, 47, 78, 78, 78, 78, 78, 78, 78, 78], [97]),
   ([112, 108, 47, 48, 47, 78, 78, 78, 78, 78, 78, 78, 79], [98]),
   ([112, 108, 47, 48, 47, 126], [52, 50]),
   ([112, 108, 47, 109, 121, 108, 105, 115, 116, 47, 105, 100], [48]),
   ([112, 108, 47, 110, 101, 120, 116, 95, 105, 100], [49])]

/-- The value of a vector of base-92 digits, most significant digit first. -/
def digitsVal (ds : List Int) : Int := ds.foldl (fun acc d => acc * 92 + d) 0

/-- Every entry of the vector is a digit, from 0 to 91. -/
def ValidDigits (ds : List Int) : Prop := ∀ d ∈ ds, 0 ≤ d ∧ d < 92

/-- The base-92 value of a digit sequence padded with zero digits on the
right to `n` digits. -/
def padVal (s : Bytes) (n : Nat) : Nat := seqVal s * 92 ^ (n - s.length)

/-! ## Scans that delete, and the constructor -/

namespace PersistentList

/-- The scan loop of `PopValue`: the iterator reads the snapshot taken before
the loop, the deletions go to the store; `fuel` bounds the number of rounds. -/
def PopValue.loop (l : PersistentList) (value : Bytes) :
    Nat → Iterator → DB → Bool → Option (Bool × DB)
  | 0, _, _, _ => none
  | fuel + 1, iter, db, deleted =>
    (iter.Next).bind fun iter1 =>
    (iter1.key).bind fun nextKey =>
    if l.mTailKey = nextKey then some (deleted, db)
    else
      (iter1.value).bind fun v =>
      if value = v then PopValue.loop l value fuel iter1 (DB.Delete db nextKey) true
      else PopValue.loop l value fuel iter1 db deleted

/-- The function `PersistentList::PopValue`: the result and the new store. -/
def PopValue (l : PersistentList) (db : DB) (value : Bytes) : Option (Bool × DB) :=
  PopValue.loop l value (db.length + 1) ((DB.NewIterator db).Seek l.mHeadKey) db false

/-- The scan loop of `Clear`. -/
def Clear.loop (l : PersistentList) : Nat → Iterator → DB → Option DB
  | 0, _, _ => none
  | fuel + 1, iter, db =>
    (iter.Next).bind fun iter1 =>
    (iter1.key).bind fun nextKey =>
    if l.mTailKey = nextKey then some db
    else Clear.loop l fuel iter1 (DB.Delete db nextKey)

/-- The function `PersistentList::Clear`: the new store. -/
def Clear (l : PersistentList) (db : DB) : Option DB :=
  Clear.loop l (db.length + 1) ((DB.NewIterator db).Seek l.mHeadKey) db

/-- The test `isspace` of the C locale. -/
def isSpace (b : Nat) : Bool := decide (b = 32 ∨ (9 ≤ b ∧ b ≤ 13))

/-- The test `isdigit`. -/
def isDigit (b : Nat) : Bool := decide (48 ≤ b ∧ b ≤ 57)

/-- The library function `std::stoi` in base 10: leading white space and one
sign are skipped, the longest run of digits is read and what follows is
ignored; no digit at all, or a value outside the range of `int`, throws. -/
def stoi (s : Bytes) : Option Int :=
  let s1 := s.dropWhile isSpace
  let neg := decide (s1.head? = some 45)
  let s2 := if s1.head? = some 45 ∨ s1.head? = some 43 then s1.tail else s1
  let ds := s2.takeWhile isDigit
  if ds = [] then none
  else
    let n : Int := ((ds.foldl (fun acc d => acc * 10 + (d - 48)) 0 : Nat) : Int)
    let v : Int := if neg then -n else n
    if v < -(2 ^ 31) ∨ 2 ^ 31 ≤ v then none else some v

/-- The decimal digits of `n` before `acc`; `fuel` bounds the number of digits. -/
def to_string.digits : Nat → Nat → Bytes → Bytes
  | 0, _, acc => acc
  | fuel + 1, n, acc =>
    if n < 10 then (48 + n) :: acc
    else to_string.digits fuel (n / 10) ((48 + n % 10) :: acc)

/-- The library function `std::to_string` on an `int`. -/
def to_string (x : Int) : Bytes :=
  if x < 0 then 45 :: to_string.digits (x.natAbs + 1) x.natAbs []
  else to_string.digits (x.natAbs + 1) x.natAbs []

/-- The object that the constructor builds for a list name and a list id:
the key prefix is `KEY_PREFIX`, the id and `/`, the sentinel keys are the key
prefix followed by `START_SYM` and by `END_SYM`. -/
def Get.object (KEY_PREFIX listName listId : Bytes) : PersistentList :=
  ⟨listName, listId, KEY_PREFIX ++ listId ++ [47] ++ [START_SYM],
    KEY_PREFIX ++ listId ++ [47] ++ [END_SYM], KEY_PREFIX ++ listId ++ [47]⟩

/-- The writes of the constructor for a new list, once the id `listId` is read
from the counter: the counter `next_id` gets `stoi(listId) + 1`, the record
`listName/id` gets `listId`, and both sentinels get the value `42`. -/
def Get.register (KEY_PREFIX : Bytes) (db : DB) (listName listId : Bytes) : Option DB :=
  (stoi listId).bind fun n =>
  some (DB.Put
    (DB.Put
      (DB.Put
        (DB.Put db (KEY_PREFIX ++ [110, 101, 120, 116, 95, 105, 100])
          (to_string (wrap32 (n + 1))))
        (KEY_PREFIX ++ listName ++ [47, 105, 100]) listId)
      ((Get.object KEY_PREFIX listName listId).GetKey [START_SYM]) [52, 50])
    ((Get.object KEY_PREFIX listName listId).GetKey [END_SYM]) [52, 50])

/-- The constructor `PersistentList::PersistentList`, reached through
`PersistentList::Get`: the new object and the new store.  The constant
`KEY_PREFIX` is not defined in the sources at hand and is a parameter; the
tests build their keys with `pl/`.  A status of the store other than found and
not found is not modelled. -/
def Get (KEY_PREFIX : Bytes) (db : DB) (listName : Bytes) : Option (PersistentList × DB) :=
  match DB.Get db (KEY_PREFIX ++ listName ++ [47, 105, 100]) with
  | none =>
    match DB.Get db (KEY_PREFIX ++ [110, 101, 120, 116, 95, 105, 100]) with
    | none =>
      (Get.register KEY_PREFIX (DB.Put db (KEY_PREFIX ++ [110, 101, 120, 116, 95, 105, 100]) [48])
        listName [48]).map fun db5 => (Get.object KEY_PREFIX listName [48], db5)
    | some listId =>
      (Get.register KEY_PREFIX db listName listId).map fun db5 =>
        (Get.object KEY_PREFIX listName listId, db5)
  | some idValue => some (Get.object KEY_PREFIX listName idValue, db)

end PersistentList

/-! ## Reachable states -/

/-- The cursors that a client reaches over the store `db`: a new cursor of
the list after `SeekFront()` or `SeekBack()`, and from there by `SeekFront()`,
`SeekBack()`, `Next()` and `Prev()`, as long as each call returns. -/
inductive CursorReach (l : PersistentList) (db : DB) : PersistentListIterator → Prop
  | seekFrontNew : CursorReach l db (PersistentListIterator.new l db).SeekFront
  | seekBackNew : CursorReach l db (PersistentListIterator.new l db).SeekBack
  | seekFront (c : PersistentListIterator) : CursorReach l db c → CursorReach l db c.SeekFront
  | seekBack (c : PersistentListIterator) : CursorReach l db c → CursorReach l db c.SeekBack
  | next (c : PersistentListIterator) (r : Bool × PersistentListIterator) :
      CursorReach l db c → c.Next = some r → CursorReach l db r.2
  | prev (c : PersistentListIterator) (r : Bool × PersistentListIterator) :
      CursorReach l db c → c.Prev = some r → CursorReach l db r.2

/-- The store `exampleStore` after the list named `0` was opened: that list
got the id `1`, the sentinels `pl/1/!` and `pl/1/~`, and the record `pl/0/id`. -/
def exampleStoreZero : DB :=
  [([112, 108, 47, 48, 47, 33], [52, 50]),
   ([112, 108, 47, 48, 47, 105, 100], [49]),
   ([112, 108, 47, 48, 47, 126], [52, 50]),
   ([112, 108, 47, 49, 47, 33], [52, 50]),
   ([112, 108, 47, 49, 47, 126], [52, 50]),
   ([112, 108, 47, 109, 121, 108, 105, 115, 116, 47, 105, 100], [48]),
   ([112, 108, 47, 110, 101, 120, 116, 95, 105, 100], [50])]

/-- The value is in the range of `long long`. -/
def fits64 (x : Int) : Bool := decide (-(2 ^ 63) ≤ x ∧ x < 2 ^ 63)

/-- The subtraction loop of `MidKey` on exact integers, entered with
`n = i + 1`: true when, in every round, the product `val * posVal`, the sum
`diff + val * posVal` and the product `posVal * KEY_BASE` are in the range of
`long long`. -/
def PersistentList.MidKey.diffLoopFits (key1Data key2Data : List Int) :
    Nat → (carry diff posVal : Int) → Bool
  | 0, _, _, _ => true
  | i + 1, carry, diff, posVal =>
    let val := key2Data.getD i 0 - key1Data.getD i 0 - carry
    let val1 := if val < 0 then val + (KEY_BASE : Int) else val
    let carry1 : Int := if val < 0 then 1 else 0
    fits64 (val1 * posVal) && fits64 (diff + val1 * posVal)
      && fits64 (posVal * (KEY_BASE : Int))
      && PersistentList.MidKey.diffLoopFits key1Data key2Data i carry1
          (diff + val1 * posVal) (posVal * (KEY_BASE : Int))

/-- The key is the key prefix of the list followed by at least `KEY_LEN`
digit bytes, each from 34 to 125. -/
def PersistentList.KeyShape (l : PersistentList) (key : Bytes) : Prop :=
  ∃ s, key = l.mKeyPrefix ++ s ∧ KEY_LEN ≤ s.length ∧ ValidSeq s

/-! ## A key of sixteen digits -/

/-- A client loop: `n` times, a new cursor is moved to the last entry of the
list (`SeekBack`, `Prev`) and `InsertAt` stores `v` before that entry. -/
def insertBeforeLast (l : PersistentList) (v : Bytes) : Nat → DB → Option DB
  | 0, db => some db
  | n + 1, db =>
    ((PersistentListIterator.new l db).SeekBack.Prev).bind fun c =>
    (l.InsertAt db c.2 v).bind fun r => insertBeforeLast l v n r.2

/-- The digit sequence `NNNNNNNN}}}}}}}N`, of sixteen digits. -/
def longKeySeq : Bytes :=
  [78, 78, 78, 78, 78, 78, 78, 78, 125, 125, 125, 125, 125, 125, 125, 78]

/-- The store of the example list with one entry, under the sixteen-digit key
`pl/0/NNNNNNNN}}}}}}}N`. -/
def exampleStoreLong : DB :=
  [([112, 108, 47, 48, 47, 33], [52, 50]),
   ([112, 108, 47, 48, 47, 78, 78, 78, 78, 78, 78, 78, 78,
      125, 125, 125, 125, 125, 125, 125, 78], [120]),
   ([112, 108, 47, 48, 47, 126], [52, 50]),
   ([112, 108, 47, 109, 121, 108, 105, 115, 116, 47, 105, 100], [48]),
   ([112, 108, 47, 110, 101, 120, 116, 95, 105, 100], [49])]

/-! ## The bytewise order -/

theorem bytesLt_irrefl (a : Bytes) : bytesLt a a = false := by
  induction a with
  | nil => rfl
  | cons x xs ih => simp [bytesLt, ih]

theorem bytesLt_trans : ∀ (a b c : Bytes),
    bytesLt a b = true → bytesLt b c = true → bytesLt a c = true
  | [], [], _, h, _ => by simp [bytesLt] at h
  | [], _ :: _, [], _, h => by simp [bytesLt] at h
  | [], _ :: _, _ :: _, _, _ => by simp [bytesLt]
  | _ :: _, [], _, h, _ => by simp [bytesLt] at h
  | _ :: _, _ :: _, [], _, h => by simp [bytesLt] at h
  | x :: xs, y :: ys, z :: zs, h1, h2 => by
    simp only [bytesLt] at h1 h2 ⊢
    by_cases hxy : x < y
    · by_cases hyz : y < z
      · have : x < z := by omega
        simp [this]
      · by_cases hzy : z < y
        · simp [hyz, hzy] at h2
        · have : x < z := by omega
          simp [this]
    · by_cases hyx : y < x
      · simp [hxy, hyx] at h1
      · have hxy1 : x = y := by omega
        subst hxy1
        by_cases hxz : x < z
        · simp [hxz]
        · by_cases hzx : z < x
          · simp [hxz, hzx] at h2
          · simp only [hxy, hxz, hzx, if_false] at h1 h2 ⊢
            exact bytesLt_trans xs ys zs h1 h2

theorem bytesLt_asymm (a b : Bytes) (h : bytesLt a b = true) : bytesLt b a = false := by
  cases hba : bytesLt b a with
  | false => rfl
  | true =>
    have := bytesLt_trans a b a h hba
    rw [bytesLt_irrefl] at this
    exact absurd this (by simp)

theorem bytesLt_ne (a b : Bytes) (h : bytesLt a b = true) : a ≠ b := by
  intro hab
  subst hab
  rw [bytesLt_irrefl] at h
  exact absurd h (by simp)

theorem bytesLt_connex : ∀ (a b : Bytes),
    bytesLt a b = false → bytesLt b a = false → a = b
  | [], [], _, _ => rfl
  | [], _ :: _, h, _ => by simp [bytesLt] at h
  | _ :: _, [], _, h => by simp [bytesLt] at h
  | x :: xs, y :: ys, h1, h2 => by
    simp only [bytesLt] at h1 h2
    by_cases hxy : x < y
    · simp [hxy] at h1
    · by_cases hyx : y < x
      · simp [hyx] at h2
      · have hxy1 : x = y := by omega
        subst hxy1
        simp only [hxy, if_false] at h1 h2
        rw [bytesLt_connex xs ys h1 h2]

theorem bytesLt_append_left (p a b : Bytes) : bytesLt (p ++ a) (p ++ b) = bytesLt a b := by
  induction p with
  | nil => rfl
  | cons x xs ih => simp [bytesLt, ih]

theorem bytesLt_append_self (a b : Bytes) (hb : b ≠ []) : bytesLt a (a ++ b) = true := by
  induction a with
  | nil =>
    cases b with
    | nil => exact absurd rfl hb
    | cons y ys => rfl
  | cons x xs ih => simp [bytesLt, ih]

/-! ## The store and its iterator -/

theorem DB.Sorted.left {A B : DB} (h : DB.Sorted (A ++ B)) : DB.Sorted A :=
  (List.pairwise_append.mp h).1

theorem DB.Sorted.right {A B : DB} (h : DB.Sorted (A ++ B)) : DB.Sorted B :=
  (List.pairwise_append.mp h).2.1

theorem DB.Sorted.before {A B : DB} (h : DB.Sorted (A ++ B)) (a : Entry) (ha : a ∈ A)
    (b : Entry) (hb : b ∈ B) : bytesLt a.1 b.1 = true :=
  (List.pairwise_append.mp h).2.2 a ha b hb

theorem DB.Sorted.head_lt {x : Entry} {B : DB} (h : DB.Sorted (x :: B)) (b : Entry)
    (hb : b ∈ B) : bytesLt x.1 b.1 = true :=
  (List.pairwise_cons.mp h).1 b hb

theorem DB.Sorted.tail {x : Entry} {B : DB} (h : DB.Sorted (x :: B)) : DB.Sorted B :=
  (List.pairwise_cons.mp h).2

theorem findIdx_split (k : Bytes) (A : DB) (x : Entry) (B : DB)
    (hA : ∀ e ∈ A, bytesLt e.1 k = true) (hx : bytesLt x.1 k = false) :
    List.findIdx (fun e => !bytesLt e.1 k) (A ++ x :: B) = A.length := by
  induction A with
  | nil => simp [List.findIdx_cons, hx]
  | cons a A ih =>
    have ha : bytesLt a.1 k = true := hA a (List.mem_cons_self _ _)
    have ih1 := ih (fun e he => hA e (List.mem_cons_of_mem _ he))
    simp [List.findIdx_cons, ha, ih1]

theorem seek_split (A : DB) (x : Entry) (B : DB) (h : DB.Sorted (A ++ x :: B)) :
    (DB.NewIterator (A ++ x :: B)).Seek x.1 = ⟨A ++ x :: B, A.length⟩ := by
  unfold Iterator.Seek DB.NewIterator
  simp only
  rw [findIdx_split x.1 A x B (fun e he => h.before e he x (List.mem_cons_self _ _))
    (bytesLt_irrefl _)]

theorem get?_split (A : DB) (x : Entry) (B : DB) :
    (A ++ x :: B).get? A.length = some x := by
  induction A with
  | nil => rfl
  | cons a A ih => simpa using ih

theorem get?_split_succ (A : DB) (x y : Entry) (B : DB) :
    (A ++ x :: y :: B).get? (A.length + 1) = some y := by
  have : A ++ x :: y :: B = (A ++ [x]) ++ y :: B := by simp
  rw [this]
  have h2 : A.length + 1 = (A ++ [x]).length := by simp
  rw [h2]
  exact get?_split _ _ _

/-- From an entry, `Seek` and `Next` lead to the entry that follows it. -/
theorem seek_next (A : DB) (x y : Entry) (B : DB) (h : DB.Sorted (A ++ x :: y :: B)) :
    ((DB.NewIterator (A ++ x :: y :: B)).Seek x.1).Next
      = some ⟨A ++ x :: y :: B, A.length + 1⟩ := by
  rw [seek_split A x (y :: B) h]
  simp [Iterator.Next, Iterator.Valid]

/-- From an entry, `Seek` and `Prev` lead to the entry that precedes it. -/
theorem seek_prev (A : DB) (x y : Entry) (B : DB) (h : DB.Sorted (A ++ x :: y :: B)) :
    ((DB.NewIterator (A ++ x :: y :: B)).Seek y.1).Prev
      = some ⟨A ++ x :: y :: B, A.length⟩ := by
  have e : A ++ x :: y :: B = (A ++ [x]) ++ y :: B := by simp
  have h1 : DB.Sorted ((A ++ [x]) ++ y :: B) := by rw [← e]; exact h
  have h2 := seek_split (A ++ [x]) y B h1
  rw [← e] at h2
  rw [h2]
  simp [Iterator.Prev, Iterator.Valid]

theorem key_at (A : DB) (x : Entry) (B : DB) :
    Iterator.key ⟨A ++ x :: B, A.length⟩ = some x.1 := by
  simp only [Iterator.key, get?_split, Option.map_some']

theorem value_at (A : DB) (x : Entry) (B : DB) :
    Iterator.value ⟨A ++ x :: B, A.length⟩ = some x.2 := by
  simp only [Iterator.value, get?_split, Option.map_some']

theorem key_at_succ (A : DB) (x y : Entry) (B : DB) :
    Iterator.key ⟨A ++ x :: y :: B, A.length + 1⟩ = some y.1 := by
  simp only [Iterator.key, get?_split_succ, Option.map_some']

theorem value_at_succ (A : DB) (x y : Entry) (B : DB) :
    Iterator.value ⟨A ++ x :: y :: B, A.length + 1⟩ = some y.2 := by
  simp only [Iterator.value, get?_split_succ, Option.map_some']

theorem put_skip (A B : DB) (k v : Bytes) (hA : ∀ e ∈ A, bytesLt e.1 k = true) :
    DB.Put (A ++ B) k v = A ++ DB.Put B k v := by
  induction A with
  | nil => rfl
  | cons a A ih =>
    have ha : bytesLt a.1 k = true := hA a (List.mem_cons_self _ _)
    have h1 : bytesLt k a.1 = false := bytesLt_asymm _ _ ha
    have h2 : a.1 ≠ k := bytesLt_ne _ _ ha
    simp [DB.Put, h1, h2, ih (fun e he => hA e (List.mem_cons_of_mem _ he))]

/-- A key that sorts between two neighbours is written between them. -/
theorem put_between (A : DB) (y : Entry) (B : DB) (k v : Bytes)
    (hA : ∀ e ∈ A, bytesLt e.1 k = true) (hy : bytesLt k y.1 = true) :
    DB.Put (A ++ y :: B) k v = A ++ (k, v) :: y :: B := by
  rw [put_skip A (y :: B) k v hA]
  simp [DB.Put, hy]

/-- A key that is present keeps its place and gets the new value. -/
theorem put_replace (A : DB) (y : Entry) (B : DB) (v : Bytes)
    (h : DB.Sorted (A ++ y :: B)) :
    DB.Put (A ++ y :: B) y.1 v = A ++ (y.1, v) :: B := by
  rw [put_skip A (y :: B) y.1 v (fun e he => h.before e he y (List.mem_cons_self _ _))]
  simp [DB.Put, bytesLt_irrefl]

theorem sorted_insert (A : DB) (y : Entry) (B : DB) (k v : Bytes)
    (h : DB.Sorted (A ++ y :: B))
    (hA : ∀ e ∈ A, bytesLt e.1 k = true) (hy : bytesLt k y.1 = true) :
    DB.Sorted (A ++ (k, v) :: y :: B) := by
  unfold DB.Sorted at h ⊢
  rw [List.pairwise_append] at h ⊢
  obtain ⟨h1, h2, h3⟩ := h
  refine ⟨h1, ?_, ?_⟩
  · rw [List.pairwise_cons]
    refine ⟨?_, h2⟩
    intro b hb
    rcases List.mem_cons.mp hb with rfl | hb
    · exact hy
    · exact bytesLt_trans _ _ _ hy ((List.pairwise_cons.mp h2).1 b hb)
  · intro a ha b hb
    rcases List.mem_cons.mp hb with rfl | hb
    · exact hA a ha
    · exact h3 a ha b hb

theorem delete_split (A : DB) (x : Entry) (B : DB) (h : DB.Sorted (A ++ x :: B)) :
    DB.Delete (A ++ x :: B) x.1 = A ++ B := by
  have hA : List.filter (fun e : Entry => decide (e.1 ≠ x.1)) A = A := by
    rw [List.filter_eq_self]
    intro a ha
    have := bytesLt_ne _ _ (h.before a ha x (List.mem_cons_self _ _))
    simpa using this
  have hB : List.filter (fun e : Entry => decide (e.1 ≠ x.1)) B = B := by
    rw [List.filter_eq_self]
    intro b hb
    have := bytesLt_ne _ _ (h.right.head_lt b hb)
    simpa using fun hh => this hh.symm
  have hx : decide (x.1 ≠ x.1) = false := by simp
  unfold DB.Delete
  rw [List.filter_append, List.filter_cons, hA, hB, hx]
  simp

theorem sorted_remove (A : DB) (x : Entry) (B : DB) (h : DB.Sorted (A ++ x :: B)) :
    DB.Sorted (A ++ B) := by
  unfold DB.Sorted at h ⊢
  rw [List.pairwise_append] at h ⊢
  obtain ⟨h1, h2, h3⟩ := h
  exact ⟨h1, (List.pairwise_cons.mp h2).2, fun a ha b hb => h3 a ha b (List.mem_cons_of_mem _ hb)⟩

/-! ## Digit sequences -/

theorem seqVal_nil : seqVal [] = 0 := rfl

theorem seqVal_append_singleton (s : Bytes) (b : Nat) :
    seqVal (s ++ [b]) = seqVal s * 92 + (b - 34) := by
  simp [seqVal, List.foldl_append, KEY_BASE, START_SYM]

theorem seqVal_foldl (s : Bytes) (acc : Nat) :
    s.foldl (fun acc b => acc * KEY_BASE + (b - (START_SYM + 1))) acc
      = acc * 92 ^ s.length + seqVal s := by
  induction s generalizing acc with
  | nil => simp [seqVal]
  | cons a s ih =>
    simp only [List.foldl_cons, seqVal, List.length_cons]
    rw [ih, ih (0 * KEY_BASE + (a - (START_SYM + 1)))]
    simp only [KEY_BASE, START_SYM]
    ring

theorem seqVal_cons (a : Nat) (s : Bytes) :
    seqVal (a :: s) = (a - 34) * 92 ^ s.length + seqVal s := by
  have := seqVal_foldl s (0 * KEY_BASE + (a - (START_SYM + 1)))
  simp only [seqVal, List.foldl_cons]
  rw [this]
  simp [KEY_BASE, START_SYM, seqVal]

theorem ValidSeq.cons {a : Nat} {s : Bytes} (h : ValidSeq (a :: s)) :
    (33 < a ∧ a < 126) ∧ ValidSeq s :=
  ⟨h a (List.mem_cons_self _ _), fun b hb => h b (List.mem_cons_of_mem _ hb)⟩

theorem ValidSeq.append {s t : Bytes} (hs : ValidSeq s) (ht : ValidSeq t) :
    ValidSeq (s ++ t) := by
  intro b hb
  rcases List.mem_append.mp hb with h | h
  · exact hs b h
  · exact ht b h

theorem ValidSeq.of_append {s t : Bytes} (h : ValidSeq (s ++ t)) :
    ValidSeq s ∧ ValidSeq t :=
  ⟨fun b hb => h b (List.mem_append_left _ hb), fun b hb => h b (List.mem_append_right _ hb)⟩

theorem validSeq_singleton {b : Nat} (h1 : 33 < b) (h2 : b < 126) : ValidSeq [b] := by
  intro c hc
  rw [List.mem_singleton] at hc
  subst hc
  exact ⟨h1, h2⟩

theorem seqVal_lt (s : Bytes) (h : ValidSeq s) : seqVal s < 92 ^ s.length := by
  induction s using List.reverseRecOn with
  | nil => simp [seqVal]
  | append_singleton s b ih =>
    have hs := (ValidSeq.of_append h).1
    have hb := (ValidSeq.of_append h).2 b (List.mem_singleton_self b)
    have ih1 := ih hs
    rw [seqVal_append_singleton, List.length_append, List.length_singleton, pow_succ]
    simp only [START_SYM, END_SYM] at hb
    omega

/-- On valid digit sequences of one length, the bytewise order is the order of
the base-92 values. -/
theorem bytesLt_of_seqVal_lt : ∀ (s t : Bytes), ValidSeq s → ValidSeq t →
    s.length = t.length → seqVal s < seqVal t → bytesLt s t = true
  | [], [], _, _, _, h => by simp [seqVal] at h
  | [], _ :: _, _, _, hl, _ => by simp at hl
  | _ :: _, [], _, _, hl, _ => by simp at hl
  | a :: s, b :: t, hs, ht, hl, h => by
    have hl1 : s.length = t.length := by simpa using hl
    have ha := hs.cons.1
    have hb := ht.cons.1
    have hs1 := seqVal_lt s hs.cons.2
    have ht1 := seqVal_lt t ht.cons.2
    rw [seqVal_cons, seqVal_cons, hl1] at h
    rw [hl1] at hs1
    simp only [bytesLt]
    by_cases hab : a < b
    · simp [hab]
    · by_cases hba : b < a
      · exfalso
        have h3 : (b - 34 + 1) * 92 ^ t.length ≤ (a - 34) * 92 ^ t.length :=
          Nat.mul_le_mul_right _ (by omega)
        rw [Nat.add_mul, Nat.one_mul] at h3
        omega
      · have hab1 : a = b := by omega
        subst hab1
        simp only [hab, if_false]
        exact bytesLt_of_seqVal_lt s t hs.cons.2 ht.cons.2 hl1 (by omega)

theorem bytesLt_head_sentinel (s : Bytes) (hs : ValidSeq s) (hne : s ≠ []) :
    bytesLt [START_SYM] s = true := by
  cases s with
  | nil => exact absurd rfl hne
  | cons a s =>
    have := hs.cons.1
    simp [bytesLt, START_SYM, this.1]

theorem bytesLt_tail_sentinel (s : Bytes) (hs : ValidSeq s) (hne : s ≠ []) :
    bytesLt s [END_SYM] = true := by
  cases s with
  | nil => exact absurd rfl hne
  | cons a s =>
    have := hs.cons.1
    simp [bytesLt, END_SYM, this.2]

/-! ## The carry loops of `NextKey` and `PrevKey` -/

theorem getD_append_at (f : List Nat) (c : Nat) (back : List Nat) :
    (f ++ c :: back).getD f.length 0 = c := by
  induction f with
  | nil => rfl
  | cons a f ih => simpa using ih

theorem set_append_at (f : List Nat) (c x : Nat) (back : List Nat) :
    (f ++ c :: back).set f.length x = f ++ x :: back := by
  induction f with
  | nil => rfl
  | cons a f ih => simp [ih]

/-- The carry loop on the first `front.length` bytes of the buffer adds one to
their base-92 value, modulo `92 ^ front.length`, and leaves the other bytes. -/
theorem NextKey_loop_spec (front : List Nat) : ∀ (back : List Nat) (carry : Nat),
    ((carry = 0 ∧ front.length = 8) ∨ (carry = 1 ∧ front.length < 8)) →
    ValidSeq front →
    ∃ res, PersistentList.NextKey.loop (front ++ back) carry front.length = res ++ back
      ∧ res.length = front.length ∧ ValidSeq res
      ∧ seqVal res = (seqVal front + 1) % 92 ^ front.length := by
  induction front using List.reverseRecOn with
  | nil =>
    intro back carry _ _
    exact ⟨[], by simp [PersistentList.NextKey.loop], rfl, fun b hb => by simp at hb,
      by simp [seqVal]⟩
  | append_singleton f c ih =>
    intro back carry hgood hvalid
    have hf := (ValidSeq.of_append hvalid).1
    have hc := (ValidSeq.of_append hvalid).2 c (List.mem_singleton_self c)
    simp only [START_SYM, END_SYM] at hc
    have hlen : (f ++ [c]).length = f.length + 1 := by simp
    have hadd : carry + (if f.length = KEY_LEN - 1 then 1 else 0) = 1 := by
      rcases hgood with ⟨h0, h8⟩ | ⟨h1, h8⟩
      · rw [hlen] at h8
        have : f.length = KEY_LEN - 1 := by simp [KEY_LEN]; omega
        simp [h0, this]
      · rw [hlen] at h8
        have : ¬ f.length = KEY_LEN - 1 := by simp [KEY_LEN]; omega
        simp [h1, this]
    have hfb : f ++ [c] ++ back = f ++ c :: back := by simp
    rw [hlen, hfb]
    simp only [PersistentList.NextKey.loop, getD_append_at, set_append_at]
    rw [Nat.add_assoc, hadd]
    have hmod : (c + 1) % 256 = c + 1 := Nat.mod_eq_of_lt (by omega)
    rw [hmod]
    have hVf := seqVal_lt f hf
    by_cases hwrap : c + 1 = END_SYM
    · rw [if_pos hwrap]
      have hflen : f.length < 8 := by
        rcases hgood with ⟨_, h8⟩ | ⟨_, h8⟩ <;> rw [hlen] at h8 <;> omega
      obtain ⟨res, hres, hl, hv, hval⟩ :=
        ih ((START_SYM + 1) :: back) 1 (Or.inr ⟨rfl, hflen⟩) hf
      refine ⟨res ++ [START_SYM + 1], ?_, ?_, ?_, ?_⟩
      · rw [hres]; simp
      · simp [hl]
      · exact hv.append (validSeq_singleton (by simp [START_SYM]) (by simp [START_SYM]))
      · rw [seqVal_append_singleton, seqVal_append_singleton, hval, pow_succ]
        simp only [END_SYM] at hwrap
        have hc' : c - 34 = 91 := by omega
        rw [hc']
        simp only [START_SYM]
        have : seqVal f * 92 + 91 + 1 = (seqVal f + 1) * 92 := by ring
        rw [this, Nat.mul_mod_mul_right]
        omega
    · rw [if_neg hwrap]
      simp only [END_SYM] at hwrap
      refine ⟨f ++ [c + 1], by simp, by simp, ?_, ?_⟩
      · exact hf.append (validSeq_singleton (by omega) (by omega))
      · rw [seqVal_append_singleton, seqVal_append_singleton, pow_succ]
        have : seqVal f * 92 + (c - 34) + 1 < 92 ^ f.length * 92 := by omega
        rw [Nat.mod_eq_of_lt this]
        omega

/-- The borrow loop on the first `front.length` bytes of the buffer subtracts
one from their base-92 value, modulo `92 ^ front.length`. -/
theorem PrevKey_loop_spec (front : List Nat) : ∀ (back : List Nat) (carry : Nat),
    ((carry = 0 ∧ front.length = 8) ∨ (carry = 1 ∧ front.length < 8)) →
    ValidSeq front →
    ∃ res, PersistentList.PrevKey.loop (front ++ back) carry front.length = res ++ back
      ∧ res.length = front.length ∧ ValidSeq res
      ∧ seqVal res = (seqVal front + (92 ^ front.length - 1)) % 92 ^ front.length := by
  induction front using List.reverseRecOn with
  | nil =>
    intro back carry _ _
    exact ⟨[], by simp [PersistentList.PrevKey.loop], rfl, fun b hb => by simp at hb,
      by simp [seqVal]⟩
  | append_singleton f c ih =>
    intro back carry hgood hvalid
    have hf := (ValidSeq.of_append hvalid).1
    have hc := (ValidSeq.of_append hvalid).2 c (List.mem_singleton_self c)
    simp only [START_SYM, END_SYM] at hc
    have hlen : (f ++ [c]).length = f.length + 1 := by simp
    have hsub : c + 256 - carry - (if f.length = KEY_LEN - 1 then 1 else 0) = c + 255 := by
      rcases hgood with ⟨h0, h8⟩ | ⟨h1, h8⟩
      · rw [hlen] at h8
        have : f.length = KEY_LEN - 1 := by simp [KEY_LEN]; omega
        simp [h0, this]
      · rw [hlen] at h8
        have : ¬ f.length = KEY_LEN - 1 := by simp [KEY_LEN]; omega
        simp [h1, this]
    have hfb : f ++ [c] ++ back = f ++ c :: back := by simp
    rw [hlen, hfb]
    simp only [PersistentList.PrevKey.loop, getD_append_at, set_append_at]
    rw [hsub]
    have hmod : (c + 255) % 256 = c - 1 := by omega
    rw [hmod]
    have hVf := seqVal_lt f hf
    have hpos : 0 < 92 ^ f.length := Nat.pow_pos (by omega)
    by_cases hwrap : c - 1 = START_SYM
    · rw [if_pos hwrap]
      have hflen : f.length < 8 := by
        rcases hgood with ⟨_, h8⟩ | ⟨_, h8⟩ <;> rw [hlen] at h8 <;> omega
      obtain ⟨res, hres, hl, hv, hval⟩ :=
        ih ((END_SYM - 1) :: back) 1 (Or.inr ⟨rfl, hflen⟩) hf
      refine ⟨res ++ [END_SYM - 1], ?_, ?_, ?_, ?_⟩
      · rw [hres]; simp
      · simp [hl]
      · exact hv.append (validSeq_singleton (by simp [END_SYM]) (by simp [END_SYM]))
      · rw [seqVal_append_singleton, seqVal_append_singleton, hval, pow_succ]
        simp only [START_SYM] at hwrap
        have hc' : c - 34 = 0 := by omega
        rw [hc']
        simp only [END_SYM]
        have e1 : seqVal f * 92 + 0 + (92 ^ f.length * 92 - 1)
            = (seqVal f + (92 ^ f.length - 1)) * 92 + 91 := by
          have : 92 ^ f.length * 92 - 1 = (92 ^ f.length - 1) * 92 + 91 := by omega
          rw [this]; ring
        rw [e1]
        have hq : (seqVal f + (92 ^ f.length - 1)) % 92 ^ f.length < 92 ^ f.length :=
          Nat.mod_lt _ hpos
        have e2 := Nat.mod_add_div (seqVal f + (92 ^ f.length - 1)) (92 ^ f.length)
        generalize (seqVal f + (92 ^ f.length - 1)) % 92 ^ f.length = r at hq e2 ⊢
        generalize (seqVal f + (92 ^ f.length - 1)) / 92 ^ f.length = q at e2
        rw [← e2]
        have e3 : (r + 92 ^ f.length * q) * 92 + 91
            = (r * 92 + 91) + (92 ^ f.length * 92) * q := by ring
        rw [e3, Nat.add_mul_mod_self_left]
        have : r * 92 + 91 < 92 ^ f.length * 92 := by omega
        rw [Nat.mod_eq_of_lt this]
    · rw [if_neg hwrap]
      simp only [START_SYM] at hwrap
      refine ⟨f ++ [c - 1], by simp, by simp, ?_, ?_⟩
      · exact hf.append (validSeq_singleton (by omega) (by omega))
      · rw [seqVal_append_singleton, seqVal_append_singleton, pow_succ]
        have e1 : seqVal f * 92 + (c - 34) + (92 ^ f.length * 92 - 1)
            = (seqVal f * 92 + (c - 1 - 34)) + (92 ^ f.length * 92) * 1 := by omega
        rw [e1, Nat.add_mul_mod_self_left]
        have : seqVal f * 92 + (c - 1 - 34) < 92 ^ f.length * 92 := by omega
        rw [Nat.mod_eq_of_lt this]

/-! ## `NextKey` and `PrevKey` on a key of the list -/

/-- On a key with eight valid digits (and at most seven bytes after them,
so that the sequence fits the buffer inside the string object) `NextKey`
returns the key prefix and eight valid digits, whose value is one more modulo
`92 ^ 8`. -/
theorem NextKey_spec (l : PersistentList) (s extra : Bytes) (hs : ValidSeq s)
    (hl : s.length = 8) (hx : extra.length ≤ 7) :
    ∃ s', l.NextKey (l.mKeyPrefix ++ (s ++ extra)) = some (l.mKeyPrefix ++ s')
      ∧ s'.length = 8 ∧ ValidSeq s' ∧ seqVal s' = (seqVal s + 1) % 92 ^ 8 := by
  obtain ⟨res, hres, hlen, hv, hval⟩ := NextKey_loop_spec s [] 0 (Or.inl ⟨rfl, hl⟩) hs
  refine ⟨res, ?_, by rw [hlen, hl], hv, by rw [hval, hl]⟩
  have h1 : ¬ (l.mKeyPrefix ++ (s ++ extra)).length < l.mKeyPrefix.length + KEY_LEN := by
    simp [KEY_LEN, hl]
  have h2 : List.take KEY_LEN (s ++ extra) = s := by
    rw [show KEY_LEN = s.length from hl.symm]
    simp
  have h3 : ¬ l.mKeyPrefix.length + SSO_CAPACITY < (l.mKeyPrefix ++ (s ++ extra)).length := by
    simp [SSO_CAPACITY, hl]
    omega
  simp only [PersistentList.NextKey, if_neg h1, if_neg h3, List.drop_left, h2]
  rw [show KEY_LEN = s.length from hl.symm]
  simp only [List.append_nil] at hres
  rw [hres]

/-- The counterpart of `NextKey_spec` for `PrevKey`: the value is one less
modulo `92 ^ 8`. -/
theorem PrevKey_spec (l : PersistentList) (s extra : Bytes) (hs : ValidSeq s)
    (hl : s.length = 8) (hx : extra.length ≤ 7) :
    ∃ s', l.PrevKey (l.mKeyPrefix ++ (s ++ extra)) = some (l.mKeyPrefix ++ s')
      ∧ s'.length = 8 ∧ ValidSeq s' ∧ seqVal s' = (seqVal s + (92 ^ 8 - 1)) % 92 ^ 8 := by
  obtain ⟨res, hres, hlen, hv, hval⟩ := PrevKey_loop_spec s [] 0 (Or.inl ⟨rfl, hl⟩) hs
  refine ⟨res, ?_, by rw [hlen, hl], hv, by rw [hval, hl]⟩
  have h1 : ¬ (l.mKeyPrefix ++ (s ++ extra)).length < l.mKeyPrefix.length + KEY_LEN := by
    simp [KEY_LEN, hl]
  have h2 : List.take KEY_LEN (s ++ extra) = s := by
    rw [show KEY_LEN = s.length from hl.symm]
    simp
  have h3 : ¬ l.mKeyPrefix.length + SSO_CAPACITY < (l.mKeyPrefix ++ (s ++ extra)).length := by
    simp [SSO_CAPACITY, hl]
    omega
  simp only [PersistentList.PrevKey, if_neg h1, if_neg h3, List.drop_left, h2]
  rw [show KEY_LEN = s.length from hl.symm]
  simp only [List.append_nil] at hres
  rw [hres]

theorem validSeq_init : ValidSeq INIT_KEY_SEQ := by
  intro b hb
  simp only [INIT_KEY_SEQ, List.mem_cons, List.mem_singleton, List.not_mem_nil, or_false,
    or_self] at hb
  subst hb
  simp [START_SYM, END_SYM]

theorem seqVal_init : seqVal INIT_KEY_SEQ = 2481497848137660 := by
  simp [seqVal, INIT_KEY_SEQ, KEY_BASE, START_SYM]

theorem head_lt_key (l : PersistentList) (hl : l.WellFormed) (s : Bytes) (hs : ValidSeq s)
    (hne : s ≠ []) : bytesLt l.mHeadKey (l.mKeyPrefix ++ s) = true := by
  rw [hl.1, PersistentList.GetKey, bytesLt_append_left]
  exact bytesLt_head_sentinel s hs hne

theorem key_lt_tail (l : PersistentList) (hl : l.WellFormed) (s : Bytes) (hs : ValidSeq s)
    (hne : s ≠ []) : bytesLt (l.mKeyPrefix ++ s) l.mTailKey = true := by
  rw [hl.2, PersistentList.GetKey, bytesLt_append_left]
  exact bytesLt_tail_sentinel s hs hne

/-! ## The list operations between two neighbours of the store -/

theorem PushBack_step (l : PersistentList) (A : DB) (x y : Entry) (B : DB) (v nk : Bytes)
    (h : DB.Sorted (A ++ x :: y :: B)) (hy : y.1 = l.mTailKey)
    (hnk : (if l.mHeadKey = x.1 then some (l.GetKey INIT_KEY_SEQ) else l.NextKey x.1) = some nk)
    (h1 : bytesLt x.1 nk = true) (h2 : bytesLt nk y.1 = true) :
    l.PushBack (A ++ x :: y :: B) v = some (nk, A ++ x :: (nk, v) :: y :: B)
      ∧ DB.Sorted (A ++ x :: (nk, v) :: y :: B) := by
  have e : A ++ x :: y :: B = (A ++ [x]) ++ y :: B := by simp
  have e2 : A ++ x :: (nk, v) :: y :: B = (A ++ [x]) ++ (nk, v) :: y :: B := by simp
  have hA : ∀ a ∈ A ++ [x], bytesLt a.1 nk = true := by
    intro a ha
    rcases List.mem_append.mp ha with ha | ha
    · exact bytesLt_trans _ _ _ (h.before a ha x (List.mem_cons_self _ _)) h1
    · rw [List.mem_singleton] at ha; subst ha; exact h1
  constructor
  · unfold PersistentList.PushBack
    rw [← hy, seek_prev A x y B h, Option.some_bind, key_at, Option.some_bind, hnk,
      Option.some_bind, e, put_between (A ++ [x]) y B nk v hA h2, ← e2]
  · rw [e2]
    exact sorted_insert (A ++ [x]) y B nk v (by rw [← e]; exact h) hA h2

theorem PushFront_step (l : PersistentList) (A : DB) (x y : Entry) (B : DB) (v pk : Bytes)
    (h : DB.Sorted (A ++ x :: y :: B)) (hx : x.1 = l.mHeadKey)
    (hpk : (if l.mTailKey = y.1 then some (l.GetKey INIT_KEY_SEQ) else l.PrevKey y.1) = some pk)
    (h1 : bytesLt x.1 pk = true) (h2 : bytesLt pk y.1 = true) :
    l.PushFront (A ++ x :: y :: B) v = some (pk, A ++ x :: (pk, v) :: y :: B)
      ∧ DB.Sorted (A ++ x :: (pk, v) :: y :: B) := by
  have e : A ++ x :: y :: B = (A ++ [x]) ++ y :: B := by simp
  have e2 : A ++ x :: (pk, v) :: y :: B = (A ++ [x]) ++ (pk, v) :: y :: B := by simp
  have hA : ∀ a ∈ A ++ [x], bytesLt a.1 pk = true := by
    intro a ha
    rcases List.mem_append.mp ha with ha | ha
    · exact bytesLt_trans _ _ _ (h.before a ha x (List.mem_cons_self _ _)) h1
    · rw [List.mem_singleton] at ha; subst ha; exact h1
  constructor
  · unfold PersistentList.PushFront
    rw [← hx, seek_next A x y B h, Option.some_bind, key_at_succ, Option.some_bind, hpk,
      Option.some_bind, e, put_between (A ++ [x]) y B pk v hA h2, ← e2]
  · rw [e2]
    exact sorted_insert (A ++ [x]) y B pk v (by rw [← e]; exact h) hA h2

theorem Front_step (l : PersistentList) (A : DB) (x y : Entry) (B : DB)
    (h : DB.Sorted (A ++ x :: y :: B)) (hx : x.1 = l.mHeadKey) :
    l.Front (A ++ x :: y :: B)
      = some (if l.mTailKey ≠ y.1 then (true, y.2) else (false, [])) := by
  unfold PersistentList.Front
  rw [← hx, seek_next A x y B h, Option.some_bind, key_at_succ, Option.some_bind,
    value_at_succ]
  by_cases hy : l.mTailKey = y.1 <;> simp [hy]

theorem Back_step (l : PersistentList) (A : DB) (x y : Entry) (B : DB)
    (h : DB.Sorted (A ++ x :: y :: B)) (hy : y.1 = l.mTailKey) :
    l.Back (A ++ x :: y :: B)
      = some (if l.mHeadKey ≠ x.1 then (true, x.2) else (false, [])) := by
  unfold PersistentList.Back
  rw [← hy, seek_prev A x y B h, Option.some_bind, key_at, Option.some_bind, value_at]
  by_cases hx : l.mHeadKey = x.1 <;> simp [hx]

theorem PopFront_step (l : PersistentList) (A : DB) (x y : Entry) (B : DB)
    (h : DB.Sorted (A ++ x :: y :: B)) (hx : x.1 = l.mHeadKey) :
    l.PopFront (A ++ x :: y :: B)
      = some (if l.mTailKey ≠ y.1 then (true, A ++ x :: B) else (false, A ++ x :: y :: B)) := by
  have e : A ++ x :: y :: B = (A ++ [x]) ++ y :: B := by simp
  have hd : DB.Delete (A ++ x :: y :: B) y.1 = A ++ x :: B := by
    rw [e, delete_split (A ++ [x]) y B (by rw [← e]; exact h)]
    simp
  unfold PersistentList.PopFront
  rw [← hx, seek_next A x y B h, Option.some_bind, key_at_succ, Option.some_bind, hd]
  by_cases hy : l.mTailKey = y.1 <;> simp [hy]

theorem PopBack_step (l : PersistentList) (A : DB) (x y : Entry) (B : DB)
    (h : DB.Sorted (A ++ x :: y :: B)) (hy : y.1 = l.mTailKey) :
    l.PopBack (A ++ x :: y :: B)
      = some (if l.mHeadKey ≠ x.1 then (true, A ++ y :: B) else (false, A ++ x :: y :: B)) := by
  unfold PersistentList.PopBack
  rw [← hy, seek_prev A x y B h, Option.some_bind, key_at, Option.some_bind,
    delete_split A x (y :: B) h]
  by_cases hx : l.mHeadKey = x.1 <;> simp [hx]

theorem Iterator.Next_at (A : DB) (x : Entry) (B : DB) :
    Iterator.Next ⟨A ++ x :: B, A.length⟩ = some ⟨A ++ x :: B, A.length + 1⟩ := by
  simp [Iterator.Next, Iterator.Valid]

theorem Iterator.Prev_at (A : DB) (x y : Entry) (B : DB) :
    Iterator.Prev ⟨A ++ x :: y :: B, A.length + 1⟩ = some ⟨A ++ x :: y :: B, A.length⟩ := by
  simp [Iterator.Prev, Iterator.Valid]

theorem wrap32_of_fits (x : Int) (h1 : -(2 ^ 31) ≤ x) (h2 : x < 2 ^ 31) :
    PersistentList.wrap32 x = x := by
  unfold PersistentList.wrap32
  omega

theorem wrap32_idem (x : Int) :
    PersistentList.wrap32 (PersistentList.wrap32 x) = PersistentList.wrap32 x := by
  unfold PersistentList.wrap32
  omega

theorem wrap32_add (x y : Int) :
    PersistentList.wrap32 (PersistentList.wrap32 x + y) = PersistentList.wrap32 (x + y) := by
  unfold PersistentList.wrap32
  omega

/-- The scan loop of `Size` over the entries `ents`: the counter, taken on 32
bits, after one increment for each entry. -/
theorem Size_loop_spec (l : PersistentList) (ents : List Entry) :
    ∀ (A : DB) (x t : Entry) (B : DB) (fuel : Nat) (count : Int),
    DB.Sorted (A ++ x :: (ents ++ t :: B)) → t.1 = l.mTailKey → ents.length < fuel →
    PersistentList.wrap32 count = count →
    PersistentList.Size.loop l fuel ⟨A ++ x :: (ents ++ t :: B), A.length⟩ count
      = some (PersistentList.wrap32 (count + ents.length)) := by
  induction ents with
  | nil =>
    intro A x t B fuel count _ ht hf hc
    obtain ⟨fuel, rfl⟩ : ∃ f, fuel = f + 1 := ⟨fuel - 1, by simp at hf; omega⟩
    simp only [List.nil_append, PersistentList.Size.loop, Iterator.Next_at, Option.some_bind,
      key_at_succ, ht, if_true, List.length_nil, Nat.cast_zero, add_zero, hc]
  | cons e ents ih =>
    intro A x t B fuel count h ht hf hc
    obtain ⟨fuel, rfl⟩ : ∃ f, fuel = f + 1 := ⟨fuel - 1, by simp at hf; omega⟩
    have he : l.mTailKey ≠ e.1 := by
      rw [← ht]
      have h1 : DB.Sorted (e :: (ents ++ t :: B)) := by
        have := h.right
        exact this.tail
      exact fun hh => bytesLt_ne _ _ (h1.head_lt t (by simp)) hh.symm
    have e1 : A ++ x :: (e :: ents ++ t :: B) = (A ++ [x]) ++ e :: (ents ++ t :: B) := by simp
    have h2 : DB.Sorted ((A ++ [x]) ++ e :: (ents ++ t :: B)) := by rw [← e1]; exact h
    have ih1 := ih (A ++ [x]) e t B fuel (PersistentList.wrap32 (count + 1)) h2 ht
      (by simp at hf; omega) (wrap32_idem _)
    simp only [List.cons_append, PersistentList.Size.loop, Iterator.Next_at, Option.some_bind,
      key_at_succ, if_neg he]
    rw [List.cons_append] at e1
    rw [e1]
    have e3 : (A ++ [x]).length = A.length + 1 := by simp
    rw [e3] at ih1
    rw [ih1, wrap32_add]
    simp only [List.length_cons, Nat.cast_add, Nat.cast_one]
    congr 2
    omega

/-- On a store that holds the list, `Size()` returns the number of entries
taken on 32 bits. -/
theorem Size_of_holds_wrap (l : PersistentList) (db : DB) (ents : List Entry)
    (h : l.Holds db ents) : l.Size db = some (PersistentList.wrap32 ents.length) := by
  obtain ⟨hs, pre, post, hv, tv, rfl⟩ := h
  unfold PersistentList.Size
  have := seek_split pre (l.mHeadKey, hv) (ents ++ (l.mTailKey, tv) :: post) hs
  simp only at this
  rw [this, Size_loop_spec l ents pre _ (l.mTailKey, tv) post _ 0 hs rfl (by simp; omega)
    (by decide)]
  simp

/-- On a store that holds the list with fewer than `2 ^ 31` entries, `Size()`
returns the number of entries. -/
theorem Size_of_holds (l : PersistentList) (db : DB) (ents : List Entry)
    (h : l.Holds db ents) (hn : ents.length < 2 ^ 31) : l.Size db = some (ents.length : Int) := by
  rw [Size_of_holds_wrap l db ents h, wrap32_of_fits _ (by omega) (by omega)]

theorem Size_of_holds_nil (l : PersistentList) (db : DB) (h : l.Holds db []) :
    l.Size db = some 0 :=
  Size_of_holds l db [] h (by decide)

/-! ## The list operations on a store that holds the list -/

theorem PersistentList.Holds.sorted {l : PersistentList} {db : DB} {ents : List Entry}
    (h : l.Holds db ents) : DB.Sorted db := h.1

theorem Front_nil (l : PersistentList) (db : DB) (h : l.Holds db []) :
    l.Front db = some (false, []) := by
  obtain ⟨hs, pre, post, hv, tv, rfl⟩ := h
  rw [List.nil_append] at hs ⊢
  rw [Front_step l pre _ _ post hs rfl]
  simp

theorem Back_nil (l : PersistentList) (db : DB) (h : l.Holds db []) :
    l.Back db = some (false, []) := by
  obtain ⟨hs, pre, post, hv, tv, rfl⟩ := h
  rw [List.nil_append] at hs ⊢
  rw [Back_step l pre _ _ post hs rfl]
  simp

theorem PopFront_nil (l : PersistentList) (db : DB) (h : l.Holds db []) :
    l.PopFront db = some (false, db) := by
  obtain ⟨hs, pre, post, hv, tv, rfl⟩ := h
  rw [List.nil_append] at hs ⊢
  rw [PopFront_step l pre _ _ post hs rfl]
  simp

theorem PopBack_nil (l : PersistentList) (db : DB) (h : l.Holds db []) :
    l.PopBack db = some (false, db) := by
  obtain ⟨hs, pre, post, hv, tv, rfl⟩ := h
  rw [List.nil_append] at hs ⊢
  rw [PopBack_step l pre _ _ post hs rfl]
  simp

/-- The key of an entry of the list is not the key of the tail sentinel. -/
theorem PersistentList.Holds.ne_tail {l : PersistentList} {db : DB} {ents : List Entry}
    (h : l.Holds db ents) (e : Entry) (he : e ∈ ents) : l.mTailKey ≠ e.1 := by
  obtain ⟨hs, pre, post, hv, tv, rfl⟩ := h
  have h1 : DB.Sorted (ents ++ (l.mTailKey, tv) :: post) := hs.right.tail
  have h2 := h1.before e he (l.mTailKey, tv) (List.mem_cons_self _ _)
  exact fun hh => bytesLt_ne _ _ h2 hh.symm

/-- The key of an entry of the list is not the key of the head sentinel. -/
theorem PersistentList.Holds.ne_head {l : PersistentList} {db : DB} {ents : List Entry}
    (h : l.Holds db ents) (e : Entry) (he : e ∈ ents) : l.mHeadKey ≠ e.1 := by
  obtain ⟨hs, pre, post, hv, tv, rfl⟩ := h
  have h2 := hs.right.head_lt e (List.mem_append_left _ he)
  exact fun hh => bytesLt_ne _ _ h2 hh

theorem Front_cons (l : PersistentList) (db : DB) (e : Entry) (ents : List Entry)
    (h : l.Holds db (e :: ents)) : l.Front db = some (true, e.2) := by
  have hne := h.ne_tail e (List.mem_cons_self _ _)
  obtain ⟨hs, pre, post, hv, tv, rfl⟩ := h
  rw [List.cons_append] at hs ⊢
  rw [Front_step l pre _ _ _ hs rfl, if_pos hne]

theorem PopFront_cons (l : PersistentList) (db : DB) (e : Entry) (ents : List Entry)
    (h : l.Holds db (e :: ents)) :
    ∃ db1, l.PopFront db = some (true, db1) ∧ l.Holds db1 ents := by
  have hne := h.ne_tail e (List.mem_cons_self _ _)
  obtain ⟨hs, pre, post, hv, tv, rfl⟩ := h
  rw [List.cons_append] at hs ⊢
  refine ⟨_, by rw [PopFront_step l pre _ _ _ hs rfl, if_pos hne], ?_, pre, post, hv, tv, rfl⟩
  have e1 : pre ++ (l.mHeadKey, hv) :: e :: (ents ++ (l.mTailKey, tv) :: post)
      = (pre ++ [(l.mHeadKey, hv)]) ++ e :: (ents ++ (l.mTailKey, tv) :: post) := by simp
  rw [e1] at hs
  have := sorted_remove _ _ _ hs
  simpa using this

theorem holds_snoc_shape (l : PersistentList) (pre post : DB) (hv tv : Bytes)
    (ents : List Entry) (e : Entry) :
    pre ++ (l.mHeadKey, hv) :: ((ents ++ [e]) ++ (l.mTailKey, tv) :: post)
      = (pre ++ (l.mHeadKey, hv) :: ents) ++ e :: (l.mTailKey, tv) :: post := by
  simp

theorem Back_snoc (l : PersistentList) (db : DB) (e : Entry) (ents : List Entry)
    (h : l.Holds db (ents ++ [e])) : l.Back db = some (true, e.2) := by
  have hne := h.ne_head e (by simp)
  obtain ⟨hs, pre, post, hv, tv, rfl⟩ := h
  rw [holds_snoc_shape] at hs ⊢
  rw [Back_step l _ _ _ _ hs rfl, if_pos hne]

theorem PopBack_snoc (l : PersistentList) (db : DB) (e : Entry) (ents : List Entry)
    (h : l.Holds db (ents ++ [e])) :
    ∃ db1, l.PopBack db = some (true, db1) ∧ l.Holds db1 ents := by
  have hne := h.ne_head e (by simp)
  obtain ⟨hs, pre, post, hv, tv, rfl⟩ := h
  rw [holds_snoc_shape] at hs ⊢
  refine ⟨_, by rw [PopBack_step l _ _ _ _ hs rfl, if_pos hne], ?_, pre, post, hv, tv, ?_⟩
  · exact sorted_remove _ _ _ hs
  · simp

theorem PushBack_nil (l : PersistentList) (hl : l.WellFormed) (db : DB) (v : Bytes)
    (h : l.Holds db []) :
    ∃ db1, l.PushBack db v = some (l.GetKey INIT_KEY_SEQ, db1)
      ∧ l.Holds db1 [(l.GetKey INIT_KEY_SEQ, v)] := by
  obtain ⟨hs, pre, post, hv, tv, rfl⟩ := h
  rw [List.nil_append] at hs ⊢
  have hne : INIT_KEY_SEQ ≠ [] := by simp [INIT_KEY_SEQ]
  have := PushBack_step l pre (l.mHeadKey, hv) (l.mTailKey, tv) post v (l.GetKey INIT_KEY_SEQ)
    hs rfl (by simp) (head_lt_key l hl _ validSeq_init hne) (key_lt_tail l hl _ validSeq_init hne)
  exact ⟨_, this.1, this.2, pre, post, hv, tv, by simp⟩

theorem PushFront_nil (l : PersistentList) (hl : l.WellFormed) (db : DB) (v : Bytes)
    (h : l.Holds db []) :
    ∃ db1, l.PushFront db v = some (l.GetKey INIT_KEY_SEQ, db1)
      ∧ l.Holds db1 [(l.GetKey INIT_KEY_SEQ, v)] := by
  obtain ⟨hs, pre, post, hv, tv, rfl⟩ := h
  rw [List.nil_append] at hs ⊢
  have hne : INIT_KEY_SEQ ≠ [] := by simp [INIT_KEY_SEQ]
  have := PushFront_step l pre (l.mHeadKey, hv) (l.mTailKey, tv) post v (l.GetKey INIT_KEY_SEQ)
    hs rfl (by simp) (head_lt_key l hl _ validSeq_init hne) (key_lt_tail l hl _ validSeq_init hne)
  exact ⟨_, this.1, this.2, pre, post, hv, tv, by simp⟩

theorem ne_nil_of_length_eight {s : Bytes} (h : s.length = 8) : s ≠ [] := by
  intro hs
  rw [hs] at h
  simp at h

/-- After the last entry, whose key has eight valid digits of value below
`92 ^ 8 - 1`, `PushBack` writes a new last entry under the next value. -/
theorem PushBack_snoc (l : PersistentList) (hl : l.WellFormed) (db : DB) (v : Bytes)
    (ents : List Entry) (s w : Bytes) (h : l.Holds db (ents ++ [(l.mKeyPrefix ++ s, w)]))
    (hs : ValidSeq s) (hlen : s.length = 8) (hval : seqVal s + 1 < 92 ^ 8) :
    ∃ s' db1, l.PushBack db v = some (l.mKeyPrefix ++ s', db1)
      ∧ l.Holds db1 ((ents ++ [(l.mKeyPrefix ++ s, w)]) ++ [(l.mKeyPrefix ++ s', v)])
      ∧ ValidSeq s' ∧ s'.length = 8 ∧ seqVal s' = seqVal s + 1 := by
  have hne := h.ne_head (l.mKeyPrefix ++ s, w) (by simp)
  obtain ⟨s', hnext, hlen', hs', hval'⟩ := NextKey_spec l s [] hs hlen (by simp)
  rw [List.append_nil] at hnext
  rw [Nat.mod_eq_of_lt hval] at hval'
  obtain ⟨hsort, pre, post, hv, tv, rfl⟩ := h
  rw [holds_snoc_shape] at hsort ⊢
  have hlt : bytesLt (l.mKeyPrefix ++ s) (l.mKeyPrefix ++ s') = true := by
    rw [bytesLt_append_left]
    exact bytesLt_of_seqVal_lt s s' hs hs' (by rw [hlen, hlen']) (by omega)
  have := PushBack_step l _ (l.mKeyPrefix ++ s, w) (l.mTailKey, tv) post v (l.mKeyPrefix ++ s')
    hsort rfl (by rw [if_neg hne]; exact hnext) hlt
    (key_lt_tail l hl s' hs' (ne_nil_of_length_eight hlen'))
  exact ⟨s', _, this.1, ⟨this.2, pre, post, hv, tv, by simp⟩, hs', hlen', hval'⟩

/-- Before the first entry, whose key has eight valid digits of value above
zero, `PushFront` writes a new first entry under the previous value. -/
theorem PushFront_cons (l : PersistentList) (hl : l.WellFormed) (db : DB) (v : Bytes)
    (ents : List Entry) (s w : Bytes) (h : l.Holds db ((l.mKeyPrefix ++ s, w) :: ents))
    (hs : ValidSeq s) (hlen : s.length = 8) (hval : 0 < seqVal s) :
    ∃ s' db1, l.PushFront db v = some (l.mKeyPrefix ++ s', db1)
      ∧ l.Holds db1 ((l.mKeyPrefix ++ s', v) :: (l.mKeyPrefix ++ s, w) :: ents)
      ∧ ValidSeq s' ∧ s'.length = 8 ∧ seqVal s' + 1 = seqVal s := by
  have hne := h.ne_tail (l.mKeyPrefix ++ s, w) (by simp)
  obtain ⟨s', hprev, hlen', hs', hval'⟩ := PrevKey_spec l s [] hs hlen (by simp)
  rw [List.append_nil] at hprev
  have hb := seqVal_lt s hs
  rw [hlen] at hb
  have e1 : seqVal s + (92 ^ 8 - 1) = (seqVal s - 1) + 92 ^ 8 * 1 := by omega
  rw [e1, Nat.add_mul_mod_self_left, Nat.mod_eq_of_lt (by omega)] at hval'
  obtain ⟨hsort, pre, post, hv, tv, rfl⟩ := h
  rw [List.cons_append] at hsort ⊢
  have hlt : bytesLt (l.mKeyPrefix ++ s') (l.mKeyPrefix ++ s) = true := by
    rw [bytesLt_append_left]
    exact bytesLt_of_seqVal_lt s' s hs' hs (by rw [hlen, hlen']) (by omega)
  have := PushFront_step l pre (l.mHeadKey, hv) (l.mKeyPrefix ++ s, w) _ v (l.mKeyPrefix ++ s')
    hsort rfl (by rw [if_neg hne]; exact hprev)
    (head_lt_key l hl s' hs' (ne_nil_of_length_eight hlen')) hlt
  exact ⟨s', _, this.1, ⟨this.2, pre, post, hv, tv, by simp⟩, hs', hlen', by omega⟩

/-! ## The push and pop loops of the tests -/

theorem pushBackAll_snoc (l : PersistentList) (hl : l.WellFormed) (vs : List Bytes) :
    ∀ (db : DB) (ents : List Entry) (s w : Bytes),
    l.Holds db (ents ++ [(l.mKeyPrefix ++ s, w)]) → ValidSeq s → s.length = 8 →
    seqVal s + vs.length < 92 ^ 8 →
    ∃ db1 ents1, pushBackAll l db vs = some db1
      ∧ l.Holds db1 ((ents ++ [(l.mKeyPrefix ++ s, w)]) ++ ents1)
      ∧ ents1.map Prod.snd = vs := by
  induction vs with
  | nil =>
    intro db ents s w h _ _ _
    exact ⟨db, [], rfl, by simpa using h, rfl⟩
  | cons v vs ih =>
    intro db ents s w h hs hlen hval
    rw [List.length_cons] at hval
    obtain ⟨s', db1, hpush, hholds, hs', hlen', hval'⟩ :=
      PushBack_snoc l hl db v ents s w h hs hlen (by omega)
    obtain ⟨db2, ents2, hall, hholds2, hmap⟩ :=
      ih db1 (ents ++ [(l.mKeyPrefix ++ s, w)]) s' v hholds hs' hlen' (by omega)
    refine ⟨db2, (l.mKeyPrefix ++ s', v) :: ents2, ?_, ?_, ?_⟩
    · simp only [pushBackAll, hpush, Option.some_bind, hall]
    · simpa using hholds2
    · simp [hmap]

theorem pushBackAll_nil (l : PersistentList) (hl : l.WellFormed) (db : DB) (vs : List Bytes)
    (h : l.Holds db []) (hN : vs.length ≤ 92 ^ 8 - seqVal INIT_KEY_SEQ) :
    ∃ db1 ents1, pushBackAll l db vs = some db1 ∧ l.Holds db1 ents1
      ∧ ents1.map Prod.snd = vs := by
  cases vs with
  | nil => exact ⟨db, [], rfl, h, rfl⟩
  | cons v vs =>
    rw [List.length_cons, seqVal_init] at hN
    obtain ⟨db1, hpush, hholds⟩ := PushBack_nil l hl db v h
    obtain ⟨db2, ents2, hall, hholds2, hmap⟩ :=
      pushBackAll_snoc l hl vs db1 [] INIT_KEY_SEQ v hholds validSeq_init rfl
        (by rw [seqVal_init]; norm_num; omega)
    refine ⟨db2, (l.GetKey INIT_KEY_SEQ, v) :: ents2, ?_, ?_, ?_⟩
    · simp only [pushBackAll, hpush, Option.some_bind, hall]
    · simpa [PersistentList.GetKey] using hholds2
    · simp [hmap]

theorem pushFrontAll_cons (l : PersistentList) (hl : l.WellFormed) (vs : List Bytes) :
    ∀ (db : DB) (ents : List Entry) (s w : Bytes),
    l.Holds db ((l.mKeyPrefix ++ s, w) :: ents) → ValidSeq s → s.length = 8 →
    vs.length ≤ seqVal s →
    ∃ db1 ents1, pushFrontAll l db vs = some db1
      ∧ l.Holds db1 (ents1 ++ (l.mKeyPrefix ++ s, w) :: ents)
      ∧ ents1.map Prod.snd = vs.reverse := by
  induction vs with
  | nil =>
    intro db ents s w h _ _ _
    exact ⟨db, [], rfl, by simpa using h, rfl⟩
  | cons v vs ih =>
    intro db ents s w h hs hlen hval
    rw [List.length_cons] at hval
    obtain ⟨s', db1, hpush, hholds, hs', hlen', hval'⟩ :=
      PushFront_cons l hl db v ents s w h hs hlen (by omega)
    obtain ⟨db2, ents2, hall, hholds2, hmap⟩ :=
      ih db1 ((l.mKeyPrefix ++ s, w) :: ents) s' v hholds hs' hlen' (by omega)
    refine ⟨db2, ents2 ++ [(l.mKeyPrefix ++ s', v)], ?_, ?_, ?_⟩
    · simp only [pushFrontAll, hpush, Option.some_bind, hall]
    · simpa using hholds2
    · simp [hmap]

theorem pushFrontAll_nil (l : PersistentList) (hl : l.WellFormed) (db : DB) (vs : List Bytes)
    (h : l.Holds db []) (hN : vs.length ≤ seqVal INIT_KEY_SEQ + 1) :
    ∃ db1 ents1, pushFrontAll l db vs = some db1 ∧ l.Holds db1 ents1
      ∧ ents1.map Prod.snd = vs.reverse := by
  cases vs with
  | nil => exact ⟨db, [], rfl, h, rfl⟩
  | cons v vs =>
    rw [List.length_cons] at hN
    obtain ⟨db1, hpush, hholds⟩ := PushFront_nil l hl db v h
    obtain ⟨db2, ents2, hall, hholds2, hmap⟩ :=
      pushFrontAll_cons l hl vs db1 [] INIT_KEY_SEQ v hholds validSeq_init rfl (by omega)
    refine ⟨db2, ents2 ++ [(l.GetKey INIT_KEY_SEQ, v)], ?_, ?_, ?_⟩
    · simp only [pushFrontAll, hpush, Option.some_bind, hall]
    · simpa [PersistentList.GetKey] using hholds2
    · simp [hmap]

theorem frontPopRounds_spec (l : PersistentList) (ents : List Entry) :
    ∀ (db : DB), l.Holds db ents →
    ∃ db1, frontPopRounds l ents.length db
        = some (ents.map (fun e => ((true, e.2), true)), db1) ∧ l.Holds db1 [] := by
  induction ents with
  | nil =>
    intro db h
    exact ⟨db, rfl, h⟩
  | cons e ents ih =>
    intro db h
    obtain ⟨db1, hpop, hholds⟩ := PopFront_cons l db e ents h
    obtain ⟨db2, hrounds, hholds2⟩ := ih db1 hholds
    refine ⟨db2, ?_, hholds2⟩
    simp only [List.length_cons, frontPopRounds, Front_cons l db e ents h, hpop,
      Option.some_bind, hrounds, List.map_cons]

theorem backPopRounds_spec (l : PersistentList) (ents : List Entry) :
    ∀ (db : DB), l.Holds db ents →
    ∃ db1, backPopRounds l ents.length db
        = some (ents.reverse.map (fun e => ((true, e.2), true)), db1) ∧ l.Holds db1 [] := by
  induction ents using List.reverseRecOn with
  | nil =>
    intro db h
    exact ⟨db, rfl, h⟩
  | append_singleton ents e ih =>
    intro db h
    obtain ⟨db1, hpop, hholds⟩ := PopBack_snoc l db e ents h
    obtain ⟨db2, hrounds, hholds2⟩ := ih db1 hholds
    refine ⟨db2, ?_, hholds2⟩
    simp only [List.length_append, List.length_singleton, backPopRounds,
      Back_snoc l db e ents h, hpop, Option.some_bind, hrounds, List.reverse_append,
      List.reverse_singleton, List.singleton_append, List.map_cons]

/-! ## The entries between the sentinels -/

theorem filter_eq_nil_of_all_false {α : Type} (p : α → Bool) (xs : List α)
    (h : ∀ x ∈ xs, p x = false) : xs.filter p = [] := by
  rw [List.filter_eq_nil_iff]
  intro x hx
  simp [h x hx]

/-- A sorted store with both sentinels holds the list, with the entries
between the sentinels as its entries. -/
theorem holds_entries (l : PersistentList) (db : DB) (hs : DB.Sorted db)
    (hh : db.HasKey l.mHeadKey) (ht : db.HasKey l.mTailKey)
    (hlt : bytesLt l.mHeadKey l.mTailKey = true) : l.Holds db (l.entries db) := by
  obtain ⟨hv, hh⟩ := hh
  obtain ⟨tv, ht⟩ := ht
  obtain ⟨pre, rest, rfl⟩ := List.append_of_mem hh
  have hpre : ∀ e ∈ pre, bytesLt e.1 l.mHeadKey = true :=
    fun e he => hs.before e he (l.mHeadKey, hv) (List.mem_cons_self _ _)
  have htr : (l.mTailKey, tv) ∈ rest := by
    rcases List.mem_append.mp ht with h | h
    · have h1 := hpre _ h
      have h2 := bytesLt_asymm _ _ hlt
      simp only at h1
      rw [h1] at h2
      exact absurd h2 (by simp)
    · rcases List.mem_cons.mp h with h | h
      · have h1 : l.mTailKey = l.mHeadKey := by
          have := congrArg Prod.fst h
          simpa using this
        rw [h1, bytesLt_irrefl] at hlt
        exact absurd hlt (by simp)
      · exact h
  obtain ⟨mid, post, rfl⟩ := List.append_of_mem htr
  have hsr : DB.Sorted (mid ++ (l.mTailKey, tv) :: post) := hs.right.tail
  have hmid1 : ∀ e ∈ mid, bytesLt l.mHeadKey e.1 = true :=
    fun e he => hs.right.head_lt e (List.mem_append_left _ he)
  have hmid2 : ∀ e ∈ mid, bytesLt e.1 l.mTailKey = true :=
    fun e he => hsr.before e he (l.mTailKey, tv) (List.mem_cons_self _ _)
  have hpost : ∀ e ∈ post, bytesLt l.mTailKey e.1 = true :=
    fun e he => hsr.right.head_lt e he
  have e1 : l.entries (pre ++ (l.mHeadKey, hv) :: (mid ++ (l.mTailKey, tv) :: post)) = mid := by
    unfold PersistentList.entries
    rw [List.filter_append, List.filter_cons, List.filter_append, List.filter_cons]
    rw [filter_eq_nil_of_all_false _ pre, filter_eq_nil_of_all_false _ post]
    · have hm : List.filter (fun e : Entry => bytesLt l.mHeadKey e.1 && bytesLt e.1 l.mTailKey)
          mid = mid := by
        rw [List.filter_eq_self]
        intro e he
        simp [hmid1 e he, hmid2 e he]
      rw [hm]
      simp [bytesLt_irrefl]
    · intro e he
      simp [bytesLt_asymm _ _ (hpost e he)]
    · intro e he
      simp [bytesLt_asymm _ _ (hpre e he)]
  rw [e1]
  exact ⟨hs, pre, post, hv, tv, rfl⟩

/-! ## The cursor -/

theorem Cursor_Next_step (l : PersistentList) (b : Bool) (A : DB) (x y : Entry) (B : DB)
    (hx : l.mTailKey ≠ x.1) :
    PersistentListIterator.Next ⟨l, b, ⟨A ++ x :: y :: B, A.length⟩⟩
      = some (decide (l.mTailKey ≠ y.1),
          ⟨l, decide (l.mTailKey ≠ y.1), ⟨A ++ x :: y :: B, A.length + 1⟩⟩) := by
  have hv : Iterator.Valid ⟨A ++ x :: y :: B, A.length⟩ = true := by
    simp [Iterator.Valid]
  simp only [PersistentListIterator.Next, hv, if_true, key_at, Option.some_bind, if_pos hx,
    Iterator.Next_at, key_at_succ]

theorem Cursor_Prev_step (l : PersistentList) (b : Bool) (A : DB) (x y : Entry) (B : DB)
    (hy : l.mHeadKey ≠ y.1) :
    PersistentListIterator.Prev ⟨l, b, ⟨A ++ x :: y :: B, A.length + 1⟩⟩
      = some (decide (l.mHeadKey ≠ x.1),
          ⟨l, decide (l.mHeadKey ≠ x.1), ⟨A ++ x :: y :: B, A.length⟩⟩) := by
  have hv : Iterator.Valid ⟨A ++ x :: y :: B, A.length + 1⟩ = true := by
    simp [Iterator.Valid]
  simp only [PersistentListIterator.Prev, hv, if_true, key_at_succ, Option.some_bind,
    if_pos hy, Iterator.Prev_at, key_at]

theorem forwardLoop_spec (l : PersistentList) (ents : List Entry) :
    ∀ (db A : DB) (x t : Entry) (B : DB) (b : Bool) (fuel : Nat) (acc : List (Bool × Bytes)),
    db = A ++ x :: (ents ++ t :: B) → DB.Sorted db → t.1 = l.mTailKey → l.mTailKey ≠ x.1 →
    ents.length < fuel →
    ∃ c, PersistentListIterator.forwardLoop fuel ⟨l, b, ⟨db, A.length⟩⟩ acc
        = some (acc ++ ents.map (fun e => (true, e.2)), c) ∧ c.Valid = false := by
  induction ents with
  | nil =>
    intro db A x t B b fuel acc hdb _ ht hx hf
    obtain ⟨fuel, rfl⟩ : ∃ f, fuel = f + 1 := ⟨fuel - 1, by simp at hf; omega⟩
    subst hdb
    refine ⟨⟨l, false, ⟨A ++ x :: t :: B, A.length + 1⟩⟩, ?_, rfl⟩
    simp only [List.nil_append, PersistentListIterator.forwardLoop,
      Cursor_Next_step l b A x t B hx, Option.some_bind, ht]
    simp
  | cons e ents ih =>
    intro db A x t B b fuel acc hdb hs ht hx hf
    obtain ⟨fuel, rfl⟩ : ∃ f, fuel = f + 1 := ⟨fuel - 1, by simp at hf; omega⟩
    have he : l.mTailKey ≠ e.1 := by
      rw [← ht]
      rw [hdb] at hs
      have h1 : DB.Sorted (e :: (ents ++ t :: B)) := hs.right.tail
      exact fun hh => bytesLt_ne _ _ (h1.head_lt t (by simp)) hh.symm
    have hdb2 : db = (A ++ [x]) ++ e :: (ents ++ t :: B) := by rw [hdb]; simp
    obtain ⟨c, hc, hcv⟩ := ih db (A ++ [x]) e t B true fuel (acc ++ [(true, e.2)]) hdb2 hs ht he
      (by simp at hf; omega)
    refine ⟨c, ?_, hcv⟩
    have e3 : (A ++ [x]).length = A.length + 1 := by simp
    rw [e3] at hc
    have hstep := Cursor_Next_step l b A x e (ents ++ t :: B) hx
    rw [List.cons_append] at hdb
    rw [← hdb] at hstep
    simp only [PersistentListIterator.forwardLoop, hstep, Option.some_bind, he, ne_eq,
      not_false_eq_true, decide_True, if_true, PersistentListIterator.Value,
      PersistentListIterator.Valid]
    have hval : Iterator.value ⟨db, A.length + 1⟩ = some e.2 := by
      rw [hdb]; exact value_at_succ A x e _
    rw [hval, Option.some_bind, hc]
    simp

theorem backwardLoop_spec (l : PersistentList) (ents : List Entry) :
    ∀ (db A : DB) (h y : Entry) (B : DB) (b : Bool) (fuel : Nat) (acc : List (Bool × Bytes)),
    db = A ++ h :: (ents ++ y :: B) → DB.Sorted db → h.1 = l.mHeadKey → l.mHeadKey ≠ y.1 →
    ents.length < fuel →
    ∃ c, PersistentListIterator.backwardLoop fuel ⟨l, b, ⟨db, A.length + 1 + ents.length⟩⟩ acc
        = some (acc ++ ents.reverse.map (fun e => (true, e.2)), c) ∧ c.Valid = false := by
  induction ents using List.reverseRecOn with
  | nil =>
    intro db A h y B b fuel acc hdb _ hh hy hf
    obtain ⟨fuel, rfl⟩ : ∃ f, fuel = f + 1 := ⟨fuel - 1, by simp at hf; omega⟩
    subst hdb
    refine ⟨⟨l, false, ⟨A ++ h :: y :: B, A.length⟩⟩, ?_, rfl⟩
    simp only [List.nil_append, List.length_nil, Nat.add_zero,
      PersistentListIterator.backwardLoop, Cursor_Prev_step l b A h y B hy, Option.some_bind, hh]
    simp
  | append_singleton ents e ih =>
    intro db A h y B b fuel acc hdb hs hh hy hf
    obtain ⟨fuel, rfl⟩ : ∃ f, fuel = f + 1 := ⟨fuel - 1, by simp at hf; omega⟩
    have hdb1 : db = (A ++ h :: ents) ++ e :: y :: B := by rw [hdb]; simp
    have hdb2 : db = A ++ h :: (ents ++ e :: (y :: B)) := by rw [hdb]; simp
    have he : l.mHeadKey ≠ e.1 := by
      rw [← hh]
      have hs2 := hs
      rw [hdb2] at hs2
      exact fun hh2 => bytesLt_ne _ _ (hs2.right.head_lt e (by simp)) hh2
    obtain ⟨c, hc, hcv⟩ := ih db A h e (y :: B) true fuel (acc ++ [(true, e.2)]) hdb2 hs hh he
      (by simp at hf; omega)
    refine ⟨c, ?_, hcv⟩
    have hstep := Cursor_Prev_step l b (A ++ h :: ents) e y B hy
    rw [← hdb1] at hstep
    have e3 : (A ++ h :: ents).length = A.length + 1 + ents.length := by
      simp; omega
    rw [e3] at hstep
    have e4 : A.length + 1 + (ents ++ [e]).length = A.length + 1 + ents.length + 1 := by
      simp; omega
    rw [e4]
    simp only [PersistentListIterator.backwardLoop, hstep, Option.some_bind, he, ne_eq,
      not_false_eq_true, decide_True, if_true, PersistentListIterator.Value,
      PersistentListIterator.Valid]
    have hval : Iterator.value ⟨db, A.length + 1 + ents.length⟩ = some e.2 := by
      have := value_at (A ++ h :: ents) e (y :: B)
      rw [← hdb1, e3] at this
      exact this
    rw [hval, Option.some_bind, hc]
    simp

theorem forwardTraversal_of_holds (l : PersistentList) (db : DB) (ents : List Entry)
    (h : l.Holds db ents) :
    ∃ c, PersistentListIterator.forwardTraversal l db
      = some (ents.map (fun e => (true, e.2)), c) ∧ c.Valid = false := by
  obtain ⟨hs, pre, post, hv, tv, rfl⟩ := h
  have hne : l.mTailKey ≠ l.mHeadKey := by
    have := hs.right.head_lt (l.mTailKey, tv) (by simp)
    exact fun hh => bytesLt_ne _ _ this hh.symm
  have hseek := seek_split pre (l.mHeadKey, hv) (ents ++ (l.mTailKey, tv) :: post) hs
  simp only at hseek
  unfold PersistentListIterator.forwardTraversal PersistentListIterator.SeekFront
    PersistentListIterator.new
  simp only
  rw [hseek]
  obtain ⟨c, hc, hcv⟩ := forwardLoop_spec l ents _ pre (l.mHeadKey, hv) (l.mTailKey, tv) post
    false ((pre ++ (l.mHeadKey, hv) :: (ents ++ (l.mTailKey, tv) :: post)).length + 1) [] rfl hs
    rfl hne (by simp; omega)
  exact ⟨c, by simpa using hc, hcv⟩

theorem backwardTraversal_of_holds (l : PersistentList) (db : DB) (ents : List Entry)
    (h : l.Holds db ents) :
    ∃ c, PersistentListIterator.backwardTraversal l db
      = some (ents.reverse.map (fun e => (true, e.2)), c) ∧ c.Valid = false := by
  obtain ⟨hs, pre, post, hv, tv, rfl⟩ := h
  have hne : l.mHeadKey ≠ l.mTailKey := by
    have := hs.right.head_lt (l.mTailKey, tv) (by simp)
    exact fun hh => bytesLt_ne _ _ this hh
  have e1 : pre ++ (l.mHeadKey, hv) :: (ents ++ (l.mTailKey, tv) :: post)
      = (pre ++ (l.mHeadKey, hv) :: ents) ++ (l.mTailKey, tv) :: post := by simp
  have hs1 := hs
  rw [e1] at hs1
  have hseek := seek_split (pre ++ (l.mHeadKey, hv) :: ents) (l.mTailKey, tv) post hs1
  simp only at hseek
  rw [← e1] at hseek
  have e3 : (pre ++ (l.mHeadKey, hv) :: ents).length = pre.length + 1 + ents.length := by
    simp; omega
  rw [e3] at hseek
  unfold PersistentListIterator.backwardTraversal PersistentListIterator.SeekBack
    PersistentListIterator.new
  simp only
  rw [hseek]
  obtain ⟨c, hc, hcv⟩ := backwardLoop_spec l ents _ pre (l.mHeadKey, hv) (l.mTailKey, tv) post
    false ((pre ++ (l.mHeadKey, hv) :: (ents ++ (l.mTailKey, tv) :: post)).length + 1) [] rfl hs
    rfl hne (by simp; omega)
  exact ⟨c, by simpa using hc, hcv⟩

/-! ## Arithmetic of `MidKey` -/

theorem wrap64_of_fits (x : Int) (h1 : -(2 ^ 63) ≤ x) (h2 : x < 2 ^ 63) : PersistentList.wrap64 x = x := by
  unfold PersistentList.wrap64
  norm_num at h1 h2 ⊢
  omega

theorem wrap64_modEq (x : Int) : PersistentList.wrap64 x ≡ x [ZMOD 2 ^ 64] := by
  unfold PersistentList.wrap64
  have h := (Int.mod_modEq (x + 2 ^ 63) (2 ^ 64)).sub_right (2 ^ 63)
  simpa using h

theorem wrap64_congr {x y : Int} (h : x ≡ y [ZMOD 2 ^ 64]) : PersistentList.wrap64 x = PersistentList.wrap64 y := by
  unfold PersistentList.wrap64
  have h1 : (x + 2 ^ 63) % 2 ^ 64 = (y + 2 ^ 63) % 2 ^ 64 := h.add_right _
  rw [h1]

theorem wrap64_idem (x : Int) : PersistentList.wrap64 (PersistentList.wrap64 x) = PersistentList.wrap64 x :=
  wrap64_congr (wrap64_modEq x)

theorem emod_mul_add (q r M : Int) (hM : 0 < M) (hr0 : 0 ≤ r) (hr : r < 92) :
    (q * 92 + r) % (M * 92) = (q % M) * 92 + r := by
  have hq := Int.emod_add_ediv q M
  have h0 := Int.emod_nonneg q (ne_of_gt hM)
  have h1 := Int.emod_lt_of_pos q hM
  have e : q * 92 + r = ((q % M) * 92 + r) + (M * 92) * (q / M) := by
    conv_lhs => rw [← hq]
    ring
  rw [e, Int.add_mul_emod_self_left, Int.emod_eq_of_lt (by omega) (by omega)]

theorem digitsVal_append_singleton (ds : List Int) (d : Int) :
    digitsVal (ds ++ [d]) = digitsVal ds * 92 + d := by
  simp [digitsVal, List.foldl_append]

theorem getD_of_lt_length {α : Type} (k : List α) (m : Nat) (d : α) (hm : m < k.length) :
    k[m]? = some (k.getD m d) := by
  rw [List.getD_eq_getElem?_getD, List.getElem?_eq_getElem hm]
  rfl

theorem digitsVal_take_succ (k : List Int) (m : Nat) (hm : m < k.length) :
    digitsVal (k.take (m + 1)) = digitsVal (k.take m) * 92 + k.getD m 0 := by
  rw [List.take_succ, getD_of_lt_length k m 0 hm]
  exact digitsVal_append_singleton _ _

theorem ValidDigits.getD {k : List Int} (h : ValidDigits k) (m : Nat) :
    0 ≤ k.getD m 0 ∧ k.getD m 0 < 92 := by
  by_cases hm : m < k.length
  · have := getD_of_lt_length k m 0 hm
    exact h _ (List.getElem?_mem this)
  · rw [List.getD_eq_getElem?_getD, List.getElem?_eq_none (by omega)]
    simp

theorem digitsVal_nonneg (k : List Int) (h : ValidDigits k) : 0 ≤ digitsVal k := by
  induction k using List.reverseRecOn with
  | nil => simp [digitsVal]
  | append_singleton k d ih =>
    rw [digitsVal_append_singleton]
    have h1 := ih (fun x hx => h x (List.mem_append_left _ hx))
    have h2 := h d (by simp)
    omega

theorem digitsVal_lt (k : List Int) (h : ValidDigits k) : digitsVal k < 92 ^ k.length := by
  induction k using List.reverseRecOn with
  | nil => simp [digitsVal]
  | append_singleton k d ih =>
    rw [digitsVal_append_singleton, List.length_append, List.length_singleton, pow_succ]
    have h1 := ih (fun x hx => h x (List.mem_append_left _ hx))
    have h2 := h d (by simp)
    omega

/-- The subtraction loop on the first `m` digits: modulo `2 ^ 64`, it adds to
`diff` the product of `posVal` and the difference of the two values, less the
borrow, modulo `92 ^ m`. -/
theorem diffLoop_spec (k1 k2 : List Int) (h1 : ValidDigits k1) (h2 : ValidDigits k2) :
    ∀ (m : Nat) (carry diff posVal : Int), m ≤ k1.length → m ≤ k2.length →
    (carry = 0 ∨ carry = 1) → PersistentList.wrap64 diff = diff →
    PersistentList.MidKey.diffLoop k1 k2 m carry diff posVal
      = PersistentList.wrap64 (diff + posVal *
          ((digitsVal (k2.take m) - digitsVal (k1.take m) - carry) % 92 ^ m)) := by
  intro m
  induction m with
  | zero =>
    intro carry diff posVal _ _ _ hd
    simp [PersistentList.MidKey.diffLoop, hd]
  | succ m ih =>
    intro carry diff posVal hm1 hm2 hc hd
    have g1 := h1.getD m
    have g2 := h2.getD m
    rw [digitsVal_take_succ k1 m (by omega), digitsVal_take_succ k2 m (by omega)]
    simp only [PersistentList.MidKey.diffLoop, KEY_BASE, Nat.cast_ofNat]
    generalize k1.getD m 0 = a at g1 ⊢
    generalize k2.getD m 0 = b at g2 ⊢
    set H1 := digitsVal (k1.take m) with hH1
    set H2 := digitsVal (k2.take m) with hH2
    have hpos : (0 : Int) < 92 ^ m := by positivity
    by_cases hneg : b - a - carry < 0
    · rw [if_pos hneg, if_pos hneg]
      rw [ih 1 _ _ (by omega) (by omega) (Or.inr rfl) (wrap64_idem _)]
      apply wrap64_congr
      have e : H2 * 92 + b - (H1 * 92 + a) - carry = (H2 - H1 - 1) * 92 + (b - a - carry + 92) := by
        ring
      rw [e, pow_succ (92 : Int) m,
        emod_mul_add (H2 - H1 - 1) (b - a - carry + 92) (92 ^ m) hpos (by omega) (by omega)]
      generalize (H2 - H1 - 1) % 92 ^ m = R
      have s1 := ((wrap64_modEq (diff + PersistentList.wrap64 ((b - a - carry + 92) * posVal))).trans
        ((Int.ModEq.refl diff).add (wrap64_modEq ((b - a - carry + 92) * posVal)))).add
        ((wrap64_modEq (posVal * 92)).mul (Int.ModEq.refl R))
      refine s1.trans ?_
      have e2 : diff + (b - a - carry + 92) * posVal + posVal * 92 * R
          = diff + posVal * (R * 92 + (b - a - carry + 92)) := by ring
      rw [e2]
    · rw [if_neg hneg, if_neg hneg]
      rw [ih 0 _ _ (by omega) (by omega) (Or.inl rfl) (wrap64_idem _)]
      apply wrap64_congr
      have e : H2 * 92 + b - (H1 * 92 + a) - carry = (H2 - H1 - 0) * 92 + (b - a - carry) := by
        ring
      rw [e, pow_succ (92 : Int) m,
        emod_mul_add (H2 - H1 - 0) (b - a - carry) (92 ^ m) hpos (by omega) (by omega)]
      generalize (H2 - H1 - 0) % 92 ^ m = R
      have s1 := ((wrap64_modEq (diff + PersistentList.wrap64 ((b - a - carry) * posVal))).trans
        ((Int.ModEq.refl diff).add (wrap64_modEq ((b - a - carry) * posVal)))).add
        ((wrap64_modEq (posVal * 92)).mul (Int.ModEq.refl R))
      refine s1.trans ?_
      have e2 : diff + (b - a - carry) * posVal + posVal * 92 * R
          = diff + posVal * (R * 92 + (b - a - carry)) := by ring
      rw [e2]

theorem set_append_at_int (f : List Int) (c x : Int) (back : List Int) :
    (f ++ c :: back).set f.length x = f ++ x :: back := by
  induction f with
  | nil => rfl
  | cons a f ih => simp [ih]

theorem validDigits_replicate (m : Nat) : ValidDigits (List.replicate m 0) := by
  intro d hd
  rw [List.mem_replicate] at hd
  rw [hd.2]
  omega

theorem digitsVal_replicate (m : Nat) : digitsVal (List.replicate m 0) = 0 := by
  induction m with
  | zero => rfl
  | succ m ih =>
    rw [List.replicate_succ', digitsVal_append_singleton, ih]
    rfl

/-- The loop that writes `offset`: on `m` zero entries it writes the `m`
digits of an offset below `92 ^ m`. -/
theorem offsetLoop_spec : ∀ (m : Nat) (offset : Int) (low : List Int),
    0 ≤ offset → offset < 92 ^ m →
    ∃ ds, PersistentList.MidKey.offsetLoop m offset (List.replicate m 0 ++ low) = ds ++ low
      ∧ ds.length = m ∧ ValidDigits ds ∧ digitsVal ds = offset := by
  intro m
  induction m with
  | zero =>
    intro offset low h0 h1
    refine ⟨[], by simp [PersistentList.MidKey.offsetLoop], rfl, fun d hd => by simp at hd, ?_⟩
    simp at h1
    simp [digitsVal]
    omega
  | succ m ih =>
    intro offset low h0 h1
    by_cases hpos : 0 < offset
    · have hdiv : Int.tdiv offset 92 = offset / 92 := Int.tdiv_eq_ediv h0 (by omega)
      have hmod : Int.tmod offset 92 = offset % 92 := Int.tmod_eq_emod h0 (by omega)
      have e1 : List.replicate (m + 1) (0 : Int) ++ low
          = List.replicate m 0 ++ 0 :: low := by
        rw [List.replicate_succ']
        simp
      have hlen : (List.replicate m (0 : Int)).length = m := by simp
      have e2 : (List.replicate m (0 : Int) ++ 0 :: low).set m (offset % 92)
          = List.replicate m 0 ++ (offset % 92) :: low := by
        have := set_append_at_int (List.replicate m 0) 0 (offset % 92) low
        rw [hlen] at this
        exact this
      rw [pow_succ] at h1
      obtain ⟨ds, hds, hl, hv, hval⟩ := ih (offset / 92) ((offset % 92) :: low)
        (by omega) (by omega)
      refine ⟨ds ++ [offset % 92], ?_, by simp [hl], ?_, ?_⟩
      · simp only [PersistentList.MidKey.offsetLoop, if_pos hpos, KEY_BASE, Nat.cast_ofNat, hdiv,
          hmod, e1, e2, hds]
        simp
      · intro d hd
        rcases List.mem_append.mp hd with hd | hd
        · exact hv d hd
        · rw [List.mem_singleton] at hd
          rw [hd]
          omega
      · rw [digitsVal_append_singleton, hval]
        omega
    · have hz : offset = 0 := by omega
      refine ⟨List.replicate (m + 1) 0, ?_, by simp, validDigits_replicate _, ?_⟩
      · simp only [PersistentList.MidKey.offsetLoop, if_neg hpos]
      · rw [digitsVal_replicate, hz]

/-- The addition loop on the first `m` digits writes the digits of the sum of
the two values and the carry, modulo `92 ^ m`. -/
theorem addLoop_spec (k1 od : List Int) (h1 : ValidDigits k1) (h2 : ValidDigits od) :
    ∀ (m : Nat) (carry : Int) (front low : List Int), m ≤ k1.length → m ≤ od.length →
    front.length = m → (carry = 0 ∨ carry = 1) →
    ∃ ds, PersistentList.MidKey.addLoop k1 od m carry (front ++ low) = ds ++ low
      ∧ ds.length = m ∧ ValidDigits ds
      ∧ digitsVal ds
          = (digitsVal (k1.take m) + digitsVal (od.take m) + carry) % 92 ^ m := by
  intro m
  induction m with
  | zero =>
    intro carry front low _ _ hf _
    have : front = [] := List.eq_nil_of_length_eq_zero hf
    subst this
    exact ⟨[], by simp [PersistentList.MidKey.addLoop], rfl, fun d hd => by simp at hd,
      by simp [digitsVal]⟩
  | succ m ih =>
    intro carry front low hm1 hm2 hf hc
    have g1 := h1.getD m
    have g2 := h2.getD m
    obtain ⟨f, x, rfl⟩ : ∃ f x, front = f ++ [x] := by
      have hne : front ≠ [] := by
        intro h
        rw [h] at hf
        simp at hf
      exact ⟨front.dropLast, front.getLast hne, (List.dropLast_append_getLast hne).symm⟩
    have hfl : f.length = m := by simpa using hf
    rw [digitsVal_take_succ k1 m (by omega), digitsVal_take_succ od m (by omega)]
    simp only [PersistentList.MidKey.addLoop, KEY_BASE, Nat.cast_ofNat]
    have e1 : f ++ [x] ++ low = f ++ x :: low := by simp
    rw [e1, ← hfl, set_append_at_int, hfl]
    generalize k1.getD m 0 = a at g1 ⊢
    generalize od.getD m 0 = b at g2 ⊢
    set H1 := digitsVal (k1.take m) with hH1
    set H2 := digitsVal (od.take m) with hH2
    have hpos : (0 : Int) < 92 ^ m := by positivity
    by_cases hge : (92 : Int) ≤ a + b + carry
    · rw [if_pos hge, if_pos hge]
      obtain ⟨ds, hds, hl, hv, hval⟩ := ih 1 f ((a + b + carry - 92) :: low) (by omega)
        (by omega) hfl (Or.inr rfl)
      refine ⟨ds ++ [a + b + carry - 92], by rw [hds]; simp, by simp [hl], ?_, ?_⟩
      · intro d hd
        rcases List.mem_append.mp hd with hd | hd
        · exact hv d hd
        · rw [List.mem_singleton] at hd
          rw [hd]
          omega
      · rw [digitsVal_append_singleton, hval]
        have e : H1 * 92 + a + (H2 * 92 + b) + carry
            = (H1 + H2 + 1) * 92 + (a + b + carry - 92) := by ring
        rw [e, pow_succ (92 : Int) m,
          emod_mul_add (H1 + H2 + 1) (a + b + carry - 92) (92 ^ m) hpos (by omega) (by omega)]
    · rw [if_neg hge, if_neg hge]
      obtain ⟨ds, hds, hl, hv, hval⟩ := ih 0 f ((a + b + carry) :: low) (by omega)
        (by omega) hfl (Or.inl rfl)
      refine ⟨ds ++ [a + b + carry], by rw [hds]; simp, by simp [hl], ?_, ?_⟩
      · intro d hd
        rcases List.mem_append.mp hd with hd | hd
        · exact hv d hd
        · rw [List.mem_singleton] at hd
          rw [hd]
          omega
      · rw [digitsVal_append_singleton, hval]
        have e : H1 * 92 + a + (H2 * 92 + b) + carry
            = (H1 + H2 + 0) * 92 + (a + b + carry) := by ring
        rw [e, pow_succ (92 : Int) m,
          emod_mul_add (H1 + H2 + 0) (a + b + carry) (92 ^ m) hpos (by omega) (by omega)]

/-! ## `MidKey` on valid digit sequences -/

theorem digitsVal_append_replicate (xs : List Int) (k : Nat) :
    digitsVal (xs ++ List.replicate k 0) = digitsVal xs * 92 ^ k := by
  induction k with
  | zero => simp
  | succ k ih =>
    rw [List.replicate_succ', ← List.append_assoc, digitsVal_append_singleton, ih, pow_succ]
    ring

theorem charVal_digit (c : Nat) (h : 33 < c ∧ c < 126) :
    PersistentList.charVal c - (START_SYM : Int) - 1 = ((c - 34 : Nat) : Int) := by
  have h1 : c < 128 := by omega
  simp only [PersistentList.charVal, if_pos h1, START_SYM]
  omega

theorem digitsVal_map_digit (a : Bytes) (ha : ValidSeq a) :
    digitsVal (a.map (fun c => PersistentList.charVal c - (START_SYM : Int) - 1))
      = (seqVal a : Int) := by
  induction a using List.reverseRecOn with
  | nil => simp [digitsVal, seqVal]
  | append_singleton a c ih =>
    have hc := (ValidSeq.of_append ha).2 c (List.mem_singleton_self c)
    simp only [START_SYM, END_SYM] at hc
    rw [List.map_append, List.map_singleton, digitsVal_append_singleton,
      ih (ValidSeq.of_append ha).1, seqVal_append_singleton, charVal_digit c hc]
    push_cast
    ring

theorem validDigits_map_digit (a : Bytes) (ha : ValidSeq a) :
    ValidDigits (a.map (fun c => PersistentList.charVal c - (START_SYM : Int) - 1)) := by
  intro d hd
  obtain ⟨c, hc, rfl⟩ := List.mem_map.mp hd
  have h := ha c hc
  simp only [START_SYM, END_SYM] at h
  rw [charVal_digit c h]
  omega

theorem data_length (a : Bytes) (n : Nat) (h : a.length ≤ n) :
    (PersistentList.MidKey.data a n).length = n := by
  simp [PersistentList.MidKey.data]
  omega

theorem data_valid (a : Bytes) (n : Nat) (ha : ValidSeq a) :
    ValidDigits (PersistentList.MidKey.data a n) := by
  intro d hd
  rcases List.mem_append.mp hd with h | h
  · exact validDigits_map_digit a ha d h
  · exact validDigits_replicate _ d h

theorem data_val (a : Bytes) (n : Nat) (ha : ValidSeq a) :
    digitsVal (PersistentList.MidKey.data a n) = (padVal a n : Int) := by
  unfold PersistentList.MidKey.data padVal
  rw [digitsVal_append_replicate, digitsVal_map_digit a ha]
  push_cast
  rfl

/-- The bytes written from a vector of digits are valid digit bytes with the
value of the vector. -/
theorem middleKey_spec (kd : List Int) (h : ValidDigits kd) :
    ValidSeq (kd.map (fun d => ((d + (START_SYM : Int) + 1) % 256).toNat))
      ∧ ((seqVal (kd.map (fun d => ((d + (START_SYM : Int) + 1) % 256).toNat)) : Nat) : Int)
          = digitsVal kd := by
  induction kd using List.reverseRecOn with
  | nil => exact ⟨fun b hb => by simp at hb, by simp [seqVal, digitsVal]⟩
  | append_singleton kd d ih =>
    have hd := h d (by simp)
    obtain ⟨ih1, ih2⟩ := ih (fun x hx => h x (List.mem_append_left _ hx))
    have e : ((d + (START_SYM : Int) + 1) % 256).toNat = (d + 34).toNat := by
      simp only [START_SYM]
      congr 1
      omega
    rw [List.map_append, List.map_singleton, e]
    constructor
    · refine ih1.append (validSeq_singleton ?_ ?_) <;> omega
    · rw [seqVal_append_singleton, digitsVal_append_singleton]
      push_cast
      rw [ih2]
      omega

/-- What `MidKey` returns on two keys of the list with valid digit sequences
`a` and `b`, when the value of `a`, padded to the longer length `n`, is at most
the padded value of `b` and the difference is below `2 ^ 63`: for a difference
of at most one, the first key followed by `MIDDLE_SYM`; otherwise the key
prefix followed by the `n` valid digits whose value is the padded value of `a`
plus half the difference, rounded down. -/
theorem MidKey_spec (l : PersistentList) (a b : Bytes) (ha : ValidSeq a) (hb : ValidSeq b)
    (n : Nat) (hn : n = max a.length b.length) (hle : padVal a n ≤ padVal b n)
    (hfit : padVal b n - padVal a n < 2 ^ 63) :
    (padVal b n - padVal a n ≤ 1 →
        l.MidKey (l.mKeyPrefix ++ a) (l.mKeyPrefix ++ b)
          = some ((l.mKeyPrefix ++ a) ++ [MIDDLE_SYM]))
    ∧ (2 ≤ padVal b n - padVal a n →
        ∃ m, l.MidKey (l.mKeyPrefix ++ a) (l.mKeyPrefix ++ b) = some (l.mKeyPrefix ++ m)
          ∧ m.length = n ∧ ValidSeq m
          ∧ seqVal m = padVal a n + (padVal b n - padVal a n) / 2) := by
  have hla : a.length ≤ n := by rw [hn]; exact le_max_left _ _
  have hlb : b.length ≤ n := by rw [hn]; exact le_max_right _ _
  have hlen1 := data_length a n hla
  have hlen2 := data_length b n hlb
  have hv1 := data_valid a n ha
  have hv2 := data_valid b n hb
  have hval1 := data_val a n ha
  have hval2 := data_val b n hb
  have hlt2 := digitsVal_lt _ hv2
  rw [hlen2, hval2] at hlt2
  have hdiff := diffLoop_spec _ _ hv1 hv2 n 0 0 1 (by omega) (by omega) (Or.inl rfl)
    (by decide)
  have ht1 : List.take n (PersistentList.MidKey.data a n) = PersistentList.MidKey.data a n :=
    List.take_of_length_le (by omega)
  have ht2 : List.take n (PersistentList.MidKey.data b n) = PersistentList.MidKey.data b n :=
    List.take_of_length_le (by omega)
  rw [ht1, ht2, hval1, hval2] at hdiff
  have hD0 : (0 : Int) ≤ (padVal b n : Int) - (padVal a n : Int) - 0 := by omega
  have hD1 : (padVal b n : Int) - (padVal a n : Int) - 0 < 92 ^ n := by omega
  rw [Int.emod_eq_of_lt hD0 hD1] at hdiff
  have hfit' : (padVal b n : Int) - (padVal a n : Int) < 2 ^ 63 := by
    have : ((padVal b n - padVal a n : Nat) : Int) < ((2 ^ 63 : Nat) : Int) :=
      Int.ofNat_lt.mpr hfit
    push_cast at this
    omega
  rw [wrap64_of_fits _ (by norm_num; omega) (by norm_num at hfit' ⊢; omega)] at hdiff
  have hk1 : ¬ ((l.mKeyPrefix ++ a).length < l.mKeyPrefix.length
      ∨ (l.mKeyPrefix ++ b).length < l.mKeyPrefix.length) := by
    simp
  have htd : Int.tdiv (0 + 1 * ((padVal b n : Int) - (padVal a n : Int) - 0)) 2
      = ((padVal b n : Int) - (padVal a n : Int)) / 2 := by
    rw [Int.tdiv_eq_ediv (by omega) (by omega)]
    congr 1
    omega
  unfold PersistentList.MidKey
  simp only [if_neg hk1, List.drop_left, ← hn, hdiff, htd]
  constructor
  · intro h1
    have hz : ((padVal b n : Int) - (padVal a n : Int)) / 2 = 0 := by omega
    rw [if_pos hz]
  · intro h2
    have hz : ¬ ((padVal b n : Int) - (padVal a n : Int)) / 2 = 0 := by omega
    rw [if_neg hz]
    obtain ⟨ds, hds, hdl, hdv, hdval⟩ := offsetLoop_spec n
      (((padVal b n : Int) - (padVal a n : Int)) / 2) [] (by omega) (by omega)
    simp only [List.append_nil] at hds
    rw [hds]
    obtain ⟨kd, hkd, hkl, hkv, hkval⟩ := addLoop_spec _ ds hv1 hdv n 0 (List.replicate n 0) []
      (by omega) (by omega) (by simp) (Or.inl rfl)
    simp only [List.append_nil] at hkd
    rw [hkd]
    have ht3 : List.take n ds = ds := List.take_of_length_le (by omega)
    rw [ht1, ht3, hval1, hdval] at hkval
    rw [Int.emod_eq_of_lt (by omega) (by omega)] at hkval
    obtain ⟨hm1, hm2⟩ := middleKey_spec kd hkv
    refine ⟨_, rfl, by simp [hkl], hm1, ?_⟩
    rw [hkval] at hm2
    omega

/-! ## The example list -/

theorem exampleList_wellFormed : exampleList.WellFormed := by
  constructor <;> rfl

theorem exampleStore_sorted : DB.Sorted exampleStore := by
  unfold DB.Sorted exampleStore
  decide

theorem exampleStore_holds : exampleList.Holds exampleStore [] :=
  ⟨exampleStore_sorted, [],
    [([112, 108, 47, 109, 121, 108, 105, 115, 116, 47, 105, 100], [48]),
      ([112, 108, 47, 110, 101, 120, 116, 95, 105, 100], [49])],
    [52, 50], [52, 50], rfl⟩

theorem exampleStoreTwo_sorted : DB.Sorted exampleStoreTwo := by
  unfold DB.Sorted exampleStoreTwo
  decide

/-! ## The claims -/

/-- C1 (the order invariant fails on the code): on the list `mylist` created in
an empty store, push `a` and `b` at the back and insert `1`, ..., `6` one after
the other before the second entry; a further `InsertAt` of `7` before the second
entry leaves the forward traversal `a 6 5 4 3 2 7 b` and the backward traversal
its reverse, while the abstract sequence is `a 7 6 5 4 3 2 1 b`. -/
theorem C1_order_invariant_broken :
    (runOps exampleList exampleStore (denseOps ++ [Op.insertAt 1 [55]])).bind
        (PersistentListIterator.forwardValues exampleList)
      = some [[97], [54], [53], [52], [51], [50], [55], [98]]
    ∧ (runOps exampleList exampleStore (denseOps ++ [Op.insertAt 1 [55]])).bind
        (PersistentListIterator.backwardValues exampleList)
      = some [[98], [55], [50], [51], [52], [53], [54], [97]]
    ∧ abstractOps [] (denseOps ++ [Op.insertAt 1 [55]])
      = [[97], [55], [54], [53], [52], [51], [50], [49], [98]] := by
  decide!

/-- C2 (the midpoint is not always between its inputs): for the digit
sequences `NNNNNNNN` and `NNNNNNNN#`, the first below the second, `MidKey`
returns `NNNNNNNNN`, which sorts after the second. -/
theorem C2_midkey_not_between :
    exampleList.MidKey (exampleList.GetKey [78, 78, 78, 78, 78, 78, 78, 78])
        (exampleList.GetKey [78, 78, 78, 78, 78, 78, 78, 78, 35])
      = some (exampleList.GetKey [78, 78, 78, 78, 78, 78, 78, 78, 78])
    ∧ bytesLt [78, 78, 78, 78, 78, 78, 78, 78] [78, 78, 78, 78, 78, 78, 78, 78, 35] = true
    ∧ bytesLt [78, 78, 78, 78, 78, 78, 78, 78, 35] [78, 78, 78, 78, 78, 78, 78, 78, 78]
        = true := by
  decide!

/-- C3 (the midpoint is not exact on ten digits): for the ten-digit sequences
of base-92 values `0` and `20 * 92 ^ 9`, `MidKey` returns the first key, of
value `0`, and not the sequence of value `10 * 92 ^ 9`. -/
theorem C3_midkey_not_exact :
    exampleList.MidKey (exampleList.GetKey [34, 34, 34, 34, 34, 34, 34, 34, 34, 34])
        (exampleList.GetKey [54, 34, 34, 34, 34, 34, 34, 34, 34, 34])
      = some (exampleList.GetKey [34, 34, 34, 34, 34, 34, 34, 34, 34, 34])
    ∧ seqVal [34, 34, 34, 34, 34, 34, 34, 34, 34, 34] = 0
    ∧ seqVal [54, 34, 34, 34, 34, 34, 34, 34, 34, 34] = 20 * 92 ^ 9
    ∧ 2 ^ 63 ≤ 20 * 92 ^ 9 := by
  decide!

/-- C4 (a key grows although the values differ by more than one): for the
ten-digit sequences of base-92 values `0` and `2 ^ 64`, `MidKey` returns the
first key followed by `N`, eleven digits. -/
theorem C4_midkey_grows_on_wide_gap :
    exampleList.MidKey (exampleList.GetKey [34, 34, 34, 34, 34, 34, 34, 34, 34, 34])
        (exampleList.GetKey [73, 40, 63, 99, 125, 106, 40, 37, 51, 86])
      = some (exampleList.GetKey [34, 34, 34, 34, 34, 34, 34, 34, 34, 34, 78])
    ∧ seqVal [34, 34, 34, 34, 34, 34, 34, 34, 34, 34] = 0
    ∧ seqVal [73, 40, 63, 99, 125, 106, 40, 37, 51, 86] = 2 ^ 64 := by
  decide!

/-- C5 (`InsertAt` does not always insert before the cursor): in the store
reached by `denseOps`, whose traversal is `a 6 5 4 3 2 1 b`, `InsertAt` of `7`
with a new cursor moved to the second entry (value `6`) leaves the traversal
`a 6 5 4 3 2 7 b`. -/
theorem C5_insertAt_not_before_cursor :
    (runOps exampleList exampleStore denseOps).bind
        (PersistentListIterator.forwardValues exampleList)
      = some [[97], [54], [53], [52], [51], [50], [49], [98]]
    ∧ ((runOps exampleList exampleStore denseOps).bind fun db =>
        (PersistentListIterator.atEntry exampleList db 1).bind fun c =>
        c.Value.map fun v => (c.Valid, v))
      = some (true, [54])
    ∧ ((runOps exampleList exampleStore denseOps).bind fun db =>
        (PersistentListIterator.atEntry exampleList db 1).bind fun c =>
        (exampleList.InsertAt db c [55]).bind fun r =>
        PersistentListIterator.forwardValues exampleList r.2)
      = some [[97], [54], [53], [52], [51], [50], [55], [98]] := by
  decide!

/-- C6 (an insertion can reuse a key): in the store reached by `denseOps`,
`InsertAt` with a new cursor moved to the second entry returns the key
`pl/0/NNNNNNNNN`, which was present with the value `1`; the value is
overwritten and `Size()` is 8 before and after the call. -/
theorem C6_insertAt_reuses_key :
    ((runOps exampleList exampleStore denseOps).bind fun db =>
        (PersistentListIterator.atEntry exampleList db 1).bind fun c =>
        (exampleList.InsertAt db c [55]).bind fun r =>
        (DB.Get db r.1).bind fun old =>
        (DB.Get r.2 r.1).bind fun new =>
        (exampleList.Size db).bind fun n =>
        (exampleList.Size r.2).bind fun m =>
        some (r.1, old, new, n, m))
      = some (exampleList.GetKey [78, 78, 78, 78, 78, 78, 78, 78, 78], [49], [55], 8, 8) := by
  decide!

/-! ## Lists of `2 ^ 31` entries -/

theorem wrap32_two_pow :
    PersistentList.wrap32 ((2 ^ 31 : Nat) : Int) = -2147483648 := by
  norm_num [PersistentList.wrap32]

/-- The store after `PushBack` of `2 ^ 31` values `a` on the new example list
holds that many entries, all with the value `a`. -/
theorem pushBack_many :
    ∃ db ents, pushBackAll exampleList exampleStore (List.replicate (2 ^ 31) [97]) = some db
      ∧ exampleList.Holds db ents ∧ ents.length = 2 ^ 31 ∧ ∀ e ∈ ents, e.2 = [97] := by
  obtain ⟨db, ents, hpush, hholds, hmap⟩ := pushBackAll_nil exampleList exampleList_wellFormed
    exampleStore (List.replicate (2 ^ 31) [97]) exampleStore_holds
    (by rw [List.length_replicate, seqVal_init]; norm_num)
  refine ⟨db, ents, hpush, hholds, ?_, ?_⟩
  · have := congrArg List.length hmap
    rw [List.length_map, List.length_replicate] at this
    exact this
  · intro e he
    have : e.2 ∈ ents.map Prod.snd := List.mem_map_of_mem _ he
    rw [hmap] at this
    exact (List.mem_replicate.mp this).2

/-- The store after `PushFront` of `2 ^ 31` values `a` on the new example list
holds that many entries. -/
theorem pushFront_many :
    ∃ db ents, pushFrontAll exampleList exampleStore (List.replicate (2 ^ 31) [97]) = some db
      ∧ exampleList.Holds db ents ∧ ents.length = 2 ^ 31 := by
  obtain ⟨db, ents, hpush, hholds, hmap⟩ := pushFrontAll_nil exampleList exampleList_wellFormed
    exampleStore (List.replicate (2 ^ 31) [97]) exampleStore_holds
    (by rw [List.length_replicate, seqVal_init]; norm_num)
  refine ⟨db, ents, hpush, hholds, ?_⟩
  have := congrArg List.length hmap
  rw [List.length_map, List.length_reverse, List.length_replicate] at this
  exact this

/-- C7, as stated, fails for `2 ^ 31` values: that number is small enough for
`NextKey` not to wrap, `PushBack` of `2 ^ 31` values on the new example list
returns each time, and `Size()`, which counts in an `int`, then returns
`-2147483648`. -/
theorem C7_size_wraps :
    2 ^ 31 ≤ 92 ^ 8 - seqVal INIT_KEY_SEQ
      ∧ ∃ db1, pushBackAll exampleList exampleStore (List.replicate (2 ^ 31) [97]) = some db1
          ∧ exampleList.Size db1 = some (-2147483648) := by
  obtain ⟨db, ents, hpush, hholds, hlen, _⟩ := pushBack_many
  refine ⟨by rw [seqVal_init]; norm_num, db, hpush, ?_⟩
  rw [Size_of_holds_wrap _ _ _ hholds, hlen, wrap32_two_pow]

/-- C7 (amended, FIFO with back-push and front-pop, `Size()` for fewer than
`2 ^ 31` values): on an empty list, for values `vs` whose number is at most
`92 ^ 8` minus the value of `NNNNNNNN`, so that `NextKey` never wraps,
`PushBack` of each value in turn returns, `Size()` is then the number of values
taken on 32 bits, which is the number of values when it is below `2 ^ 31`, that
many rounds of `Front()` and `PopFront()` return `(true, v)` and `true` for the
values in pushing order, and `Size()` is then 0. -/
theorem C7_fifo_pushBack_popFront (l : PersistentList) (db : DB) (vs : List Bytes)
    (hl : l.WellFormed) (h : l.Holds db [])
    (hN : vs.length ≤ 92 ^ 8 - seqVal INIT_KEY_SEQ) :
    ∃ db1 db2, pushBackAll l db vs = some db1
      ∧ l.Size db1 = some (PersistentList.wrap32 vs.length)
      ∧ (vs.length < 2 ^ 31 → l.Size db1 = some (vs.length : Int))
      ∧ frontPopRounds l vs.length db1 = some (vs.map (fun v => ((true, v), true)), db2)
      ∧ l.Size db2 = some 0 := by
  obtain ⟨db1, ents1, hpush, hholds, hmap⟩ := pushBackAll_nil l hl db vs h hN
  have hlen : ents1.length = vs.length := by rw [← hmap, List.length_map]
  obtain ⟨db2, hrounds, hholds2⟩ := frontPopRounds_spec l ents1 db1 hholds
  refine ⟨db1, db2, hpush, ?_, ?_, ?_, ?_⟩
  · rw [Size_of_holds_wrap l db1 ents1 hholds, hlen]
  · intro hn
    rw [Size_of_holds l db1 ents1 hholds (by omega), hlen]
  · rw [← hlen, hrounds, ← hmap, List.map_map]
    rfl
  · exact Size_of_holds_nil l db2 hholds2

/-- The amended property C7 at the values `a`, `b`, `c` on the example list. -/
theorem C7_fifo_pushBack_popFront_witness :
    ∃ db1 db2, pushBackAll exampleList exampleStore [[97], [98], [99]] = some db1
      ∧ exampleList.Size db1 = some 3
      ∧ frontPopRounds exampleList 3 db1
          = some ([((true, [97]), true), ((true, [98]), true), ((true, [99]), true)], db2)
      ∧ exampleList.Size db2 = some 0 := by
  obtain ⟨db1, db2, h1, _, h2, h3, h4⟩ :=
    C7_fifo_pushBack_popFront exampleList exampleStore [[97], [98], [99]]
      exampleList_wellFormed exampleStore_holds (by rw [seqVal_init]; decide)
  exact ⟨db1, db2, h1, h2 (by decide), h3, h4⟩

/-- C8, as stated, fails for `2 ^ 31` values: that number is small enough for
`PrevKey` not to wrap, `PushFront` of `2 ^ 31` values on the new example list
returns each time, and `Size()`, which counts in an `int`, then returns
`-2147483648`. -/
theorem C8_size_wraps :
    2 ^ 31 ≤ seqVal INIT_KEY_SEQ + 1
      ∧ ∃ db1, pushFrontAll exampleList exampleStore (List.replicate (2 ^ 31) [97]) = some db1
          ∧ exampleList.Size db1 = some (-2147483648) := by
  obtain ⟨db, ents, hpush, hholds, hlen⟩ := pushFront_many
  refine ⟨by rw [seqVal_init]; norm_num, db, hpush, ?_⟩
  rw [Size_of_holds_wrap _ _ _ hholds, hlen, wrap32_two_pow]

/-- C8 (amended, FIFO with front-push and back-pop, `Size()` for fewer than
`2 ^ 31` values): on an empty list, for values `vs` whose number is at most one
more than the value of `NNNNNNNN`, so that `PrevKey` never wraps, `PushFront`
of each value in turn returns, `Size()` is then the number of values taken on
32 bits, which is the number of values when it is below `2 ^ 31`, that many
rounds of `Back()` and `PopBack()` return `(true, v)` and `true` for the values
in pushing order, and that many rounds of `Front()` and `PopFront()` return
them in the reverse order. -/
theorem C8_fifo_pushFront_popBack (l : PersistentList) (db : DB) (vs : List Bytes)
    (hl : l.WellFormed) (h : l.Holds db [])
    (hN : vs.length ≤ seqVal INIT_KEY_SEQ + 1) :
    ∃ db1 db2 db3, pushFrontAll l db vs = some db1
      ∧ l.Size db1 = some (PersistentList.wrap32 vs.length)
      ∧ (vs.length < 2 ^ 31 → l.Size db1 = some (vs.length : Int))
      ∧ backPopRounds l vs.length db1 = some (vs.map (fun v => ((true, v), true)), db2)
      ∧ frontPopRounds l vs.length db1
          = some (vs.reverse.map (fun v => ((true, v), true)), db3) := by
  obtain ⟨db1, ents1, hpush, hholds, hmap⟩ := pushFrontAll_nil l hl db vs h hN
  have hlen : ents1.length = vs.length := by
    have := congrArg List.length hmap
    simpa using this
  obtain ⟨db2, hback, _⟩ := backPopRounds_spec l ents1 db1 hholds
  obtain ⟨db3, hfront, _⟩ := frontPopRounds_spec l ents1 db1 hholds
  refine ⟨db1, db2, db3, hpush, ?_, ?_, ?_, ?_⟩
  · rw [Size_of_holds_wrap l db1 ents1 hholds, hlen]
  · intro hn
    rw [Size_of_holds l db1 ents1 hholds (by omega), hlen]
  · have hrev : vs = (ents1.map Prod.snd).reverse := by rw [hmap, List.reverse_reverse]
    rw [← hlen, hback, hrev, ← List.map_reverse, List.map_map]
    rfl
  · rw [← hlen, hfront, ← hmap, List.map_map]
    rfl

/-- The amended property C8 at the values `a`, `b`, `c` on the example list. -/
theorem C8_fifo_pushFront_popBack_witness :
    ∃ db1 db2 db3, pushFrontAll exampleList exampleStore [[97], [98], [99]] = some db1
      ∧ exampleList.Size db1 = some 3
      ∧ backPopRounds exampleList 3 db1
          = some ([((true, [97]), true), ((true, [98]), true), ((true, [99]), true)], db2)
      ∧ frontPopRounds exampleList 3 db1
          = some ([((true, [99]), true), ((true, [98]), true), ((true, [97]), true)], db3) := by
  obtain ⟨db1, db2, db3, h1, _, h2, h3, h4⟩ :=
    C8_fifo_pushFront_popBack exampleList exampleStore [[97], [98], [99]]
      exampleList_wellFormed exampleStore_holds (by rw [seqVal_init]; decide)
  exact ⟨db1, db2, db3, h1, h2 (by decide), h3, h4⟩

/-- C9 (cursor traversal): in a sorted store that has both sentinel keys of the
list, the head below the tail, a new cursor is not valid after `SeekFront()`
and after `SeekBack()`; `Next()` until false visits exactly the entries
strictly between the sentinels in ascending key order, `Prev()` until false
visits them in the reverse order, `Valid()` is true at every visited entry and
false when either loop ends. -/
theorem C9_cursor_traversal (l : PersistentList) (db : DB) (hs : DB.Sorted db)
    (hh : db.HasKey l.mHeadKey) (ht : db.HasKey l.mTailKey)
    (hlt : bytesLt l.mHeadKey l.mTailKey = true) :
    (PersistentListIterator.new l db).SeekFront.Valid = false
      ∧ (PersistentListIterator.new l db).SeekBack.Valid = false
      ∧ ∃ c1 c2,
        PersistentListIterator.forwardTraversal l db
            = some ((l.entries db).map (fun e => (true, e.2)), c1)
          ∧ c1.Valid = false
          ∧ PersistentListIterator.backwardTraversal l db
            = some ((l.entries db).reverse.map (fun e => (true, e.2)), c2)
          ∧ c2.Valid = false := by
  have hholds := holds_entries l db hs hh ht hlt
  obtain ⟨c1, h1, hv1⟩ := forwardTraversal_of_holds l db _ hholds
  obtain ⟨c2, h2, hv2⟩ := backwardTraversal_of_holds l db _ hholds
  exact ⟨rfl, rfl, c1, c2, h1, hv1, h2, hv2⟩

/-- The property C9 on the example list with two entries. -/
theorem C9_cursor_traversal_witness :
    (PersistentListIterator.new exampleList exampleStoreTwo).SeekFront.Valid = false
      ∧ (PersistentListIterator.new exampleList exampleStoreTwo).SeekBack.Valid = false
      ∧ ∃ c1 c2,
        PersistentListIterator.forwardTraversal exampleList exampleStoreTwo
            = some ((exampleList.entries exampleStoreTwo).map (fun e => (true, e.2)), c1)
          ∧ c1.Valid = false
          ∧ PersistentListIterator.backwardTraversal exampleList exampleStoreTwo
            = some ((exampleList.entries exampleStoreTwo).reverse.map (fun e => (true, e.2)), c2)
          ∧ c2.Valid = false :=
  C9_cursor_traversal exampleList exampleStoreTwo exampleStoreTwo_sorted
    ⟨[52, 50], by decide⟩ ⟨[52, 50], by decide⟩ (by decide)

/-- C10 (empty list): in a sorted store that has both sentinel keys of the
list, the head below the tail, and no entry between them, `Front()` and
`Back()` return `(false, "")`, `PopFront()` and `PopBack()` return false and
leave the store as it is, and `Size()` returns 0. -/
theorem C10_empty_list (l : PersistentList) (db : DB) (hs : DB.Sorted db)
    (hh : db.HasKey l.mHeadKey) (ht : db.HasKey l.mTailKey)
    (hlt : bytesLt l.mHeadKey l.mTailKey = true) (hempty : l.entries db = []) :
    l.Front db = some (false, []) ∧ l.Back db = some (false, [])
      ∧ l.PopFront db = some (false, db) ∧ l.PopBack db = some (false, db)
      ∧ l.Size db = some 0 := by
  have hholds := holds_entries l db hs hh ht hlt
  rw [hempty] at hholds
  exact ⟨Front_nil l db hholds, Back_nil l db hholds, PopFront_nil l db hholds,
    PopBack_nil l db hholds, Size_of_holds_nil l db hholds⟩

/-- The property C10 on the example list right after its creation. -/
theorem C10_empty_list_witness :
    exampleList.Front exampleStore = some (false, [])
      ∧ exampleList.Back exampleStore = some (false, [])
      ∧ exampleList.PopFront exampleStore = some (false, exampleStore)
      ∧ exampleList.PopBack exampleStore = some (false, exampleStore)
      ∧ exampleList.Size exampleStore = some 0 :=
  C10_empty_list exampleList exampleStore exampleStore_sorted
    ⟨[52, 50], by decide⟩ ⟨[52, 50], by decide⟩ (by decide) (by decide)

/-! ## More on the bytewise order and the digit values -/

theorem bytesLt_append_of_lt : ∀ (s t x y : Bytes), bytesLt s t = true →
    s.length = t.length → bytesLt (s ++ x) (t ++ y) = true
  | [], [], _, _, h, _ => by simp [bytesLt] at h
  | [], _ :: _, _, _, _, hl => by simp at hl
  | _ :: _, [], _, _, _, hl => by simp at hl
  | a :: s, b :: t, x, y, h, hl => by
    simp only [bytesLt, List.cons_append] at h ⊢
    by_cases hab : a < b
    · simp [hab]
    · by_cases hba : b < a
      · simp [hab, hba] at h
      · simp only [hab, hba, if_false] at h ⊢
        exact bytesLt_append_of_lt s t x y h (by simpa using hl)

/-- On valid digit sequences of one length, a sequence that sorts first has
the smaller base-92 value. -/
theorem seqVal_lt_of_bytesLt : ∀ (s t : Bytes), ValidSeq s → ValidSeq t →
    s.length = t.length → bytesLt s t = true → seqVal s < seqVal t
  | [], [], _, _, _, h => by simp [bytesLt] at h
  | [], _ :: _, _, _, hl, _ => by simp at hl
  | _ :: _, [], _, _, hl, _ => by simp at hl
  | a :: s, b :: t, hs, ht, hl, h => by
    have hl1 : s.length = t.length := by simpa using hl
    have ha := hs.cons.1
    have hb := ht.cons.1
    have hs1 := seqVal_lt s hs.cons.2
    have ht1 := seqVal_lt t ht.cons.2
    rw [seqVal_cons, seqVal_cons, hl1]
    rw [hl1] at hs1
    simp only [bytesLt] at h
    by_cases hab : a < b
    · have h3 : (a - 34 + 1) * 92 ^ t.length ≤ (b - 34) * 92 ^ t.length :=
        Nat.mul_le_mul_right _ (by omega)
      rw [Nat.add_mul, Nat.one_mul] at h3
      omega
    · by_cases hba : b < a
      · simp [hab, hba] at h
      · have hab1 : a = b := by omega
        subst hab1
        simp only [hab, if_false] at h
        have := seqVal_lt_of_bytesLt s t hs.cons.2 ht.cons.2 hl1 h
        omega

theorem seqVal_injective (s t : Bytes) (hs : ValidSeq s) (ht : ValidSeq t)
    (hl : s.length = t.length) (h : seqVal s = seqVal t) : s = t := by
  apply bytesLt_connex
  · cases h1 : bytesLt s t with
    | false => rfl
    | true =>
      have := seqVal_lt_of_bytesLt s t hs ht hl h1
      omega
  · cases h1 : bytesLt t s with
    | false => rfl
    | true =>
      have := seqVal_lt_of_bytesLt t s ht hs hl.symm h1
      omega

theorem validSeq_of_all (s : Bytes)
    (h : s.all (fun b => decide (START_SYM < b ∧ b < END_SYM)) = true) : ValidSeq s := by
  intro b hb
  have := List.all_eq_true.mp h b hb
  simpa using this

theorem validSeq_take {s : Bytes} (h : ValidSeq s) (n : Nat) : ValidSeq (s.take n) :=
  fun b hb => h b (List.mem_of_mem_take hb)

theorem validSeq_allMax : ValidSeq (List.replicate 8 (END_SYM - 1)) := by
  intro b hb
  rw [List.mem_replicate] at hb
  rw [hb.2]
  simp [START_SYM, END_SYM]

theorem validSeq_allMin : ValidSeq (List.replicate 8 (START_SYM + 1)) := by
  intro b hb
  rw [List.mem_replicate] at hb
  rw [hb.2]
  simp [START_SYM, END_SYM]

theorem seqVal_allMax : seqVal (List.replicate 8 (END_SYM - 1)) = 92 ^ 8 - 1 := by
  decide

theorem seqVal_allMin : seqVal (List.replicate 8 (START_SYM + 1)) = 0 := by
  decide

/-! ## The claims on the key codec and on `PopKey` -/

/-- The successor of a key that fits the buffer inside the string object: for
a key whose digit sequence is valid, has from eight to fifteen digits and
whose first eight digits are not all the maximum digit, `NextKey` returns the
key prefix followed by eight valid digits whose base-92 value is one more than
the value of the first eight digits, and the result sorts strictly after the
input key. -/
theorem NextKey_successor (l : PersistentList) (seq : Bytes) (hv : ValidSeq seq)
    (hl : 8 ≤ seq.length) (h15 : seq.length ≤ 15)
    (hmax : seq.take 8 ≠ List.replicate 8 (END_SYM - 1)) :
    ∃ s', l.NextKey (l.mKeyPrefix ++ seq) = some (l.mKeyPrefix ++ s')
      ∧ s'.length = 8 ∧ ValidSeq s' ∧ seqVal s' = seqVal (seq.take 8) + 1
      ∧ bytesLt (l.mKeyPrefix ++ seq) (l.mKeyPrefix ++ s') = true := by
  have hlen : (seq.take 8).length = 8 := by simp; omega
  have hvt := validSeq_take hv 8
  have hlt := seqVal_lt _ hvt
  rw [hlen] at hlt
  have hne : seqVal (seq.take 8) ≠ 92 ^ 8 - 1 := by
    intro h
    apply hmax
    exact seqVal_injective _ _ hvt validSeq_allMax (by simp [hlen]) (by rw [h, seqVal_allMax])
  obtain ⟨s', hnext, hlen', hs', hval⟩ := NextKey_spec l (seq.take 8) (seq.drop 8) hvt hlen
    (by rw [List.length_drop]; omega)
  rw [List.take_append_drop] at hnext
  rw [Nat.mod_eq_of_lt (by omega)] at hval
  refine ⟨s', hnext, hlen', hs', hval, ?_⟩
  rw [bytesLt_append_left]
  have h1 := bytesLt_of_seqVal_lt (seq.take 8) s' hvt hs' (by rw [hlen, hlen']) (by omega)
  have h2 := bytesLt_append_of_lt (seq.take 8) s' (seq.drop 8) [] h1 (by rw [hlen, hlen'])
  rw [List.take_append_drop, List.append_nil] at h2
  exact h2

/-- The successor of the nine-digit key `pl/0/NNNNNNN}N`. -/
theorem NextKey_successor_example :
    ∃ s', exampleList.NextKey (exampleList.mKeyPrefix ++ [78, 78, 78, 78, 78, 78, 78, 125, 78])
        = some (exampleList.mKeyPrefix ++ s')
      ∧ s'.length = 8 ∧ ValidSeq s'
      ∧ seqVal s' = seqVal ([78, 78, 78, 78, 78, 78, 78, 125, 78].take 8) + 1
      ∧ bytesLt (exampleList.mKeyPrefix ++ [78, 78, 78, 78, 78, 78, 78, 125, 78])
          (exampleList.mKeyPrefix ++ s') = true :=
  NextKey_successor exampleList [78, 78, 78, 78, 78, 78, 78, 125, 78]
    (validSeq_of_all _ (by decide))
    (by decide) (by decide) (by decide)

/-- The predecessor of a key that fits the buffer inside the string object:
for a key whose digit sequence is valid, has from eight to fifteen digits and
whose first eight digits are not all the minimum digit, `PrevKey` returns the
key prefix followed by eight valid digits whose base-92 value is one less than
the value of the first eight digits, and the result sorts strictly before the
input key. -/
theorem PrevKey_predecessor (l : PersistentList) (seq : Bytes) (hv : ValidSeq seq)
    (hl : 8 ≤ seq.length) (h15 : seq.length ≤ 15)
    (hmin : seq.take 8 ≠ List.replicate 8 (START_SYM + 1)) :
    ∃ s', l.PrevKey (l.mKeyPrefix ++ seq) = some (l.mKeyPrefix ++ s')
      ∧ s'.length = 8 ∧ ValidSeq s' ∧ seqVal s' + 1 = seqVal (seq.take 8)
      ∧ bytesLt (l.mKeyPrefix ++ s') (l.mKeyPrefix ++ seq) = true := by
  have hlen : (seq.take 8).length = 8 := by simp; omega
  have hvt := validSeq_take hv 8
  have hlt := seqVal_lt _ hvt
  rw [hlen] at hlt
  have hne : seqVal (seq.take 8) ≠ 0 := by
    intro h
    apply hmin
    exact seqVal_injective _ _ hvt validSeq_allMin (by simp [hlen]) (by rw [h, seqVal_allMin])
  obtain ⟨s', hprev, hlen', hs', hval⟩ := PrevKey_spec l (seq.take 8) (seq.drop 8) hvt hlen
    (by rw [List.length_drop]; omega)
  rw [List.take_append_drop] at hprev
  have e1 : seqVal (seq.take 8) + (92 ^ 8 - 1) = (seqVal (seq.take 8) - 1) + 92 ^ 8 * 1 := by
    omega
  rw [e1, Nat.add_mul_mod_self_left, Nat.mod_eq_of_lt (by omega)] at hval
  refine ⟨s', hprev, hlen', hs', by omega, ?_⟩
  rw [bytesLt_append_left]
  have h1 := bytesLt_of_seqVal_lt s' (seq.take 8) hs' hvt (by rw [hlen, hlen']) (by omega)
  have h2 := bytesLt_append_of_lt s' (seq.take 8) [] (seq.drop 8) h1 (by rw [hlen, hlen'])
  rw [List.take_append_drop, List.append_nil] at h2
  exact h2

/-- The predecessor of the nine-digit key `pl/0/NNNNNNN"N`. -/
theorem PrevKey_predecessor_example :
    ∃ s', exampleList.PrevKey (exampleList.mKeyPrefix ++ [78, 78, 78, 78, 78, 78, 78, 34, 78])
        = some (exampleList.mKeyPrefix ++ s')
      ∧ s'.length = 8 ∧ ValidSeq s'
      ∧ seqVal s' + 1 = seqVal ([78, 78, 78, 78, 78, 78, 78, 34, 78].take 8)
      ∧ bytesLt (exampleList.mKeyPrefix ++ s')
          (exampleList.mKeyPrefix ++ [78, 78, 78, 78, 78, 78, 78, 34, 78]) = true :=
  PrevKey_predecessor exampleList [78, 78, 78, 78, 78, 78, 78, 34, 78]
    (validSeq_of_all _ (by decide))
    (by decide) (by decide) (by decide)

/-! ## The successor and the predecessor of a key of sixteen digits -/

/-- The store `exampleStoreLong` is reached from the new example list by
public calls: `PushBack` of `a` and of `b`, fifty times `InsertAt` of `x` with
a new cursor at the last entry, `PopBack`, and fifty rounds of `Front` and
`PopFront`. -/
theorem exampleStoreLong_reached :
    ((pushBackAll exampleList exampleStore [[97], [98]]).bind fun db0 =>
      (insertBeforeLast exampleList [120] 50 db0).bind fun db =>
      (exampleList.PopBack db).bind fun p =>
      (frontPopRounds exampleList 50 p.2).bind fun r => some r.2)
      = some exampleStoreLong := by
  decide!

/-- C15 fails on a key of sixteen digits: the store `exampleStoreLong` is
reached by public calls; the key of its last entry, which `PushBack` passes to
`NextKey`, is the key prefix and the sequence `NNNNNNNN}}}}}}}N`, valid, of
sixteen digits, its first eight digits not all the maximum digit; the sequence
does not fit the buffer inside the temporary string, so that `NextKey` reads
freed memory: it has no defined result on this key, and neither has
`PushBack`.  On the first fifteen digits of the sequence `NextKey` returns the
key prefix and `NNNNNNNO`. -/
theorem C15_successor_long_key :
    ((pushBackAll exampleList exampleStore [[97], [98]]).bind fun db0 =>
      (insertBeforeLast exampleList [120] 50 db0).bind fun db =>
      (exampleList.PopBack db).bind fun p =>
      (frontPopRounds exampleList 50 p.2).bind fun r => some r.2)
      = some exampleStoreLong
    ∧ (((DB.NewIterator exampleStoreLong).Seek exampleList.mTailKey).Prev).bind
        (fun it => it.key) = some (exampleList.mKeyPrefix ++ longKeySeq)
    ∧ ValidSeq longKeySeq ∧ longKeySeq.length = 16
    ∧ longKeySeq.take 8 ≠ List.replicate 8 (END_SYM - 1)
    ∧ exampleList.NextKey (exampleList.mKeyPrefix ++ longKeySeq) = none
    ∧ exampleList.PushBack exampleStoreLong [99] = none
    ∧ exampleList.NextKey (exampleList.mKeyPrefix ++ longKeySeq.take 15)
        = some (exampleList.mKeyPrefix ++ [78, 78, 78, 78, 78, 78, 78, 79]) :=
  ⟨exampleStoreLong_reached, by decide, validSeq_of_all _ (by decide), by decide, by decide,
    by decide, by decide, by decide⟩

/-- C16 fails on a key of sixteen digits: the store `exampleStoreLong` is
reached by public calls; the key of its first entry, which `PushFront` passes
to `PrevKey`, is the key prefix and the sequence `NNNNNNNN}}}}}}}N`, valid, of
sixteen digits, its first eight digits not all the minimum digit; the sequence
does not fit the buffer inside the temporary string, so that `PrevKey` reads
freed memory: it has no defined result on this key, and neither has
`PushFront`.  On the first fifteen digits of the sequence `PrevKey` returns the
key prefix and `NNNNNNNM`. -/
theorem C16_predecessor_long_key :
    ((pushBackAll exampleList exampleStore [[97], [98]]).bind fun db0 =>
      (insertBeforeLast exampleList [120] 50 db0).bind fun db =>
      (exampleList.PopBack db).bind fun p =>
      (frontPopRounds exampleList 50 p.2).bind fun r => some r.2)
      = some exampleStoreLong
    ∧ (((DB.NewIterator exampleStoreLong).Seek exampleList.mHeadKey).Next).bind
        (fun it => it.key) = some (exampleList.mKeyPrefix ++ longKeySeq)
    ∧ ValidSeq longKeySeq ∧ longKeySeq.length = 16
    ∧ longKeySeq.take 8 ≠ List.replicate 8 (START_SYM + 1)
    ∧ exampleList.PrevKey (exampleList.mKeyPrefix ++ longKeySeq) = none
    ∧ exampleList.PushFront exampleStoreLong [99] = none
    ∧ exampleList.PrevKey (exampleList.mKeyPrefix ++ longKeySeq.take 15)
        = some (exampleList.mKeyPrefix ++ [78, 78, 78, 78, 78, 78, 78, 77]) :=
  ⟨exampleStoreLong_reached, by decide, validSeq_of_all _ (by decide), by decide, by decide,
    by decide, by decide, by decide⟩

/-! ## Reading the store after a write -/

theorem get_cons (e : Entry) (rest : DB) (k : Bytes) :
    DB.Get (e :: rest) k = if e.1 = k then some e.2 else DB.Get rest k := by
  unfold DB.Get
  by_cases h : e.1 = k
  · simp [List.find?_cons, h]
  · simp [List.find?_cons, h]

theorem get_nil (k : Bytes) : DB.Get [] k = none := rfl

theorem get_put_self (db : DB) (k v : Bytes) : DB.Get (DB.Put db k v) k = some v := by
  induction db with
  | nil => simp [DB.Put, get_cons]
  | cons e rest ih =>
    unfold DB.Put
    by_cases h1 : bytesLt k e.1 = true
    · simp [h1, get_cons]
    · by_cases h2 : e.1 = k
      · simp [h2, bytesLt_irrefl, get_cons]
      · simp [h1, h2, get_cons, ih]

theorem get_put_other (db : DB) (k v k' : Bytes) (h : k' ≠ k) :
    DB.Get (DB.Put db k v) k' = DB.Get db k' := by
  have hk : ¬ k = k' := fun hh => h hh.symm
  induction db with
  | nil => simp [DB.Put, get_cons, hk, get_nil]
  | cons e rest ih =>
    unfold DB.Put
    by_cases h1 : bytesLt k e.1 = true
    · simp [h1, get_cons, hk]
    · by_cases h2 : e.1 = k
      · have he : ¬ e.1 = k' := by rw [h2]; exact hk
        simp [h2, bytesLt_irrefl, get_cons, hk]
      · simp [h1, h2, get_cons, ih]

theorem get_delete_self (db : DB) (k : Bytes) : DB.Get (DB.Delete db k) k = none := by
  induction db with
  | nil => rfl
  | cons e rest ih =>
    unfold DB.Delete at ih ⊢
    by_cases h1 : e.1 = k
    · rw [List.filter_cons_of_neg (by simpa using h1)]
      exact ih
    · rw [List.filter_cons_of_pos (by simpa using h1), get_cons, if_neg h1]
      exact ih

theorem get_delete_other (db : DB) (k k' : Bytes) (h : k' ≠ k) :
    DB.Get (DB.Delete db k) k' = DB.Get db k' := by
  induction db with
  | nil => rfl
  | cons e rest ih =>
    unfold DB.Delete at ih ⊢
    by_cases h1 : e.1 = k
    · have h2 : ¬ e.1 = k' := fun hh => h (hh.symm.trans h1)
      rw [List.filter_cons_of_neg (by simpa using h1), get_cons, if_neg h2]
      exact ih
    · rw [List.filter_cons_of_pos (by simpa using h1), get_cons, get_cons, ih]

theorem append_singleton_ne (a b : Bytes) (x y : Nat) (h : x ≠ y) : a ++ [x] ≠ b ++ [y] := by
  intro hh
  have := List.append_inj_right' hh rfl
  simp at this
  exact h this

/-! ## The constructor -/

theorem Get_found (KEY_PREFIX : Bytes) (db : DB) (name idValue : Bytes)
    (h : DB.Get db (KEY_PREFIX ++ name ++ [47, 105, 100]) = some idValue) :
    PersistentList.Get KEY_PREFIX db name
      = some (PersistentList.Get.object KEY_PREFIX name idValue, db) := by
  unfold PersistentList.Get
  rw [h]

/-- The record of the name is readable after the writes for a new list. -/
theorem get_after_register (KEY_PREFIX : Bytes) (db db5 : DB) (name listId : Bytes)
    (h : PersistentList.Get.register KEY_PREFIX db name listId = some db5) :
    DB.Get db5 (KEY_PREFIX ++ name ++ [47, 105, 100]) = some listId := by
  unfold PersistentList.Get.register at h
  cases hs : PersistentList.stoi listId with
  | none => rw [hs] at h; simp at h
  | some n =>
    rw [hs] at h
    simp only [Option.some_bind, Option.some.injEq] at h
    rw [← h]
    have e : KEY_PREFIX ++ name ++ [47, 105, 100]
        = (KEY_PREFIX ++ name ++ [47, 105]) ++ [100] := by simp
    unfold PersistentList.GetKey PersistentList.Get.object
    simp only
    rw [get_put_other _ _ _ _
        (by rw [e]; exact (append_singleton_ne _ _ _ _ (by decide)).symm),
      get_put_other _ _ _ _
        (by rw [e]; exact (append_singleton_ne _ _ _ _ (by decide)).symm),
      get_put_self]

/-- The first call of `Get` does not return only when the record of the name
is absent and the counter record holds a string that `stoi` rejects. -/
theorem Get_eq_none_iff (KEY_PREFIX : Bytes) (db : DB) (name : Bytes) :
    PersistentList.Get KEY_PREFIX db name = none ↔
      (DB.Get db (KEY_PREFIX ++ name ++ [47, 105, 100]) = none
        ∧ ∃ v, DB.Get db (KEY_PREFIX ++ [110, 101, 120, 116, 95, 105, 100]) = some v
            ∧ PersistentList.stoi v = none) := by
  unfold PersistentList.Get
  cases h1 : DB.Get db (KEY_PREFIX ++ name ++ [47, 105, 100]) with
  | some idValue => simp
  | none =>
    cases h2 : DB.Get db (KEY_PREFIX ++ [110, 101, 120, 116, 95, 105, 100]) with
    | none =>
      have : PersistentList.stoi [48] = some 0 := by decide
      simp [PersistentList.Get.register, this]
    | some v =>
      cases h3 : PersistentList.stoi v with
      | none => simp [PersistentList.Get.register, h3]
      | some n => simp [PersistentList.Get.register, h3]

/-- After a call of `Get` that returns, a second call returns the same object
and the same store. -/
theorem Get_twice (KEY_PREFIX : Bytes) (db : DB) (name : Bytes) (l : PersistentList)
    (db1 : DB) (h : PersistentList.Get KEY_PREFIX db name = some (l, db1)) :
    PersistentList.Get KEY_PREFIX db1 name = some (l, db1) := by
  unfold PersistentList.Get at h
  cases h1 : DB.Get db (KEY_PREFIX ++ name ++ [47, 105, 100]) with
  | some idValue =>
    rw [h1] at h
    simp only [Option.some.injEq, Prod.mk.injEq] at h
    obtain ⟨hl, hdb⟩ := h
    subst hdb
    rw [Get_found _ _ _ _ h1, hl]
  | none =>
    rw [h1] at h
    cases h2 : DB.Get db (KEY_PREFIX ++ [110, 101, 120, 116, 95, 105, 100]) with
    | none =>
      rw [h2] at h
      simp only [Option.map_eq_some', Prod.mk.injEq] at h
      obtain ⟨db5, hreg, hl, hdb⟩ := h
      subst hdb
      rw [Get_found _ _ _ _ (get_after_register _ _ _ _ _ hreg), hl]
    | some listId =>
      rw [h2] at h
      simp only [Option.map_eq_some', Prod.mk.injEq] at h
      obtain ⟨db5, hreg, hl, hdb⟩ := h
      subst hdb
      rw [Get_found _ _ _ _ (get_after_register _ _ _ _ _ hreg), hl]

/-- The object that `Get` returns is the object of the name and of some id. -/
theorem Get_object (KEY_PREFIX : Bytes) (db : DB) (name : Bytes) (l : PersistentList)
    (db1 : DB) (h : PersistentList.Get KEY_PREFIX db name = some (l, db1)) :
    l = PersistentList.Get.object KEY_PREFIX name l.mListId := by
  unfold PersistentList.Get at h
  cases h1 : DB.Get db (KEY_PREFIX ++ name ++ [47, 105, 100]) with
  | some idValue =>
    rw [h1] at h
    simp only [Option.some.injEq, Prod.mk.injEq] at h
    rw [← h.1]
    rfl
  | none =>
    rw [h1] at h
    cases h2 : DB.Get db (KEY_PREFIX ++ [110, 101, 120, 116, 95, 105, 100]) with
    | none =>
      rw [h2] at h
      simp only [Option.map_eq_some', Prod.mk.injEq] at h
      obtain ⟨_, _, hl, _⟩ := h
      rw [← hl]
      rfl
    | some listId =>
      rw [h2] at h
      simp only [Option.map_eq_some', Prod.mk.injEq] at h
      obtain ⟨_, _, hl, _⟩ := h
      rw [← hl]
      rfl

theorem PopValue_loop_spec (l : PersistentList) (v : Bytes) (ents : List Entry) :
    ∀ (A0 : DB) (x0 t : Entry) (B Acur : DB) (fuel : Nat) (deleted : Bool),
    DB.Sorted (A0 ++ x0 :: (ents ++ t :: B)) → DB.Sorted (Acur ++ (ents ++ t :: B)) →
    t.1 = l.mTailKey → ents.length < fuel →
    PersistentList.PopValue.loop l v fuel ⟨A0 ++ x0 :: (ents ++ t :: B), A0.length⟩
        (Acur ++ (ents ++ t :: B)) deleted
      = some (deleted || ents.any (fun e => decide (e.2 = v)),
          Acur ++ (ents.filter (fun e => decide (e.2 ≠ v)) ++ t :: B)) := by
  induction ents with
  | nil =>
    intro A0 x0 t B Acur fuel deleted _ _ ht hf
    obtain ⟨fuel, rfl⟩ : ∃ f, fuel = f + 1 := ⟨fuel - 1, by simp at hf; omega⟩
    simp only [List.nil_append, PersistentList.PopValue.loop, Iterator.Next_at,
      Option.some_bind, key_at_succ, ht, if_true, List.any_nil, Bool.or_false, List.filter_nil]
  | cons e es ih =>
    intro A0 x0 t B Acur fuel deleted h0 hcur ht hf
    obtain ⟨fuel, rfl⟩ : ∃ f, fuel = f + 1 := ⟨fuel - 1, by simp at hf; omega⟩
    have he : l.mTailKey ≠ e.1 := by
      rw [← ht]
      have h1 : DB.Sorted (e :: (es ++ t :: B)) := h0.right.tail
      exact fun hh => bytesLt_ne _ _ (h1.head_lt t (by simp)) hh.symm
    have e1 : A0 ++ x0 :: (e :: es ++ t :: B) = (A0 ++ [x0]) ++ e :: (es ++ t :: B) := by simp
    have h2 : DB.Sorted ((A0 ++ [x0]) ++ e :: (es ++ t :: B)) := by rw [← e1]; exact h0
    have e3 : (A0 ++ [x0]).length = A0.length + 1 := by simp
    have hcur' : DB.Sorted (Acur ++ e :: (es ++ t :: B)) := by simpa using hcur
    simp only [List.cons_append, PersistentList.PopValue.loop, Iterator.Next_at,
      Option.some_bind, key_at_succ, value_at_succ, if_neg he]
    rw [List.cons_append] at e1
    rw [e1]
    by_cases hv : v = e.2
    · have ih1 := ih (A0 ++ [x0]) e t B Acur fuel true h2 (sorted_remove _ _ _ hcur') ht
        (by simp at hf; omega)
      rw [e3] at ih1
      rw [if_pos hv, delete_split Acur e _ hcur', ih1]
      simp [hv]
    · have ecur : Acur ++ e :: (es ++ t :: B) = (Acur ++ [e]) ++ (es ++ t :: B) := by simp
      have ih1 := ih (A0 ++ [x0]) e t B (Acur ++ [e]) fuel deleted h2 (by rw [← ecur]; exact hcur')
        ht (by simp at hf; omega)
      rw [e3] at ih1
      rw [if_neg hv, ecur, ih1]
      have hv' : ¬ e.2 = v := fun hh => hv hh.symm
      simp [hv']

theorem Clear_loop_spec (l : PersistentList) (ents : List Entry) :
    ∀ (A0 : DB) (x0 t : Entry) (B Acur : DB) (fuel : Nat),
    DB.Sorted (A0 ++ x0 :: (ents ++ t :: B)) → DB.Sorted (Acur ++ (ents ++ t :: B)) →
    t.1 = l.mTailKey → ents.length < fuel →
    PersistentList.Clear.loop l fuel ⟨A0 ++ x0 :: (ents ++ t :: B), A0.length⟩
        (Acur ++ (ents ++ t :: B))
      = some (Acur ++ t :: B) := by
  induction ents with
  | nil =>
    intro A0 x0 t B Acur fuel _ _ ht hf
    obtain ⟨fuel, rfl⟩ : ∃ f, fuel = f + 1 := ⟨fuel - 1, by simp at hf; omega⟩
    simp only [List.nil_append, PersistentList.Clear.loop, Iterator.Next_at,
      Option.some_bind, key_at_succ, ht, if_true]
  | cons e es ih =>
    intro A0 x0 t B Acur fuel h0 hcur ht hf
    obtain ⟨fuel, rfl⟩ : ∃ f, fuel = f + 1 := ⟨fuel - 1, by simp at hf; omega⟩
    have he : l.mTailKey ≠ e.1 := by
      rw [← ht]
      have h1 : DB.Sorted (e :: (es ++ t :: B)) := h0.right.tail
      exact fun hh => bytesLt_ne _ _ (h1.head_lt t (by simp)) hh.symm
    have e1 : A0 ++ x0 :: (e :: es ++ t :: B) = (A0 ++ [x0]) ++ e :: (es ++ t :: B) := by simp
    have h2 : DB.Sorted ((A0 ++ [x0]) ++ e :: (es ++ t :: B)) := by rw [← e1]; exact h0
    have e3 : (A0 ++ [x0]).length = A0.length + 1 := by simp
    have hcur' : DB.Sorted (Acur ++ e :: (es ++ t :: B)) := by simpa using hcur
    simp only [List.cons_append, PersistentList.Clear.loop, Iterator.Next_at,
      Option.some_bind, key_at_succ, if_neg he]
    rw [List.cons_append] at e1
    rw [e1]
    have ih1 := ih (A0 ++ [x0]) e t B Acur fuel h2 (sorted_remove _ _ _ hcur') ht
      (by simp at hf; omega)
    rw [e3] at ih1
    rw [delete_split Acur e _ hcur', ih1]

/-- On a store that holds the list, `PopValue` returns, with the flag that
tells whether an entry has the value, and leaves the store with the entries of
another value. -/
theorem PopValue_of_holds (l : PersistentList) (v : Bytes) (pre post : DB) (hv tv : Bytes)
    (ents : List Entry)
    (hs : DB.Sorted (pre ++ (l.mHeadKey, hv) :: (ents ++ (l.mTailKey, tv) :: post))) :
    l.PopValue (pre ++ (l.mHeadKey, hv) :: (ents ++ (l.mTailKey, tv) :: post)) v
      = some (ents.any (fun e => decide (e.2 = v)),
          pre ++ (l.mHeadKey, hv) ::
            (ents.filter (fun e => decide (e.2 ≠ v)) ++ (l.mTailKey, tv) :: post)) := by
  unfold PersistentList.PopValue
  have hseek := seek_split pre (l.mHeadKey, hv) (ents ++ (l.mTailKey, tv) :: post) hs
  simp only at hseek
  rw [hseek]
  have ecur : pre ++ (l.mHeadKey, hv) :: (ents ++ (l.mTailKey, tv) :: post)
      = (pre ++ [(l.mHeadKey, hv)]) ++ (ents ++ (l.mTailKey, tv) :: post) := by simp
  have := PopValue_loop_spec l v ents pre (l.mHeadKey, hv) (l.mTailKey, tv) post
    (pre ++ [(l.mHeadKey, hv)])
    ((pre ++ (l.mHeadKey, hv) :: (ents ++ (l.mTailKey, tv) :: post)).length + 1) false hs
    (by rw [← ecur]; exact hs) rfl (by simp; omega)
  rw [← ecur] at this
  rw [this]
  simp

/-- On a store that holds the list, `Clear` returns and leaves the store
without the entries of the list. -/
theorem Clear_of_holds (l : PersistentList) (pre post : DB) (hv tv : Bytes)
    (ents : List Entry)
    (hs : DB.Sorted (pre ++ (l.mHeadKey, hv) :: (ents ++ (l.mTailKey, tv) :: post))) :
    l.Clear (pre ++ (l.mHeadKey, hv) :: (ents ++ (l.mTailKey, tv) :: post))
      = some (pre ++ (l.mHeadKey, hv) :: (l.mTailKey, tv) :: post) := by
  unfold PersistentList.Clear
  have hseek := seek_split pre (l.mHeadKey, hv) (ents ++ (l.mTailKey, tv) :: post) hs
  simp only at hseek
  rw [hseek]
  have ecur : pre ++ (l.mHeadKey, hv) :: (ents ++ (l.mTailKey, tv) :: post)
      = (pre ++ [(l.mHeadKey, hv)]) ++ (ents ++ (l.mTailKey, tv) :: post) := by simp
  have := Clear_loop_spec l ents pre (l.mHeadKey, hv) (l.mTailKey, tv) post
    (pre ++ [(l.mHeadKey, hv)])
    ((pre ++ (l.mHeadKey, hv) :: (ents ++ (l.mTailKey, tv) :: post)).length + 1) hs
    (by rw [← ecur]; exact hs) rfl (by simp; omega)
  rw [← ecur] at this
  rw [this]
  simp

/-! ## The shape of a store that holds the list -/

/-- In a store that holds the list, a filter that keeps what is outside the
sentinels keeps the store but for the entries of the list that it drops. -/
theorem filter_holds (l : PersistentList) (pre post : DB) (hv tv : Bytes) (ents : List Entry)
    (hs : DB.Sorted (pre ++ (l.mHeadKey, hv) :: (ents ++ (l.mTailKey, tv) :: post)))
    (q : Entry → Bool) :
    (pre ++ (l.mHeadKey, hv) :: (ents ++ (l.mTailKey, tv) :: post)).filter
        (fun e => !(bytesLt l.mHeadKey e.1 && bytesLt e.1 l.mTailKey && q e))
      = pre ++ (l.mHeadKey, hv) :: (ents.filter (fun e => !q e) ++ (l.mTailKey, tv) :: post) := by
  have hpre : ∀ e ∈ pre, bytesLt e.1 l.mHeadKey = true :=
    fun e he => hs.before e he (l.mHeadKey, hv) (List.mem_cons_self _ _)
  have hsr : DB.Sorted (ents ++ (l.mTailKey, tv) :: post) := hs.right.tail
  have hmid1 : ∀ e ∈ ents, bytesLt l.mHeadKey e.1 = true :=
    fun e he => hs.right.head_lt e (List.mem_append_left _ he)
  have hmid2 : ∀ e ∈ ents, bytesLt e.1 l.mTailKey = true :=
    fun e he => hsr.before e he (l.mTailKey, tv) (List.mem_cons_self _ _)
  have hpost : ∀ e ∈ post, bytesLt l.mTailKey e.1 = true :=
    fun e he => hsr.right.head_lt e he
  rw [List.filter_append, List.filter_cons, List.filter_append, List.filter_cons]
  have h1 : pre.filter (fun e => !(bytesLt l.mHeadKey e.1 && bytesLt e.1 l.mTailKey && q e))
      = pre := by
    rw [List.filter_eq_self]
    intro e he
    simp [bytesLt_asymm _ _ (hpre e he)]
  have h2 : post.filter (fun e => !(bytesLt l.mHeadKey e.1 && bytesLt e.1 l.mTailKey && q e))
      = post := by
    rw [List.filter_eq_self]
    intro e he
    simp [bytesLt_asymm _ _ (hpost e he)]
  have h3 : ents.filter (fun e => !(bytesLt l.mHeadKey e.1 && bytesLt e.1 l.mTailKey && q e))
      = ents.filter (fun e => !q e) := by
    apply List.filter_congr
    intro e he
    simp [hmid1 e he, hmid2 e he]
  rw [h1, h2, h3]
  simp [bytesLt_irrefl]

theorem entries_of_holds (l : PersistentList) (db : DB) (ents : List Entry)
    (h : l.Holds db ents) : l.entries db = ents := by
  obtain ⟨hs, pre, post, hv, tv, rfl⟩ := h
  have hpre : ∀ e ∈ pre, bytesLt e.1 l.mHeadKey = true :=
    fun e he => hs.before e he (l.mHeadKey, hv) (List.mem_cons_self _ _)
  have hsr : DB.Sorted (ents ++ (l.mTailKey, tv) :: post) := hs.right.tail
  have hmid1 : ∀ e ∈ ents, bytesLt l.mHeadKey e.1 = true :=
    fun e he => hs.right.head_lt e (List.mem_append_left _ he)
  have hmid2 : ∀ e ∈ ents, bytesLt e.1 l.mTailKey = true :=
    fun e he => hsr.before e he (l.mTailKey, tv) (List.mem_cons_self _ _)
  have hpost : ∀ e ∈ post, bytesLt l.mTailKey e.1 = true :=
    fun e he => hsr.right.head_lt e he
  unfold PersistentList.entries
  rw [List.filter_append, List.filter_cons, List.filter_append, List.filter_cons]
  rw [filter_eq_nil_of_all_false _ pre, filter_eq_nil_of_all_false _ post]
  · have hm : List.filter (fun e : Entry => bytesLt l.mHeadKey e.1 && bytesLt e.1 l.mTailKey)
        ents = ents := by
      rw [List.filter_eq_self]
      intro e he
      simp [hmid1 e he, hmid2 e he]
    rw [hm]
    simp [bytesLt_irrefl]
  · intro e he
    simp [bytesLt_asymm _ _ (hpost e he)]
  · intro e he
    simp [bytesLt_asymm _ _ (hpre e he)]

theorem sorted_filter (db : DB) (p : Entry → Bool) (h : DB.Sorted db) :
    DB.Sorted (db.filter p) :=
  List.Pairwise.filter p h

theorem forwardValues_of_holds (l : PersistentList) (db : DB) (ents : List Entry)
    (h : l.Holds db ents) :
    PersistentListIterator.forwardValues l db = some (ents.map Prod.snd) := by
  obtain ⟨c, hc, _⟩ := forwardTraversal_of_holds l db ents h
  unfold PersistentListIterator.forwardValues
  rw [hc]
  simp [List.map_map, Function.comp]

theorem wellFormed_lt (l : PersistentList) (hl : l.WellFormed) :
    bytesLt l.mHeadKey l.mTailKey = true := by
  rw [hl.1, hl.2, PersistentList.GetKey, PersistentList.GetKey, bytesLt_append_left]
  decide

theorem hasKey_of_holds (l : PersistentList) (db : DB) (ents : List Entry)
    (h : l.Holds db ents) : db.HasKey l.mHeadKey ∧ db.HasKey l.mTailKey := by
  obtain ⟨_, pre, post, hv, tv, rfl⟩ := h
  exact ⟨⟨hv, by simp⟩, ⟨tv, by simp⟩⟩

theorem length_filter_ne (ents : List Entry) (v : Bytes) :
    (ents.filter (fun e => decide (e.2 ≠ v))).length
      = ents.length - (ents.filter (fun e => decide (e.2 = v))).length := by
  induction ents with
  | nil => rfl
  | cons e es ih =>
    have hle := List.length_filter_le (fun e : Entry => decide (e.2 = v)) es
    by_cases h : e.2 = v
    · rw [List.filter_cons_of_neg (by simpa using h), List.filter_cons_of_pos (by simpa using h),
        ih]
      simp
    · rw [List.filter_cons_of_pos (by simpa using h), List.filter_cons_of_neg (by simpa using h),
        List.length_cons, List.length_cons, ih]
      omega

/-! ## What the list operations write -/

theorem PushBack_inv (l : PersistentList) (db : DB) (v : Bytes) (r : Bytes × DB)
    (h : l.PushBack db v = some r) :
    ∃ lastKey, (if l.mHeadKey = lastKey then some (l.GetKey INIT_KEY_SEQ)
        else l.NextKey lastKey) = some r.1 ∧ r.2 = DB.Put db r.1 v := by
  unfold PersistentList.PushBack at h
  simp only [Option.bind_eq_some] at h
  obtain ⟨it, _, k, _, nk, h3, h4⟩ := h
  simp only [Option.some.injEq] at h4
  subst h4
  exact ⟨k, h3, rfl⟩

theorem PushFront_inv (l : PersistentList) (db : DB) (v : Bytes) (r : Bytes × DB)
    (h : l.PushFront db v = some r) :
    ∃ firstKey, (if l.mTailKey = firstKey then some (l.GetKey INIT_KEY_SEQ)
        else l.PrevKey firstKey) = some r.1 ∧ r.2 = DB.Put db r.1 v := by
  unfold PersistentList.PushFront at h
  simp only [Option.bind_eq_some] at h
  obtain ⟨it, _, k, _, nk, h3, h4⟩ := h
  simp only [Option.some.injEq] at h4
  subst h4
  exact ⟨k, h3, rfl⟩

/-! ## The claims on the scans, the constructor and `PopKey` -/

/-- C11, as stated, fails for a list of `2 ^ 31` entries: after `PushBack` of
`2 ^ 31` values `a` on the new example list `Size()`, which counts in an `int`,
returns `-2147483648`; `PopValue(a)` returns true and removes the `2 ^ 31`
entries, and `Size()` then returns 0. -/
theorem C11_size_wraps :
    ∃ db db1, pushBackAll exampleList exampleStore (List.replicate (2 ^ 31) [97]) = some db
      ∧ ((exampleList.entries db).filter (fun e => decide (e.2 = [97]))).length = 2 ^ 31
      ∧ exampleList.Size db = some (-2147483648)
      ∧ exampleList.PopValue db [97] = some (true, db1)
      ∧ exampleList.entries db1 = []
      ∧ exampleList.Size db1 = some 0 := by
  obtain ⟨db, ents, hpush, hholds, hlen, hall⟩ := pushBack_many
  have hsize := Size_of_holds_wrap _ _ _ hholds
  rw [hlen, wrap32_two_pow] at hsize
  have hents := entries_of_holds _ _ _ hholds
  obtain ⟨hs, pre, post, hv, tv, hdb⟩ := hholds
  have hs' := hs
  rw [hdb] at hs'
  have hpop := PopValue_of_holds exampleList [97] pre post hv tv ents hs'
  rw [← hdb] at hpop
  have hf1 : ents.filter (fun e => decide (e.2 ≠ [97])) = [] := by
    rw [List.filter_eq_nil_iff]
    intro e he
    simp [hall e he]
  have hf2 : ents.filter (fun e => decide (e.2 = [97])) = ents := by
    rw [List.filter_eq_self]
    intro e he
    simp [hall e he]
  have hany : ents.any (fun e => decide (e.2 = [97])) = true := by
    cases ents with
    | nil => simp at hlen
    | cons e es => simp [hall e (List.mem_cons_self _ _)]
  rw [hf1, hany] at hpop
  have hholds1 : exampleList.Holds
      (pre ++ (exampleList.mHeadKey, hv) :: ([] ++ (exampleList.mTailKey, tv) :: post)) [] := by
    refine ⟨?_, pre, post, hv, tv, rfl⟩
    have := filter_holds exampleList pre post hv tv ents hs' (fun _ => true)
    simp only [Bool.and_true, Bool.not_true, List.filter_false] at this
    rw [← this]
    exact sorted_filter _ _ hs'
  refine ⟨db, _, hpush, ?_, hsize, hpop, entries_of_holds _ _ _ hholds1,
    Size_of_holds_nil _ _ hholds1⟩
  rw [hents, hf2, hlen]

/-- C11 (amended, scan-delete, `Size()` for fewer than `2 ^ 31` entries): in a
sorted store that has both sentinel keys of the list, the head below the tail,
`PopValue(v)` returns true exactly when an entry between the sentinels has the
value `v`; the new store is the old one without the entries between the
sentinels whose value is `v`, so that the entries of the list are the old ones
of another value, in the old order, and the forward traversal is the old one
without `v`; `Size()` returns the number of entries taken on 32 bits before
and after the call, and so, when the list has fewer than `2 ^ 31` entries, it
is less after the call by the number of entries of value `v`. -/
theorem C11_scan_delete (l : PersistentList) (db : DB) (v : Bytes) (hs : DB.Sorted db)
    (hh : db.HasKey l.mHeadKey) (ht : db.HasKey l.mTailKey)
    (hlt : bytesLt l.mHeadKey l.mTailKey = true) :
    ∃ db1, l.PopValue db v = some ((l.entries db).any (fun e => decide (e.2 = v)), db1)
      ∧ db1 = db.filter
          (fun e => !(bytesLt l.mHeadKey e.1 && bytesLt e.1 l.mTailKey && decide (e.2 = v)))
      ∧ l.entries db1 = (l.entries db).filter (fun e => decide (e.2 ≠ v))
      ∧ PersistentListIterator.forwardValues l db = some ((l.entries db).map Prod.snd)
      ∧ PersistentListIterator.forwardValues l db1
          = some (((l.entries db).map Prod.snd).filter (fun w => decide (w ≠ v)))
      ∧ l.Size db = some (PersistentList.wrap32 (l.entries db).length)
      ∧ l.Size db1 = some (PersistentList.wrap32 ((l.entries db).length
          - ((l.entries db).filter (fun e => decide (e.2 = v))).length : Nat))
      ∧ ((l.entries db).length < 2 ^ 31 →
          l.Size db = some ((l.entries db).length : Int)
            ∧ l.Size db1 = some (((l.entries db).length
                - ((l.entries db).filter (fun e => decide (e.2 = v))).length : Nat) : Int)) := by
  have hholds := holds_entries l db hs hh ht hlt
  obtain ⟨_, pre, post, hv, tv, hdb⟩ := hholds
  have hs' := hs
  rw [hdb] at hs'
  have hpop := PopValue_of_holds l v pre post hv tv (l.entries db) hs'
  rw [← hdb] at hpop
  have hfil := filter_holds l pre post hv tv (l.entries db) hs' (fun e => decide (e.2 = v))
  rw [← hdb] at hfil
  have hfe : (l.entries db).filter (fun e => !decide (e.2 = v))
      = (l.entries db).filter (fun e => decide (e.2 ≠ v)) := by
    apply List.filter_congr
    intro e _
    simp
  rw [hfe] at hfil
  have hholds1 : l.Holds (pre ++ (l.mHeadKey, hv) ::
      ((l.entries db).filter (fun e => decide (e.2 ≠ v)) ++ (l.mTailKey, tv) :: post))
      ((l.entries db).filter (fun e => decide (e.2 ≠ v))) := by
    refine ⟨?_, pre, post, hv, tv, rfl⟩
    rw [← hfil]
    exact sorted_filter _ _ hs
  have hholds0 := holds_entries l db hs hh ht hlt
  refine ⟨_, hpop, hfil.symm, entries_of_holds _ _ _ hholds1,
    forwardValues_of_holds l db _ hholds0, ?_, Size_of_holds_wrap l db _ hholds0, ?_, ?_⟩
  · rw [forwardValues_of_holds _ _ _ hholds1, List.filter_map]
    rfl
  · rw [Size_of_holds_wrap _ _ _ hholds1, length_filter_ne]
  · intro hn
    refine ⟨Size_of_holds l db _ hholds0 hn, ?_⟩
    rw [Size_of_holds _ _ _ hholds1 (by rw [length_filter_ne]; omega), length_filter_ne]

/-- The amended property C11 on the example list with the entries `a` and `b`,
for the value `a`. -/
theorem C11_scan_delete_witness :
    ∃ db1, exampleList.PopValue exampleStoreTwo [97] = some (true, db1)
      ∧ exampleList.entries db1
          = (exampleList.entries exampleStoreTwo).filter (fun e => decide (e.2 ≠ [97]))
      ∧ PersistentListIterator.forwardValues exampleList exampleStoreTwo = some [[97], [98]]
      ∧ PersistentListIterator.forwardValues exampleList db1 = some [[98]]
      ∧ exampleList.Size exampleStoreTwo = some 2
      ∧ exampleList.Size db1 = some 1 := by
  obtain ⟨db1, h1, _, h3, h4, h5, _, _, h8⟩ :=
    C11_scan_delete exampleList exampleStoreTwo [97] exampleStoreTwo_sorted
      ⟨[52, 50], by decide⟩ ⟨[52, 50], by decide⟩ (by decide)
  have hents : exampleList.entries exampleStoreTwo
      = [([112, 108, 47, 48, 47, 78, 78, 78, 78, 78, 78, 78, 78], [97]),
         ([112, 108, 47, 48, 47, 78, 78, 78, 78, 78, 78, 78, 79], [98])] := by decide
  rw [hents] at h1 h4 h5 h8
  exact ⟨db1, h1, by rw [hents]; exact h3, h4, h5, (h8 (by decide)).1, (h8 (by decide)).2⟩

/-- C12 (clear): in a sorted store that has both sentinel keys of the list,
`Clear()` returns; the new store is the old one without the entries strictly
between the sentinels, both sentinel keys are present, `Size()` is 0, and a
following `PushBack(v)`, and likewise a following `PushFront(v)`, stores `v`
under the key prefix followed by `NNNNNNNN`, after which `Front()` and `Back()`
return `(true, v)`. -/
theorem C12_clear (l : PersistentList) (db : DB) (v : Bytes) (hl : l.WellFormed)
    (hs : DB.Sorted db) (hh : db.HasKey l.mHeadKey) (ht : db.HasKey l.mTailKey) :
    ∃ db1, l.Clear db = some db1
      ∧ db1 = db.filter (fun e => !(bytesLt l.mHeadKey e.1 && bytesLt e.1 l.mTailKey))
      ∧ l.entries db1 = [] ∧ l.Size db1 = some 0
      ∧ db1.HasKey l.mHeadKey ∧ db1.HasKey l.mTailKey
      ∧ (∃ db2, l.PushBack db1 v = some (l.GetKey INIT_KEY_SEQ, db2)
          ∧ DB.Get db2 (l.GetKey INIT_KEY_SEQ) = some v
          ∧ l.Front db2 = some (true, v) ∧ l.Back db2 = some (true, v))
      ∧ (∃ db3, l.PushFront db1 v = some (l.GetKey INIT_KEY_SEQ, db3)
          ∧ DB.Get db3 (l.GetKey INIT_KEY_SEQ) = some v
          ∧ l.Front db3 = some (true, v) ∧ l.Back db3 = some (true, v)) := by
  have hlt := wellFormed_lt l hl
  obtain ⟨_, pre, post, hv, tv, hdb⟩ := holds_entries l db hs hh ht hlt
  have hs' := hs
  rw [hdb] at hs'
  have hclear := Clear_of_holds l pre post hv tv (l.entries db) hs'
  rw [← hdb] at hclear
  have hfil := filter_holds l pre post hv tv (l.entries db) hs' (fun _ => true)
  rw [← hdb] at hfil
  simp only [Bool.and_true, Bool.not_true, List.filter_false, List.nil_append] at hfil
  have hholds1 : l.Holds (pre ++ (l.mHeadKey, hv) :: (l.mTailKey, tv) :: post) [] := by
    refine ⟨?_, pre, post, hv, tv, rfl⟩
    rw [← hfil]
    exact sorted_filter _ _ hs
  obtain ⟨db2, hpb, hholds2⟩ := PushBack_nil l hl _ v hholds1
  obtain ⟨db3, hpf, hholds3⟩ := PushFront_nil l hl _ v hholds1
  have hput2 := (PushBack_inv l _ v _ hpb).choose_spec.2
  have hput3 := (PushFront_inv l _ v _ hpf).choose_spec.2
  simp only at hput2 hput3
  refine ⟨_, hclear, hfil.symm, entries_of_holds _ _ _ hholds1, Size_of_holds_nil _ _ hholds1,
    (hasKey_of_holds _ _ _ hholds1).1, (hasKey_of_holds _ _ _ hholds1).2,
    ⟨db2, hpb, ?_, Front_cons l db2 _ [] hholds2, Back_snoc l db2 _ [] hholds2⟩,
    ⟨db3, hpf, ?_, Front_cons l db3 _ [] hholds3, Back_snoc l db3 _ [] hholds3⟩⟩
  · rw [hput2, get_put_self]
  · rw [hput3, get_put_self]

/-- The property C12 on the example list with the entries `a` and `b`. -/
theorem C12_clear_witness :
    ∃ db1, exampleList.Clear exampleStoreTwo = some db1
      ∧ db1 = exampleStoreTwo.filter
          (fun e => !(bytesLt exampleList.mHeadKey e.1 && bytesLt e.1 exampleList.mTailKey))
      ∧ exampleList.entries db1 = [] ∧ exampleList.Size db1 = some 0
      ∧ db1.HasKey exampleList.mHeadKey ∧ db1.HasKey exampleList.mTailKey
      ∧ (∃ db2, exampleList.PushBack db1 [99] = some (exampleList.GetKey INIT_KEY_SEQ, db2)
          ∧ DB.Get db2 (exampleList.GetKey INIT_KEY_SEQ) = some [99]
          ∧ exampleList.Front db2 = some (true, [99]) ∧ exampleList.Back db2 = some (true, [99]))
      ∧ (∃ db3, exampleList.PushFront db1 [99] = some (exampleList.GetKey INIT_KEY_SEQ, db3)
          ∧ DB.Get db3 (exampleList.GetKey INIT_KEY_SEQ) = some [99]
          ∧ exampleList.Front db3 = some (true, [99])
          ∧ exampleList.Back db3 = some (true, [99])) :=
  C12_clear exampleList exampleStoreTwo [99] exampleList_wellFormed exampleStoreTwo_sorted
    ⟨[52, 50], by decide⟩ ⟨[52, 50], by decide⟩

/-- C13 (idempotent open): for every store and list name, the first call of
`Get` returns unless the record of the name is absent and the counter holds a
string that `stoi` rejects; after a first call that returns, a second call
returns an object with the same id, sentinel keys and name, and leaves the
store as the first call left it. -/
theorem C13_idempotent_open (KEY_PREFIX : Bytes) (db : DB) (name : Bytes) :
    (PersistentList.Get KEY_PREFIX db name = none ↔
      (DB.Get db (KEY_PREFIX ++ name ++ [47, 105, 100]) = none
        ∧ ∃ v, DB.Get db (KEY_PREFIX ++ [110, 101, 120, 116, 95, 105, 100]) = some v
            ∧ PersistentList.stoi v = none))
    ∧ ∀ (l : PersistentList) (db1 : DB),
        PersistentList.Get KEY_PREFIX db name = some (l, db1) →
        ∃ l2, PersistentList.Get KEY_PREFIX db1 name = some (l2, db1)
          ∧ l2.Id = l.Id ∧ l2.mHeadKey = l.mHeadKey ∧ l2.mTailKey = l.mTailKey
          ∧ l2.Name = l.Name ∧ l.Name = name := by
  refine ⟨Get_eq_none_iff KEY_PREFIX db name, ?_⟩
  intro l db1 h
  refine ⟨l, Get_twice KEY_PREFIX db name l db1 h, rfl, rfl, rfl, rfl, ?_⟩
  rw [Get_object KEY_PREFIX db name l db1 h]
  rfl

/-- The property C13 for the name `mylist` on the empty store, with `pl/` as
the constant key prefix. -/
theorem C13_idempotent_open_witness :
    ∃ l2, PersistentList.Get [112, 108, 47] exampleStore [109, 121, 108, 105, 115, 116]
        = some (l2, exampleStore)
      ∧ l2.Id = exampleList.Id ∧ l2.mHeadKey = exampleList.mHeadKey
      ∧ l2.mTailKey = exampleList.mTailKey ∧ l2.Name = exampleList.Name
      ∧ exampleList.Name = [109, 121, 108, 105, 115, 116] :=
  (C13_idempotent_open [112, 108, 47] [] [109, 121, 108, 105, 115, 116]).2
    exampleList exampleStore (by decide!)

/-- C14 (the record of a name can lie inside the range of another list): with
`pl/` as the constant key prefix, the list `mylist` is created in the empty
store with the id `0`; opening the list named `0` gives it the id `1` and
writes its record under `pl/0/id`, strictly between the sentinels `pl/0/!` and
`pl/0/~` of the first list, whose `Size()` goes from 0 to 1 and whose forward
traversal goes from empty to the value `1`. -/
theorem C14_name_record_in_range :
    PersistentList.Get [112, 108, 47] [] [109, 121, 108, 105, 115, 116]
      = some (exampleList, exampleStore)
    ∧ (PersistentList.Get [112, 108, 47] exampleStore [48]).map (fun r => (r.1.Id, r.2))
      = some ([49], exampleStoreZero)
    ∧ DB.Get exampleStore [112, 108, 47, 48, 47, 105, 100] = none
    ∧ DB.Get exampleStoreZero [112, 108, 47, 48, 47, 105, 100] = some [49]
    ∧ bytesLt exampleList.mHeadKey [112, 108, 47, 48, 47, 105, 100] = true
    ∧ bytesLt [112, 108, 47, 48, 47, 105, 100] exampleList.mTailKey = true
    ∧ exampleList.Size exampleStore = some 0
    ∧ exampleList.Size exampleStoreZero = some 1
    ∧ PersistentListIterator.forwardValues exampleList exampleStore = some []
    ∧ PersistentListIterator.forwardValues exampleList exampleStoreZero = some [[49]] := by
  decide!

/-- C17 (`PopKey` passes the key through): for every store and key, `PopKey`
returns true; afterwards the key is absent, every other key reads as before,
and the store is the old one without the entries of that key. -/
theorem C17_popKey (l : PersistentList) (db : DB) (key : Bytes) :
    (l.PopKey db key).1 = true
      ∧ DB.Get (l.PopKey db key).2 key = none
      ∧ ¬ (l.PopKey db key).2.HasKey key
      ∧ (∀ k, k ≠ key → DB.Get (l.PopKey db key).2 k = DB.Get db k)
      ∧ (l.PopKey db key).2 = db.filter (fun e => decide (e.1 ≠ key)) := by
  refine ⟨rfl, get_delete_self db key, ?_, fun k hk => get_delete_other db key k hk, rfl⟩
  rintro ⟨v, hv⟩
  have := (List.mem_filter.mp hv).2
  simp at this

/-! ## Reachable cursors -/

theorem sorted_index_lt (db : DB) (hs : DB.Sorted db) (i j : Nat) (a b : Entry)
    (hij : i < j) (ha : db.get? i = some a) (hb : db.get? j = some b) :
    bytesLt a.1 b.1 = true := by
  rw [List.get?_eq_getElem?] at ha hb
  obtain ⟨hi, rfl⟩ := List.getElem?_eq_some.mp ha
  obtain ⟨hj, rfl⟩ := List.getElem?_eq_some.mp hb
  exact (List.pairwise_iff_getElem.mp hs) i j hi hj hij

theorem get?_some_of_lt (db : DB) (i : Nat) (h : i < db.length) :
    ∃ e, db.get? i = some e := by
  rw [List.get?_eq_getElem?]
  exact ⟨db[i], List.getElem?_eq_getElem h⟩

theorem lt_length_of_get? (db : DB) (i : Nat) (e : Entry) (h : db.get? i = some e) :
    i < db.length := by
  rw [List.get?_eq_getElem?] at h
  exact (List.getElem?_eq_some.mp h).1

/-- The call `Next()` of a cursor at or before the tail sentinel of a sorted
store: at the tail it stays, before the tail it moves one entry forward and is
valid when the new place is before the tail. -/
theorem Cursor_Next_pos (l : PersistentList) (db : DB) (hs : DB.Sorted db) (t : Nat)
    (tv : Bytes) (ht : db.get? t = some (l.mTailKey, tv)) (b : Bool) (pos : Nat)
    (hpos : pos ≤ t) :
    PersistentListIterator.Next ⟨l, b, ⟨db, pos⟩⟩
      = some (if pos = t then (false, ⟨l, false, ⟨db, pos⟩⟩)
          else (decide (pos + 1 < t), ⟨l, decide (pos + 1 < t), ⟨db, pos + 1⟩⟩)) := by
  have htl := lt_length_of_get? db t _ ht
  have hv : Iterator.Valid ⟨db, pos⟩ = true := by simp [Iterator.Valid]; omega
  by_cases hp : pos = t
  · subst hp
    simp only [PersistentListIterator.Next, hv, if_true, Iterator.key, ht, Option.map_some',
      Option.some_bind, ne_eq, not_true_eq_false, if_false]
  · obtain ⟨e, he⟩ := get?_some_of_lt db pos (by omega)
    have hlt := sorted_index_lt db hs pos t e _ (by omega) he ht
    have hne : l.mTailKey ≠ e.1 := fun hh => bytesLt_ne _ _ hlt hh.symm
    have hv1 : Iterator.Next ⟨db, pos⟩ = some ⟨db, pos + 1⟩ := by
      simp [Iterator.Next, Iterator.Valid]; omega
    obtain ⟨e1, he1⟩ := get?_some_of_lt db (pos + 1) (by omega)
    have hd : decide (l.mTailKey ≠ e1.1) = decide (pos + 1 < t) := by
      by_cases hp1 : pos + 1 = t
      · rw [hp1, ht] at he1
        simp only [Option.some.injEq] at he1
        rw [← he1, hp1]
        simp
      · have hlt1 := sorted_index_lt db hs (pos + 1) t e1 _ (by omega) he1 ht
        have hne1 : l.mTailKey ≠ e1.1 := fun hh => bytesLt_ne _ _ hlt1 hh.symm
        have : pos + 1 < t := by omega
        simp [hne1, this]
    simp only [PersistentListIterator.Next, hv, if_true, Iterator.key, he, Option.map_some',
      Option.some_bind, if_pos hne, hv1, he1, hd, if_neg hp]

/-- The call `Prev()` of a cursor at or after the head sentinel of a sorted
store: at the head it stays, after the head it moves one entry back and is
valid when the new place is after the head. -/
theorem Cursor_Prev_pos (l : PersistentList) (db : DB) (hs : DB.Sorted db) (h : Nat)
    (hv : Bytes) (hh : db.get? h = some (l.mHeadKey, hv)) (b : Bool) (pos : Nat)
    (hpos : h ≤ pos) (hlen : pos < db.length) :
    PersistentListIterator.Prev ⟨l, b, ⟨db, pos⟩⟩
      = some (if pos = h then (false, ⟨l, false, ⟨db, pos⟩⟩)
          else (decide (h < pos - 1), ⟨l, decide (h < pos - 1), ⟨db, pos - 1⟩⟩)) := by
  have hval : Iterator.Valid ⟨db, pos⟩ = true := by simp [Iterator.Valid]; omega
  by_cases hp : pos = h
  · subst hp
    simp only [PersistentListIterator.Prev, hval, if_true, Iterator.key, hh, Option.map_some',
      Option.some_bind, ne_eq, not_true_eq_false, if_false]
  · obtain ⟨e, he⟩ := get?_some_of_lt db pos hlen
    have hlt := sorted_index_lt db hs h pos _ e (by omega) hh he
    have hne : l.mHeadKey ≠ e.1 := fun hh2 => bytesLt_ne _ _ hlt hh2
    have hp0 : ¬ pos = 0 := by omega
    have hv1 : Iterator.Prev ⟨db, pos⟩ = some ⟨db, pos - 1⟩ := by
      simp [Iterator.Prev, Iterator.Valid, hp0]; omega
    obtain ⟨e1, he1⟩ := get?_some_of_lt db (pos - 1) (by omega)
    have hd : decide (l.mHeadKey ≠ e1.1) = decide (h < pos - 1) := by
      by_cases hp1 : pos - 1 = h
      · rw [hp1, hh] at he1
        simp only [Option.some.injEq] at he1
        rw [← he1, hp1]
        simp
      · have hlt1 := sorted_index_lt db hs h (pos - 1) _ e1 (by omega) hh he1
        have hne1 : l.mHeadKey ≠ e1.1 := fun hh2 => bytesLt_ne _ _ hlt1 hh2
        have : h < pos - 1 := by omega
        simp [hne1, this]
    simp only [PersistentListIterator.Prev, hval, if_true, Iterator.key, he, Option.map_some',
      Option.some_bind, if_pos hne, hv1, he1, hd, if_neg hp]

/-- The place of a reachable cursor over a sorted store with both sentinels,
the head at the index `h` and the tail at the index `t`: the cursor reads the
store at an index from `h` to `t`, strictly between them when it is valid. -/
theorem cursor_place (l : PersistentList) (db : DB) (hs : DB.Sorted db) (h t : Nat)
    (hv tv : Bytes) (hh : db.get? h = some (l.mHeadKey, hv))
    (ht : db.get? t = some (l.mTailKey, tv)) (hht : h < t)
    (c : PersistentListIterator) (hr : CursorReach l db c) :
    ∃ b pos, c = ⟨l, b, ⟨db, pos⟩⟩ ∧ h ≤ pos ∧ pos ≤ t ∧ (b = true → h < pos ∧ pos < t) := by
  have hseekH : (DB.NewIterator db).Seek l.mHeadKey = ⟨db, h⟩ := by
    obtain ⟨A, B, rfl, hA⟩ : ∃ A B, db = A ++ (l.mHeadKey, hv) :: B ∧ A.length = h := by
      have hl := lt_length_of_get? db h _ hh
      refine ⟨db.take h, db.drop (h + 1), ?_, by simp; omega⟩
      rw [List.get?_eq_getElem?] at hh
      have := List.getElem?_eq_some.mp hh
      rw [← this.2]
      simp
    rw [← hA]
    exact seek_split A (l.mHeadKey, hv) B hs
  have hseekT : (DB.NewIterator db).Seek l.mTailKey = ⟨db, t⟩ := by
    obtain ⟨A, B, rfl, hA⟩ : ∃ A B, db = A ++ (l.mTailKey, tv) :: B ∧ A.length = t := by
      have hl := lt_length_of_get? db t _ ht
      refine ⟨db.take t, db.drop (t + 1), ?_, by simp; omega⟩
      rw [List.get?_eq_getElem?] at ht
      have := List.getElem?_eq_some.mp ht
      rw [← this.2]
      simp
    rw [← hA]
    exact seek_split A (l.mTailKey, tv) B hs
  have htl := lt_length_of_get? db t _ ht
  induction hr with
  | seekFrontNew =>
    refine ⟨false, h, ?_, le_refl _, by omega, by simp⟩
    unfold PersistentListIterator.SeekFront PersistentListIterator.new
    simp only
    rw [hseekH]
  | seekBackNew =>
    refine ⟨false, t, ?_, by omega, le_refl _, by simp⟩
    unfold PersistentListIterator.SeekBack PersistentListIterator.new
    simp only
    rw [hseekT]
  | seekFront c _ ih =>
    obtain ⟨b, pos, rfl, _, _, _⟩ := ih
    refine ⟨false, h, ?_, le_refl _, by omega, by simp⟩
    have := hseekH
    unfold Iterator.Seek DB.NewIterator at this
    unfold PersistentListIterator.SeekFront Iterator.Seek
    simp only at this ⊢
    rw [this]
  | seekBack c _ ih =>
    obtain ⟨b, pos, rfl, _, _, _⟩ := ih
    refine ⟨false, t, ?_, by omega, le_refl _, by simp⟩
    have := hseekT
    unfold Iterator.Seek DB.NewIterator at this
    unfold PersistentListIterator.SeekBack Iterator.Seek
    simp only at this ⊢
    rw [this]
  | next c r _ hnext ih =>
    obtain ⟨b, pos, rfl, h1, h2, h3⟩ := ih
    rw [Cursor_Next_pos l db hs t tv ht b pos h2] at hnext
    simp only [Option.some.injEq] at hnext
    rw [← hnext]
    by_cases hp : pos = t
    · rw [if_pos hp]
      exact ⟨false, pos, rfl, h1, h2, by simp⟩
    · rw [if_neg hp]
      refine ⟨decide (pos + 1 < t), pos + 1, rfl, by omega, by omega, ?_⟩
      intro hb
      have := of_decide_eq_true hb
      omega
  | prev c r _ hprev ih =>
    obtain ⟨b, pos, rfl, h1, h2, h3⟩ := ih
    rw [Cursor_Prev_pos l db hs h hv hh b pos h1 (by omega)] at hprev
    simp only [Option.some.injEq] at hprev
    rw [← hprev]
    by_cases hp : pos = h
    · rw [if_pos hp]
      exact ⟨false, pos, rfl, h1, h2, by simp⟩
    · rw [if_neg hp]
      refine ⟨decide (h < pos - 1), pos - 1, rfl, by omega, by omega, ?_⟩
      intro hb
      have := of_decide_eq_true hb
      omega

/-- The indices of the two sentinels in a store that holds the list. -/
theorem sentinel_indices (l : PersistentList) (db : DB) (hs : DB.Sorted db)
    (hh : db.HasKey l.mHeadKey) (ht : db.HasKey l.mTailKey)
    (hlt : bytesLt l.mHeadKey l.mTailKey = true) :
    ∃ h t hv tv, db.get? h = some (l.mHeadKey, hv) ∧ db.get? t = some (l.mTailKey, tv)
      ∧ h < t := by
  obtain ⟨_, pre, post, hv, tv, hdb⟩ := holds_entries l db hs hh ht hlt
  refine ⟨pre.length, (pre ++ (l.mHeadKey, hv) :: l.entries db).length, hv, tv, ?_, ?_, ?_⟩
  · rw [hdb]
    exact get?_split _ _ _
  · have e : db = (pre ++ (l.mHeadKey, hv) :: l.entries db) ++ (l.mTailKey, tv) :: post := by
      rw [List.append_assoc, List.cons_append]
      exact hdb
    generalize (pre ++ (l.mHeadKey, hv) :: l.entries db) = A at e
    rw [e]
    exact get?_split _ _ _
  · simp

/-- In a sorted store an entry has the key at the index `t` only at `t`. -/
theorem index_eq_iff_key (db : DB) (hs : DB.Sorted db) (t i : Nat) (a e : Entry)
    (ht : db.get? t = some a) (hi : db.get? i = some e) : e.1 = a.1 ↔ i = t := by
  constructor
  · intro hk
    rcases Nat.lt_trichotomy i t with hlt | heq | hgt
    · exact absurd hk (bytesLt_ne _ _ (sorted_index_lt db hs i t e a hlt hi ht))
    · exact heq
    · exact absurd hk.symm (bytesLt_ne _ _ (sorted_index_lt db hs t i a e hgt ht hi))
  · intro hk
    subst hk
    rw [ht] at hi
    simp only [Option.some.injEq] at hi
    rw [hi]

/-- C20 (cursor state machine): over a sorted store that has both sentinel
keys of the list, the head below the tail, every cursor reached from the
constructor by `SeekFront`, `SeekBack`, `Next` and `Prev` is at a key `k` that
is the head sentinel, the tail sentinel, or strictly between them; when
`Valid()` is true the key is strictly between the sentinels and is an entry of
the list, which `Key()` and `Value()` read; `Next()` returns the new value of
`Valid()`, at the tail sentinel it leaves the position and returns false, and
elsewhere it moves to the next entry of the store and returns true exactly when
the new key is not the tail sentinel; `Prev()` does the same toward the head
sentinel. -/
theorem C20_cursor_state_machine (l : PersistentList) (db : DB)
    (c : PersistentListIterator) (hs : DB.Sorted db)
    (hh : db.HasKey l.mHeadKey) (ht : db.HasKey l.mTailKey)
    (hlt : bytesLt l.mHeadKey l.mTailKey = true) (hr : CursorReach l db c) :
    ∃ k, c.mIter.key = some k
      ∧ (k = l.mHeadKey ∨ k = l.mTailKey
          ∨ (bytesLt l.mHeadKey k = true ∧ bytesLt k l.mTailKey = true))
      ∧ (c.Valid = true →
          bytesLt l.mHeadKey k = true ∧ bytesLt k l.mTailKey = true
            ∧ ∃ e ∈ l.entries db, e.1 = k ∧ c.Key = some e.1 ∧ c.Value = some e.2)
      ∧ (∃ r, c.Next = some r ∧ r.1 = r.2.Valid
          ∧ (k = l.mTailKey → r.2.mIter = c.mIter ∧ r.1 = false)
          ∧ (k ≠ l.mTailKey →
              r.2.mIter = ⟨c.mIter.snap, c.mIter.pos + 1⟩
                ∧ (r.1 = true ↔ r.2.mIter.key ≠ some l.mTailKey)))
      ∧ (∃ r, c.Prev = some r ∧ r.1 = r.2.Valid
          ∧ (k = l.mHeadKey → r.2.mIter = c.mIter ∧ r.1 = false)
          ∧ (k ≠ l.mHeadKey →
              r.2.mIter.snap = c.mIter.snap ∧ r.2.mIter.pos + 1 = c.mIter.pos
                ∧ (r.1 = true ↔ r.2.mIter.key ≠ some l.mHeadKey))) := by
  obtain ⟨h, t, hv, tv, hh, ht, hht⟩ := sentinel_indices l db hs hh ht hlt
  obtain ⟨b, pos, rfl, h1, h2, h3⟩ := cursor_place l db hs h t hv tv hh ht hht c hr
  have htl := lt_length_of_get? db t _ ht
  obtain ⟨e, he⟩ := get?_some_of_lt db pos (by omega)
  have hkt : e.1 = l.mTailKey ↔ pos = t := index_eq_iff_key db hs t pos _ e ht he
  have hkh : e.1 = l.mHeadKey ↔ pos = h := index_eq_iff_key db hs h pos _ e hh he
  have hbelow : pos < t → bytesLt e.1 l.mTailKey = true :=
    fun hp => sorted_index_lt db hs pos t e _ hp he ht
  have habove : h < pos → bytesLt l.mHeadKey e.1 = true :=
    fun hp => sorted_index_lt db hs h pos _ e hp hh he
  refine ⟨e.1, by rw [Iterator.key, he]; rfl, ?_, ?_, ?_, ?_⟩
  · by_cases hp : pos = h
    · exact Or.inl (hkh.mpr hp)
    · by_cases hq : pos = t
      · exact Or.inr (Or.inl (hkt.mpr hq))
      · exact Or.inr (Or.inr ⟨habove (by omega), hbelow (by omega)⟩)
  · intro hval
    have hb : b = true := hval
    obtain ⟨hp1, hp2⟩ := h3 hb
    refine ⟨habove hp1, hbelow hp2, e, ?_, rfl, ?_, ?_⟩
    · unfold PersistentList.entries
      rw [List.mem_filter]
      refine ⟨?_, by simp [habove hp1, hbelow hp2]⟩
      rw [List.get?_eq_getElem?] at he
      exact List.getElem?_mem he
    · rw [PersistentListIterator.Key, if_pos hb, Iterator.key, he]
      rfl
    · rw [PersistentListIterator.Value, if_pos hb, Iterator.value, he]
      rfl
  · rw [Cursor_Next_pos l db hs t tv ht b pos h2]
    by_cases hp : pos = t
    · rw [if_pos hp]
      refine ⟨_, rfl, rfl, fun _ => ⟨rfl, rfl⟩, fun hne => absurd (hkt.mpr hp) hne⟩
    · rw [if_neg hp]
      refine ⟨_, rfl, rfl, fun hk => absurd (hkt.mp hk) hp, fun _ => ⟨rfl, ?_⟩⟩
      obtain ⟨e1, he1⟩ := get?_some_of_lt db (pos + 1) (by omega)
      have hk1 : e1.1 = l.mTailKey ↔ pos + 1 = t := index_eq_iff_key db hs t (pos + 1) _ e1 ht he1
      simp only [Iterator.key, he1, Option.map_some', ne_eq, Option.some.injEq, decide_eq_true_eq]
      rw [hk1]
      omega
  · rw [Cursor_Prev_pos l db hs h hv hh b pos h1 (by omega)]
    by_cases hp : pos = h
    · rw [if_pos hp]
      refine ⟨_, rfl, rfl, fun _ => ⟨rfl, rfl⟩, fun hne => absurd (hkh.mpr hp) hne⟩
    · rw [if_neg hp]
      refine ⟨_, rfl, rfl, fun hk => absurd (hkh.mp hk) hp, fun _ => ⟨rfl, ?_, ?_⟩⟩
      · show pos - 1 + 1 = pos
        omega
      · obtain ⟨e1, he1⟩ := get?_some_of_lt db (pos - 1) (by omega)
        have hk1 : e1.1 = l.mHeadKey ↔ pos - 1 = h :=
          index_eq_iff_key db hs h (pos - 1) _ e1 hh he1
        simp only [Iterator.key, he1, Option.map_some', ne_eq, Option.some.injEq,
          decide_eq_true_eq]
        rw [hk1]
        omega

/-- The property C20 on the example list with two entries, for the cursor
after `SeekFront()`, `Next()`, `Next()`, `Prev()`. -/
theorem C20_cursor_state_machine_witness :
    ∃ k, (⟨exampleList, true, ⟨exampleStoreTwo, 1⟩⟩ : PersistentListIterator).mIter.key = some k
      ∧ (k = exampleList.mHeadKey ∨ k = exampleList.mTailKey
          ∨ (bytesLt exampleList.mHeadKey k = true ∧ bytesLt k exampleList.mTailKey = true))
      ∧ ((⟨exampleList, true, ⟨exampleStoreTwo, 1⟩⟩ : PersistentListIterator).Valid = true →
          bytesLt exampleList.mHeadKey k = true ∧ bytesLt k exampleList.mTailKey = true
            ∧ ∃ e ∈ exampleList.entries exampleStoreTwo, e.1 = k
              ∧ (⟨exampleList, true, ⟨exampleStoreTwo, 1⟩⟩ : PersistentListIterator).Key
                  = some e.1
              ∧ (⟨exampleList, true, ⟨exampleStoreTwo, 1⟩⟩ : PersistentListIterator).Value
                  = some e.2)
      ∧ (∃ r, (⟨exampleList, true, ⟨exampleStoreTwo, 1⟩⟩ : PersistentListIterator).Next = some r
          ∧ r.1 = r.2.Valid
          ∧ (k = exampleList.mTailKey →
              r.2.mIter = (⟨exampleList, true, ⟨exampleStoreTwo, 1⟩⟩ : PersistentListIterator).mIter
                ∧ r.1 = false)
          ∧ (k ≠ exampleList.mTailKey →
              r.2.mIter = ⟨(⟨exampleList, true, ⟨exampleStoreTwo, 1⟩⟩ : PersistentListIterator).mIter.snap,
                  (⟨exampleList, true, ⟨exampleStoreTwo, 1⟩⟩ : PersistentListIterator).mIter.pos + 1⟩
                ∧ (r.1 = true ↔ r.2.mIter.key ≠ some exampleList.mTailKey)))
      ∧ (∃ r, (⟨exampleList, true, ⟨exampleStoreTwo, 1⟩⟩ : PersistentListIterator).Prev = some r
          ∧ r.1 = r.2.Valid
          ∧ (k = exampleList.mHeadKey →
              r.2.mIter = (⟨exampleList, true, ⟨exampleStoreTwo, 1⟩⟩ : PersistentListIterator).mIter
                ∧ r.1 = false)
          ∧ (k ≠ exampleList.mHeadKey →
              r.2.mIter.snap
                  = (⟨exampleList, true, ⟨exampleStoreTwo, 1⟩⟩ : PersistentListIterator).mIter.snap
                ∧ r.2.mIter.pos + 1
                  = (⟨exampleList, true, ⟨exampleStoreTwo, 1⟩⟩ : PersistentListIterator).mIter.pos
                ∧ (r.1 = true ↔ r.2.mIter.key ≠ some exampleList.mHeadKey))) :=
  C20_cursor_state_machine exampleList exampleStoreTwo ⟨exampleList, true, ⟨exampleStoreTwo, 1⟩⟩
    exampleStoreTwo_sorted ⟨[52, 50], by decide⟩ ⟨[52, 50], by decide⟩ (by decide)
    (CursorReach.prev ⟨exampleList, true, ⟨exampleStoreTwo, 2⟩⟩
      (true, ⟨exampleList, true, ⟨exampleStoreTwo, 1⟩⟩)
      (CursorReach.next ⟨exampleList, true, ⟨exampleStoreTwo, 1⟩⟩
        (true, ⟨exampleList, true, ⟨exampleStoreTwo, 2⟩⟩)
        (CursorReach.next (PersistentListIterator.new exampleList exampleStoreTwo).SeekFront
          (true, ⟨exampleList, true, ⟨exampleStoreTwo, 1⟩⟩) CursorReach.seekFrontNew (by decide))
        (by decide))
      (by decide))

/-! ## The sentinels under the list operations -/

theorem seek_index (db : DB) (hs : DB.Sorted db) (i : Nat) (e : Entry)
    (h : db.get? i = some e) : (DB.NewIterator db).Seek e.1 = ⟨db, i⟩ := by
  obtain ⟨A, B, rfl, hA⟩ : ∃ A B, db = A ++ e :: B ∧ A.length = i := by
    have hl := lt_length_of_get? db i _ h
    refine ⟨db.take i, db.drop (i + 1), ?_, by simp; omega⟩
    rw [List.get?_eq_getElem?] at h
    have := List.getElem?_eq_some.mp h
    rw [← this.2]
    simp
  rw [← hA]
  exact seek_split A e B hs

theorem mem_put (db : DB) (k v : Bytes) (x : Entry) (h : x ∈ DB.Put db k v) :
    x = (k, v) ∨ x ∈ db := by
  induction db with
  | nil =>
    simp only [DB.Put, List.mem_singleton] at h
    exact Or.inl h
  | cons e rest ih =>
    simp only [DB.Put] at h
    split at h
    · rcases List.mem_cons.mp h with h | h
      · exact Or.inl h
      · exact Or.inr h
    · split at h
      · rcases List.mem_cons.mp h with h | h
        · exact Or.inl h
        · exact Or.inr (List.mem_cons_of_mem _ h)
      · rcases List.mem_cons.mp h with h | h
        · exact Or.inr (h ▸ List.mem_cons_self _ _)
        · rcases ih h with h | h
          · exact Or.inl h
          · exact Or.inr (List.mem_cons_of_mem _ h)

theorem validDigits_set (ds : List Int) (i : Nat) (d : Int) (h : ValidDigits ds)
    (hd : 0 ≤ d ∧ d < 92) : ValidDigits (ds.set i d) := by
  intro x hx
  rcases List.mem_or_eq_of_mem_set hx with hx | hx
  · exact h x hx
  · rw [hx]
    exact hd

/-- The digits that the offset loop of `MidKey` writes are valid for every
offset, also a negative one and one beyond the vector. -/
theorem offsetLoop_valid : ∀ (m : Nat) (offset : Int) (od : List Int), ValidDigits od →
    ValidDigits (PersistentList.MidKey.offsetLoop m offset od)
      ∧ (PersistentList.MidKey.offsetLoop m offset od).length = od.length := by
  intro m
  induction m with
  | zero => intro offset od h; exact ⟨h, rfl⟩
  | succ i ih =>
    intro offset od h
    unfold PersistentList.MidKey.offsetLoop
    split
    · rename_i hpos
      have hmod : 0 ≤ Int.tmod offset (KEY_BASE : Int) ∧ Int.tmod offset (KEY_BASE : Int) < 92 := by
        simp only [KEY_BASE, Nat.cast_ofNat]
        rw [Int.tmod_eq_emod (le_of_lt hpos) (by norm_num)]
        omega
      obtain ⟨h1, h2⟩ := ih (Int.tdiv offset (KEY_BASE : Int)) _ (validDigits_set od i _ h hmod)
      exact ⟨h1, by rw [h2, List.length_set]⟩
    · exact ⟨h, rfl⟩

/-- The key that `MidKey` returns when the first key has valid digits: it
returns, and the result is the key prefix followed by valid digits, the
first sequence and `MIDDLE_SYM` or as many digits as the longer sequence has. -/
theorem MidKey_shape (l : PersistentList) (a b : Bytes) (ha : ValidSeq a) :
    ∃ m, l.MidKey (l.mKeyPrefix ++ a) (l.mKeyPrefix ++ b) = some (l.mKeyPrefix ++ m)
      ∧ ValidSeq m ∧ (m = a ++ [MIDDLE_SYM] ∨ m.length = max a.length b.length) := by
  unfold PersistentList.MidKey
  rw [if_neg (by simp)]
  simp only [List.drop_left]
  split
  · exact ⟨a ++ [MIDDLE_SYM], by rw [List.append_assoc],
      ha.append (validSeq_singleton (by decide) (by decide)), Or.inl rfl⟩
  · have hla : a.length ≤ max a.length b.length := le_max_left _ _
    have hv1 := data_valid a (max a.length b.length) ha
    have hl1 := data_length a (max a.length b.length) hla
    obtain ⟨hov, hol⟩ := offsetLoop_valid (max a.length b.length)
      (Int.tdiv (PersistentList.MidKey.diffLoop
        (PersistentList.MidKey.data a (max a.length b.length))
        (PersistentList.MidKey.data b (max a.length b.length)) (max a.length b.length) 0 0 1) 2)
      (List.replicate (max a.length b.length) 0) (validDigits_replicate _)
    rw [List.length_replicate] at hol
    obtain ⟨ds, hds, hdl, hdv, _⟩ := addLoop_spec _ _ hv1 hov (max a.length b.length) 0
      (List.replicate (max a.length b.length) 0) [] (by omega) (by omega) (by simp) (Or.inl rfl)
    rw [List.append_nil] at hds
    rw [hds, List.append_nil]
    refine ⟨_, rfl, (middleKey_spec ds hdv).1, Or.inr ?_⟩
    rw [List.length_map, hdl]

/-- A key of the shape sorts strictly between the two sentinel keys. -/
theorem keyShape_between (l : PersistentList) (hl : l.WellFormed) (k : Bytes)
    (h : l.KeyShape k) :
    bytesLt l.mHeadKey k = true ∧ bytesLt k l.mTailKey = true
      ∧ k ≠ l.mHeadKey ∧ k ≠ l.mTailKey := by
  obtain ⟨s, rfl, hlen, hv⟩ := h
  have hne : s ≠ [] := by
    intro hc
    rw [hc] at hlen
    simp [KEY_LEN] at hlen
  have h1 := head_lt_key l hl s hv hne
  have h2 := key_lt_tail l hl s hv hne
  exact ⟨h1, h2, fun hc => bytesLt_ne _ _ h1 hc.symm, bytesLt_ne _ _ h2⟩

/-- The key that `NextKey` returns for a key of the shape that fits the buffer
inside the string object has the shape. -/
theorem NextKey_shape (l : PersistentList) (k : Bytes) (h : l.KeyShape k)
    (h15 : k.length ≤ l.mKeyPrefix.length + SSO_CAPACITY) :
    ∃ k', l.NextKey k = some k' ∧ l.KeyShape k' := by
  obtain ⟨s, rfl, hlen, hv⟩ := h
  simp only [KEY_LEN] at hlen
  simp only [List.length_append, SSO_CAPACITY] at h15
  obtain ⟨s', hn, hl', hv', _⟩ := NextKey_spec l (s.take 8) (s.drop 8) (validSeq_take hv 8)
    (by rw [List.length_take]; omega) (by rw [List.length_drop]; omega)
  rw [List.take_append_drop] at hn
  exact ⟨_, hn, s', rfl, by rw [hl']; rfl, hv'⟩

/-- The key that `PrevKey` returns for a key of the shape that fits the buffer
inside the string object has the shape. -/
theorem PrevKey_shape (l : PersistentList) (k : Bytes) (h : l.KeyShape k)
    (h15 : k.length ≤ l.mKeyPrefix.length + SSO_CAPACITY) :
    ∃ k', l.PrevKey k = some k' ∧ l.KeyShape k' := by
  obtain ⟨s, rfl, hlen, hv⟩ := h
  simp only [KEY_LEN] at hlen
  simp only [List.length_append, SSO_CAPACITY] at h15
  obtain ⟨s', hn, hl', hv', _⟩ := PrevKey_spec l (s.take 8) (s.drop 8) (validSeq_take hv 8)
    (by rw [List.length_take]; omega) (by rw [List.length_drop]; omega)
  rw [List.take_append_drop] at hn
  exact ⟨_, hn, s', rfl, by rw [hl']; rfl, hv'⟩

theorem keyShape_init (l : PersistentList) : l.KeyShape (l.GetKey INIT_KEY_SEQ) :=
  ⟨INIT_KEY_SEQ, rfl, by decide, validSeq_init⟩

/-- An entry of the store at an index strictly between the indices of the two
sentinels is an entry of the list. -/
theorem mem_entries_of_index (l : PersistentList) (db : DB) (hs : DB.Sorted db) (h t : Nat)
    (hv tv : Bytes) (hh : db.get? h = some (l.mHeadKey, hv))
    (ht : db.get? t = some (l.mTailKey, tv)) (i : Nat) (e : Entry)
    (he : db.get? i = some e) (h1 : h < i) (h2 : i < t) : e ∈ l.entries db := by
  unfold PersistentList.entries
  rw [List.mem_filter]
  have hlo := sorted_index_lt db hs h i _ e h1 hh he
  have hhi := sorted_index_lt db hs i t e _ h2 he ht
  simp only at hlo hhi
  refine ⟨?_, by rw [hlo, hhi]; rfl⟩
  rw [List.get?_eq_getElem?] at he
  exact List.getElem?_mem he

/-- `PushBack` returns on a store whose entries of the list have the shape
and at most fifteen digits, and the new key has the shape. -/
theorem PushBack_returns (l : PersistentList) (db : DB) (v : Bytes)
    (hs : DB.Sorted db) (hh : db.HasKey l.mHeadKey) (ht : db.HasKey l.mTailKey)
    (hlt : bytesLt l.mHeadKey l.mTailKey = true)
    (hshape : ∀ e ∈ l.entries db, l.KeyShape e.1)
    (hshort : ∀ e ∈ l.entries db, e.1.length ≤ l.mKeyPrefix.length + SSO_CAPACITY) :
    ∃ k, l.PushBack db v = some (k, DB.Put db k v) ∧ l.KeyShape k := by
  obtain ⟨h, t, hv, tv, hh, ht, hht⟩ := sentinel_indices l db hs hh ht hlt
  have htl := lt_length_of_get? db t _ ht
  have hseek := seek_index db hs t _ ht
  simp only at hseek
  have hprev : Iterator.Prev ⟨db, t⟩ = some ⟨db, t - 1⟩ := by
    simp [Iterator.Prev, Iterator.Valid, htl]
    omega
  obtain ⟨e, he⟩ := get?_some_of_lt db (t - 1) (by omega)
  have hkey : Iterator.key ⟨db, t - 1⟩ = some e.1 := by
    rw [Iterator.key, he]
    rfl
  have hnk : ∃ k, (if l.mHeadKey = e.1 then some (l.GetKey INIT_KEY_SEQ) else l.NextKey e.1)
      = some k ∧ l.KeyShape k := by
    by_cases hk : l.mHeadKey = e.1
    · rw [if_pos hk]
      exact ⟨_, rfl, keyShape_init l⟩
    · rw [if_neg hk]
      have hne : h ≠ t - 1 := by
        intro hc
        rw [← hc, hh] at he
        simp only [Option.some.injEq] at he
        rw [← he] at hk
        exact hk rfl
      have hmem := mem_entries_of_index l db hs h t hv tv hh ht (t - 1) e he (by omega) (by omega)
      exact NextKey_shape l e.1 (hshape e hmem) (hshort e hmem)
  obtain ⟨k, hk, hks⟩ := hnk
  refine ⟨k, ?_, hks⟩
  unfold PersistentList.PushBack
  rw [hseek, hprev, Option.some_bind, hkey, Option.some_bind, hk, Option.some_bind]

/-- `PushFront` returns on a store whose entries of the list have the shape
and at most fifteen digits, and the new key has the shape. -/
theorem PushFront_returns (l : PersistentList) (db : DB) (v : Bytes)
    (hs : DB.Sorted db) (hh : db.HasKey l.mHeadKey) (ht : db.HasKey l.mTailKey)
    (hlt : bytesLt l.mHeadKey l.mTailKey = true)
    (hshape : ∀ e ∈ l.entries db, l.KeyShape e.1)
    (hshort : ∀ e ∈ l.entries db, e.1.length ≤ l.mKeyPrefix.length + SSO_CAPACITY) :
    ∃ k, l.PushFront db v = some (k, DB.Put db k v) ∧ l.KeyShape k := by
  obtain ⟨h, t, hv, tv, hh, ht, hht⟩ := sentinel_indices l db hs hh ht hlt
  have htl := lt_length_of_get? db t _ ht
  have hseek := seek_index db hs h _ hh
  simp only at hseek
  have hnext : Iterator.Next ⟨db, h⟩ = some ⟨db, h + 1⟩ := by
    simp [Iterator.Next, Iterator.Valid]
    omega
  obtain ⟨e, he⟩ := get?_some_of_lt db (h + 1) (by omega)
  have hkey : Iterator.key ⟨db, h + 1⟩ = some e.1 := by
    rw [Iterator.key, he]
    rfl
  have hnk : ∃ k, (if l.mTailKey = e.1 then some (l.GetKey INIT_KEY_SEQ) else l.PrevKey e.1)
      = some k ∧ l.KeyShape k := by
    by_cases hk : l.mTailKey = e.1
    · rw [if_pos hk]
      exact ⟨_, rfl, keyShape_init l⟩
    · rw [if_neg hk]
      have hne : h + 1 ≠ t := by
        intro hc
        rw [hc, ht] at he
        simp only [Option.some.injEq] at he
        rw [← he] at hk
        exact hk rfl
      have hmem := mem_entries_of_index l db hs h t hv tv hh ht (h + 1) e he (by omega) (by omega)
      exact PrevKey_shape l e.1 (hshape e hmem) (hshort e hmem)
  obtain ⟨k, hk, hks⟩ := hnk
  refine ⟨k, ?_, hks⟩
  unfold PersistentList.PushFront
  rw [hseek, hnext, Option.some_bind, hkey, Option.some_bind, hk, Option.some_bind]

/-- `InsertAt` with a valid cursor reached over the store returns on a store
whose entries of the list have the shape and at most fifteen digits, and the
new key has the shape. -/
theorem InsertAt_returns (l : PersistentList) (db : DB) (v : Bytes)
    (hs : DB.Sorted db) (hh : db.HasKey l.mHeadKey) (ht : db.HasKey l.mTailKey)
    (hlt : bytesLt l.mHeadKey l.mTailKey = true)
    (hshape : ∀ e ∈ l.entries db, l.KeyShape e.1)
    (hshort : ∀ e ∈ l.entries db, e.1.length ≤ l.mKeyPrefix.length + SSO_CAPACITY)
    (c : PersistentListIterator) (hc : CursorReach l db c) (hvalid : c.Valid = true) :
    ∃ k, l.InsertAt db c v = some (k, DB.Put db k v) ∧ l.KeyShape k := by
  have hpf := PushFront_returns l db v hs hh ht hlt hshape hshort
  obtain ⟨h, t, hv, tv, hh, ht, hht⟩ := sentinel_indices l db hs hh ht hlt
  obtain ⟨b, pos, rfl, h1, h2, h3⟩ := cursor_place l db hs h t hv tv hh ht hht c hc
  have hb : b = true := hvalid
  subst hb
  obtain ⟨hp1, hp2⟩ := h3 rfl
  have htl := lt_length_of_get? db t _ ht
  obtain ⟨e, he⟩ := get?_some_of_lt db pos (by omega)
  obtain ⟨e0, he0⟩ := get?_some_of_lt db (pos - 1) (by omega)
  have hkey : PersistentListIterator.Key ⟨l, true, ⟨db, pos⟩⟩ = some e.1 := by
    rw [PersistentListIterator.Key, if_pos rfl, Iterator.key, he]
    rfl
  have hseek := seek_index db hs pos _ he
  have hprev : Iterator.Prev ⟨db, pos⟩ = some ⟨db, pos - 1⟩ := by
    simp [Iterator.Prev, Iterator.Valid]
    omega
  have hkey0 : Iterator.key ⟨db, pos - 1⟩ = some e0.1 := by
    rw [Iterator.key, he0]
    rfl
  have hes := hshape e (mem_entries_of_index l db hs h t hv tv hh ht pos e he hp1 hp2)
  unfold PersistentList.InsertAt
  rw [if_neg (by simp [PersistentListIterator.Valid]),
    if_neg (by simp [PersistentListIterator.ListId, PersistentList.Id]),
    hkey, Option.some_bind, hseek, hprev, Option.some_bind, hkey0, Option.some_bind]
  by_cases hk : l.mHeadKey = e0.1
  · rw [if_pos hk]
    exact hpf
  · rw [if_neg hk]
    have hne : h ≠ pos - 1 := by
      intro hc
      rw [← hc, hh] at he0
      simp only [Option.some.injEq] at he0
      rw [← he0] at hk
      exact hk rfl
    obtain ⟨s0, hs0, hl0, hv0⟩ := hshape e0
      (mem_entries_of_index l db hs h t hv tv hh ht (pos - 1) e0 he0 (by omega) (by omega))
    obtain ⟨s1, hs1, hl1, hv1⟩ := hes
    obtain ⟨m, hm, hmv, hml⟩ := MidKey_shape l s0 s1 hv0
    rw [hs0, hs1, hm, Option.some_bind]
    refine ⟨_, rfl, m, rfl, ?_, hmv⟩
    rcases hml with hml | hml
    · rw [hml, List.length_append, List.length_singleton]
      omega
    · rw [hml]
      exact le_trans hl1 (le_max_right _ _)

/-- After a key of the shape is written, the entries of the list have the
shape when they had it before. -/
theorem shape_after_put (l : PersistentList) (db : DB) (k v : Bytes) (hk : l.KeyShape k)
    (hshape : ∀ e ∈ l.entries db, l.KeyShape e.1) :
    ∀ e ∈ l.entries (DB.Put db k v), l.KeyShape e.1 := by
  intro e he
  unfold PersistentList.entries at he
  rw [List.mem_filter] at he
  rcases mem_put db k v e he.1 with h | h
  · rw [h]
    exact hk
  · exact hshape e (by
      unfold PersistentList.entries
      rw [List.mem_filter]
      exact ⟨h, he.2⟩)

/-- The shape of the keys is kept when every entry key fits the buffer inside
the string object: in a sorted store with both sentinel keys of the list, where
every entry key of the list is the key prefix followed by from eight to
fifteen digit bytes from 34 to 125, `PushFront`, `PushBack` and `InsertAt` with
a valid cursor reached over the store return, the key they produce is the key
prefix followed by at least eight digit bytes from 34 to 125, and so is every
entry key of the list in the new store; every key of that shape sorts strictly
after the head sentinel, strictly before the tail sentinel, and is not a
sentinel key. -/
theorem keyShape_kept (l : PersistentList) (db : DB) (v : Bytes) (hl : l.WellFormed)
    (hs : DB.Sorted db) (hh : db.HasKey l.mHeadKey) (ht : db.HasKey l.mTailKey)
    (hshape : ∀ e ∈ l.entries db, l.KeyShape e.1)
    (hshort : ∀ e ∈ l.entries db, e.1.length ≤ l.mKeyPrefix.length + SSO_CAPACITY) :
    (∃ k, l.PushFront db v = some (k, DB.Put db k v) ∧ l.KeyShape k
        ∧ ∀ e ∈ l.entries (DB.Put db k v), l.KeyShape e.1)
      ∧ (∃ k, l.PushBack db v = some (k, DB.Put db k v) ∧ l.KeyShape k
        ∧ ∀ e ∈ l.entries (DB.Put db k v), l.KeyShape e.1)
      ∧ (∀ c, CursorReach l db c → c.Valid = true →
          ∃ k, l.InsertAt db c v = some (k, DB.Put db k v) ∧ l.KeyShape k
            ∧ ∀ e ∈ l.entries (DB.Put db k v), l.KeyShape e.1)
      ∧ (∀ k, l.KeyShape k →
          bytesLt l.mHeadKey k = true ∧ bytesLt k l.mTailKey = true
            ∧ k ≠ l.mHeadKey ∧ k ≠ l.mTailKey) := by
  have hlt := wellFormed_lt l hl
  refine ⟨?_, ?_, ?_, fun k hk => keyShape_between l hl k hk⟩
  · obtain ⟨k, hk, hks⟩ := PushFront_returns l db v hs hh ht hlt hshape hshort
    exact ⟨k, hk, hks, shape_after_put l db k v hks hshape⟩
  · obtain ⟨k, hk, hks⟩ := PushBack_returns l db v hs hh ht hlt hshape hshort
    exact ⟨k, hk, hks, shape_after_put l db k v hks hshape⟩
  · intro c hc hvalid
    obtain ⟨k, hk, hks⟩ := InsertAt_returns l db v hs hh ht hlt hshape hshort c hc hvalid
    exact ⟨k, hk, hks, shape_after_put l db k v hks hshape⟩

/-- C21 fails with an entry key of sixteen digits: the store
`exampleStoreLong` is reached by public calls; it is sorted, has both sentinel
keys, and its one entry key is the key prefix followed by sixteen digit bytes
from 34 to 125, so that every entry key has the shape; `PushBack` passes that
key to `NextKey`, and `PushFront` and `InsertAt` with the valid cursor at the
entry pass it to `PrevKey`, which read freed memory for a sequence of more
than fifteen bytes: none of the three calls has a defined result, and none
produces a key of the shape. -/
theorem C21_key_shape_long_key :
    ((pushBackAll exampleList exampleStore [[97], [98]]).bind fun db0 =>
      (insertBeforeLast exampleList [120] 50 db0).bind fun db =>
      (exampleList.PopBack db).bind fun p =>
      (frontPopRounds exampleList 50 p.2).bind fun r => some r.2)
      = some exampleStoreLong
    ∧ DB.Sorted exampleStoreLong
    ∧ exampleStoreLong.HasKey exampleList.mHeadKey
    ∧ exampleStoreLong.HasKey exampleList.mTailKey
    ∧ exampleList.entries exampleStoreLong = [(exampleList.mKeyPrefix ++ longKeySeq, [120])]
    ∧ (∀ e ∈ exampleList.entries exampleStoreLong, exampleList.KeyShape e.1)
    ∧ exampleList.PushBack exampleStoreLong [99] = none
    ∧ exampleList.PushFront exampleStoreLong [99] = none
    ∧ CursorReach exampleList exampleStoreLong ⟨exampleList, true, ⟨exampleStoreLong, 1⟩⟩
    ∧ exampleList.InsertAt exampleStoreLong ⟨exampleList, true, ⟨exampleStoreLong, 1⟩⟩ [99]
        = none := by
  have hents : exampleList.entries exampleStoreLong
      = [(exampleList.mKeyPrefix ++ longKeySeq, [120])] := by decide
  refine ⟨exampleStoreLong_reached, by unfold DB.Sorted exampleStoreLong; decide,
    ⟨[52, 50], by decide⟩, ⟨[52, 50], by decide⟩,
    hents, ?_, by decide, by decide, ?_, by decide⟩
  · intro e he
    rw [hents, List.mem_singleton] at he
    rw [he]
    exact ⟨longKeySeq, rfl, by decide, validSeq_of_all _ (by decide)⟩
  · exact CursorReach.next (PersistentListIterator.new exampleList exampleStoreLong).SeekFront
      (true, ⟨exampleList, true, ⟨exampleStoreLong, 1⟩⟩) CursorReach.seekFrontNew (by decide)

/-! ## Successor and predecessor are inverse to each other -/

/-- C22 (successor and predecessor are mutually inverse): for every valid
sequence `s` of eight digits, `PrevKey` of the key of `s` returns the key of
eight valid digits of value one less modulo `92 ^ 8`, and `NextKey` of that key
returns the key of `s`; `NextKey` of the key of `s` returns the key of eight
valid digits of value one more modulo `92 ^ 8`, and `PrevKey` of that key
returns the key of `s`. -/
theorem C22_next_prev_inverse (l : PersistentList) (s : Bytes) (hv : ValidSeq s)
    (hlen : s.length = 8) :
    (∃ p, l.PrevKey (l.mKeyPrefix ++ s) = some (l.mKeyPrefix ++ p)
        ∧ p.length = 8 ∧ ValidSeq p ∧ seqVal p = (seqVal s + (92 ^ 8 - 1)) % 92 ^ 8
        ∧ l.NextKey (l.mKeyPrefix ++ p) = some (l.mKeyPrefix ++ s))
      ∧ (∃ q, l.NextKey (l.mKeyPrefix ++ s) = some (l.mKeyPrefix ++ q)
        ∧ q.length = 8 ∧ ValidSeq q ∧ seqVal q = (seqVal s + 1) % 92 ^ 8
        ∧ l.PrevKey (l.mKeyPrefix ++ q) = some (l.mKeyPrefix ++ s)) := by
  have hs := seqVal_lt s hv
  rw [hlen] at hs
  constructor
  · obtain ⟨p, hp, hpl, hpv, hpval⟩ := PrevKey_spec l s [] hv hlen (by simp)
    rw [List.append_nil] at hp
    obtain ⟨s', hn, hsl, hsv, hsval⟩ := NextKey_spec l p [] hpv hpl (by simp)
    rw [List.append_nil] at hn
    refine ⟨p, hp, hpl, hpv, hpval, ?_⟩
    rw [hn]
    have : s' = s := by
      apply seqVal_injective s' s hsv hv (by rw [hsl, hlen])
      rw [hsval, hpval]
      omega
    rw [this]
  · obtain ⟨q, hq, hql, hqv, hqval⟩ := NextKey_spec l s [] hv hlen (by simp)
    rw [List.append_nil] at hq
    obtain ⟨s', hn, hsl, hsv, hsval⟩ := PrevKey_spec l q [] hqv hql (by simp)
    rw [List.append_nil] at hn
    refine ⟨q, hq, hql, hqv, hqval, ?_⟩
    rw [hn]
    have : s' = s := by
      apply seqVal_injective s' s hsv hv (by rw [hsl, hlen])
      rw [hsval, hqval]
      omega
    rw [this]

/-- The property C22 on the all-maximum sequence, where the carry of `NextKey`
wraps around. -/
theorem C22_next_prev_inverse_witness :
    (∃ p, exampleList.PrevKey (exampleList.mKeyPrefix ++ [125, 125, 125, 125, 125, 125, 125, 125])
          = some (exampleList.mKeyPrefix ++ p)
        ∧ p.length = 8 ∧ ValidSeq p
        ∧ seqVal p = (seqVal [125, 125, 125, 125, 125, 125, 125, 125] + (92 ^ 8 - 1)) % 92 ^ 8
        ∧ exampleList.NextKey (exampleList.mKeyPrefix ++ p)
          = some (exampleList.mKeyPrefix ++ [125, 125, 125, 125, 125, 125, 125, 125]))
      ∧ (∃ q, exampleList.NextKey
            (exampleList.mKeyPrefix ++ [125, 125, 125, 125, 125, 125, 125, 125])
          = some (exampleList.mKeyPrefix ++ q)
        ∧ q.length = 8 ∧ ValidSeq q
        ∧ seqVal q = (seqVal [125, 125, 125, 125, 125, 125, 125, 125] + 1) % 92 ^ 8
        ∧ exampleList.PrevKey (exampleList.mKeyPrefix ++ q)
          = some (exampleList.mKeyPrefix ++ [125, 125, 125, 125, 125, 125, 125, 125])) :=
  C22_next_prev_inverse exampleList [125, 125, 125, 125, 125, 125, 125, 125]
    (validSeq_of_all _ (by decide)) (by decide)

/-! ## The midpoint of a longer first key -/

theorem bytesLt_take : ∀ (a b : Bytes), bytesLt a b = true → b.length ≤ a.length →
    bytesLt (a.take b.length) b = true
  | [], [], h, _ => by simp [bytesLt] at h
  | [], _ :: _, _, hl => by simp at hl
  | _ :: _, [], h, _ => by simp [bytesLt] at h
  | x :: a, y :: b, h, hl => by
    simp only [bytesLt, List.length_cons, List.take_succ_cons] at h ⊢
    by_cases hxy : x < y
    · simp [hxy]
    · by_cases hyx : y < x
      · simp [hxy, hyx] at h
      · simp only [hxy, hyx, if_false] at h ⊢
        exact bytesLt_take a b h (by simpa using hl)

theorem validSeq_replicate_min (k : Nat) : ValidSeq (List.replicate k 34) := by
  intro b hb
  rw [List.mem_replicate] at hb
  rw [hb.2]
  simp [START_SYM, END_SYM]

theorem seqVal_append_replicate (b : Bytes) (k : Nat) :
    seqVal (b ++ List.replicate k 34) = seqVal b * 92 ^ k := by
  induction k with
  | zero => simp
  | succ k ih =>
    rw [List.replicate_succ', ← List.append_assoc, seqVal_append_singleton, ih,
      pow_succ 92 k, Nat.sub_self, Nat.add_zero, Nat.mul_assoc]

/-- A first key that sorts before a second key that is not longer also sorts
before the second key padded with minimum digits. -/
theorem bytesLt_pad (a b : Bytes) (h : bytesLt a b = true) (hl : b.length ≤ a.length) :
    bytesLt a (b ++ List.replicate (a.length - b.length) 34) = true := by
  have h1 := bytesLt_take a b h hl
  have h2 := bytesLt_append_of_lt (a.take b.length) b (a.drop b.length)
    (List.replicate (a.length - b.length) 34) h1 (by simp; omega)
  rw [List.take_append_drop] at h2
  exact h2

/-- No valid sequence sorts before the sequence of minimum digits of its length. -/
theorem not_bytesLt_replicate_min : ∀ (m : Bytes) (k : Nat), ValidSeq m → m.length = k →
    bytesLt m (List.replicate k 34) = false
  | [], 0, _, _ => rfl
  | [], _ + 1, _, hl => by simp at hl
  | _ :: _, 0, _, hl => by simp at hl
  | x :: m, k + 1, hm, hl => by
    have hx := (ValidSeq.cons hm).1
    simp only [List.replicate_succ, bytesLt]
    rw [if_neg (by omega)]
    by_cases h34 : 34 < x
    · rw [if_pos h34]
    · rw [if_neg h34]
      exact not_bytesLt_replicate_min m k (ValidSeq.cons hm).2 (by simpa using hl)

/-- A valid sequence below a padded key of the same length is below the key. -/
theorem bytesLt_of_pad : ∀ (m b : Bytes) (k : Nat), ValidSeq m → m.length = b.length + k →
    bytesLt m (b ++ List.replicate k 34) = true → bytesLt m b = true
  | m, [], k, hm, hl, h => by
    rw [List.nil_append, not_bytesLt_replicate_min m k hm (by simpa using hl)] at h
    simp at h
  | [], _ :: _, _, _, hl, _ => by simp at hl; omega
  | x :: m, y :: b, k, hm, hl, h => by
    simp only [bytesLt, List.cons_append] at h ⊢
    by_cases hxy : x < y
    · simp [hxy]
    · by_cases hyx : y < x
      · simp [hxy, hyx] at h
      · simp only [hxy, hyx, if_false] at h ⊢
        exact bytesLt_of_pad m b k (ValidSeq.cons hm).2 (by simp at hl; omega) h

/-- The subtraction loop of `MidKey` stays in the range of `long long` for
digit vectors of at most nine digits. -/
theorem diffLoopFits_spec (k1 k2 : List Int) (h1 : ValidDigits k1) (h2 : ValidDigits k2) :
    ∀ (i k : Nat) (carry diff posVal : Int), i + k ≤ 9 → (carry = 0 ∨ carry = 1) →
    posVal = 92 ^ k → 0 ≤ diff → diff < 92 ^ k →
    PersistentList.MidKey.diffLoopFits k1 k2 i carry diff posVal = true := by
  intro i
  induction i with
  | zero => intro k carry diff posVal _ _ _ _ _; rfl
  | succ i ih =>
    intro k carry diff posVal hik hc hp hd0 hd1
    have hg1 := ValidDigits.getD h1 i
    have hg2 := ValidDigits.getD h2 i
    unfold PersistentList.MidKey.diffLoopFits
    simp only [KEY_BASE, Nat.cast_ofNat]
    generalize k2.getD i 0 = d2 at hg2 ⊢
    generalize k1.getD i 0 = d1 at hg1 ⊢
    have hpk : (0 : Int) < 92 ^ k := by positivity
    have hle : (92 : Int) ^ (k + 1) ≤ 92 ^ 9 :=
      pow_le_pow_right₀ (by norm_num) (by omega)
    have h9 : (92 : Int) ^ 9 < 2 ^ 63 := by norm_num
    have hps : (92 : Int) ^ (k + 1) = 92 ^ k * 92 := pow_succ 92 k
    have hval : ∀ val1 : Int, 0 ≤ val1 → val1 ≤ 91 →
        (fits64 (val1 * posVal) && fits64 (diff + val1 * posVal) && fits64 (posVal * 92)) = true
          ∧ 0 ≤ diff + val1 * posVal ∧ diff + val1 * posVal < 92 ^ (k + 1) := by
      intro val1 hv0 hv1
      have hm0 : 0 ≤ val1 * posVal := by rw [hp]; positivity
      have hm1 : val1 * posVal ≤ 91 * 92 ^ k := by
        rw [hp]
        exact mul_le_mul_of_nonneg_right hv1 (le_of_lt hpk)
      have hpp : posVal * 92 = 92 ^ (k + 1) := by rw [hp, hps]
      refine ⟨?_, by omega, by omega⟩
      simp only [fits64, Bool.and_eq_true, decide_eq_true_eq]
      refine ⟨⟨⟨by omega, by omega⟩, ⟨by omega, by omega⟩⟩, ⟨by omega, by omega⟩⟩
    by_cases hv : d2 - d1 - carry < 0
    · simp only [hv, if_true]
      obtain ⟨hf, hn0, hn1⟩ := hval (d2 - d1 - carry + 92) (by rcases hc with hc | hc <;> omega)
        (by omega)
      rw [hf, Bool.true_and]
      exact ih (k + 1) 1 _ _ (by omega) (Or.inr rfl) (by rw [hp, hps]) hn0 hn1
    · simp only [hv, if_false]
      obtain ⟨hf, hn0, hn1⟩ := hval (d2 - d1 - carry) (by omega)
        (by rcases hc with hc | hc <;> omega)
      rw [hf, Bool.true_and]
      exact ih (k + 1) 0 _ _ (by omega) (Or.inl rfl) (by rw [hp, hps]) hn0 hn1

/-- C23 (midpoint of a first key that is at least as long as the second): for
valid digit sequences `a` before `b` in the bytewise order, `b` not longer
than `a` and `a` of at most nine digits, `MidKey` returns the key prefix
followed by a valid sequence `m` with `a` before `m` and `m` before `b`; the
padded difference is below `2 ^ 63`, and the subtraction loop on exact
integers keeps every product and sum in the range of `long long`. -/
theorem C23_midpoint_longer_first (l : PersistentList) (a b : Bytes) (ha : ValidSeq a)
    (hb : ValidSeq b) (hlt : bytesLt a b = true) (hlen : b.length ≤ a.length)
    (h9 : a.length ≤ 9) :
    ∃ m, l.MidKey (l.mKeyPrefix ++ a) (l.mKeyPrefix ++ b) = some (l.mKeyPrefix ++ m)
      ∧ ValidSeq m
      ∧ bytesLt a m = true ∧ bytesLt m b = true
      ∧ bytesLt (l.mKeyPrefix ++ a) (l.mKeyPrefix ++ m) = true
      ∧ bytesLt (l.mKeyPrefix ++ m) (l.mKeyPrefix ++ b) = true
      ∧ padVal a a.length < padVal b a.length
      ∧ padVal b a.length - padVal a a.length < 2 ^ 63
      ∧ PersistentList.MidKey.diffLoopFits (PersistentList.MidKey.data a a.length)
          (PersistentList.MidKey.data b a.length) a.length 0 0 1 = true := by
  have hn : a.length = max a.length b.length := (max_eq_left hlen).symm
  have hbp : ValidSeq (b ++ List.replicate (a.length - b.length) 34) :=
    hb.append (validSeq_replicate_min _)
  have hbl : (b ++ List.replicate (a.length - b.length) 34).length = a.length := by
    simp
    omega
  have hpa : padVal a a.length = seqVal a := by simp [padVal]
  have hpb : padVal b a.length = seqVal (b ++ List.replicate (a.length - b.length) 34) := by
    rw [seqVal_append_replicate, padVal]
  have hval := seqVal_lt_of_bytesLt a _ ha hbp hbl.symm (bytesLt_pad a b hlt hlen)
  have hbound := seqVal_lt _ hbp
  rw [hbl] at hbound
  have hle9 : 92 ^ a.length ≤ 92 ^ 9 := Nat.pow_le_pow_right (by norm_num) h9
  have h63 : 92 ^ 9 < 2 ^ 63 := by norm_num
  have hfit : padVal b a.length - padVal a a.length < 2 ^ 63 := by
    rw [hpa, hpb]
    omega
  have hspec := MidKey_spec l a b ha hb a.length hn (by rw [hpa, hpb]; omega) hfit
  have hfits := diffLoopFits_spec _ _ (data_valid a a.length ha) (data_valid b a.length hb)
    a.length 0 0 0 1 (by omega) (Or.inl rfl) (by simp) (le_refl _) (by norm_num)
  have key : ∃ m, l.MidKey (l.mKeyPrefix ++ a) (l.mKeyPrefix ++ b) = some (l.mKeyPrefix ++ m)
      ∧ ValidSeq m ∧ bytesLt a m = true ∧ bytesLt m b = true := by
    by_cases hd : padVal b a.length - padVal a a.length ≤ 1
    · refine ⟨a ++ [MIDDLE_SYM], ?_, ha.append (validSeq_singleton (by decide) (by decide)),
        bytesLt_append_self a _ (by simp), ?_⟩
      · rw [hspec.1 hd, List.append_assoc]
      · have h2 := bytesLt_append_of_lt (a.take b.length) b (a.drop b.length ++ [MIDDLE_SYM]) []
          (bytesLt_take a b hlt hlen) (by simp; omega)
        rw [← List.append_assoc, List.take_append_drop, List.append_nil] at h2
        exact h2
    · obtain ⟨m, hm, hml, hmv, hmval⟩ := hspec.2 (by omega)
      rw [hpa, hpb] at hmval
      refine ⟨m, hm, hmv, ?_, ?_⟩
      · apply bytesLt_of_seqVal_lt a m ha hmv hml.symm
        rw [hpa, hpb] at hd
        omega
      · apply bytesLt_of_pad m b (a.length - b.length) hmv (by omega)
        apply bytesLt_of_seqVal_lt m _ hmv hbp (by rw [hml, hbl])
        omega
  obtain ⟨m, hm, hmv, h1, h2⟩ := key
  refine ⟨m, hm, hmv, h1, h2, ?_, ?_, by rw [hpa, hpb]; exact hval, hfit, hfits⟩
  · rw [bytesLt_append_left]
    exact h1
  · rw [bytesLt_append_left]
    exact h2

/-- The property C23 on the nine-digit key `NNNNNNNN#` and the eight-digit key
`NNNNNNNP`. -/
theorem C23_midpoint_longer_first_witness :
    ∃ m, exampleList.MidKey (exampleList.mKeyPrefix ++ [78, 78, 78, 78, 78, 78, 78, 78, 35])
          (exampleList.mKeyPrefix ++ [78, 78, 78, 78, 78, 78, 78, 80])
        = some (exampleList.mKeyPrefix ++ m)
      ∧ ValidSeq m
      ∧ bytesLt [78, 78, 78, 78, 78, 78, 78, 78, 35] m = true
      ∧ bytesLt m [78, 78, 78, 78, 78, 78, 78, 80] = true
      ∧ bytesLt (exampleList.mKeyPrefix ++ [78, 78, 78, 78, 78, 78, 78, 78, 35])
          (exampleList.mKeyPrefix ++ m) = true
      ∧ bytesLt (exampleList.mKeyPrefix ++ m)
          (exampleList.mKeyPrefix ++ [78, 78, 78, 78, 78, 78, 78, 80]) = true
      ∧ padVal [78, 78, 78, 78, 78, 78, 78, 78, 35]
            [78, 78, 78, 78, 78, 78, 78, 78, 35].length
          < padVal [78, 78, 78, 78, 78, 78, 78, 80] [78, 78, 78, 78, 78, 78, 78, 78, 35].length
      ∧ padVal [78, 78, 78, 78, 78, 78, 78, 80] [78, 78, 78, 78, 78, 78, 78, 78, 35].length
          - padVal [78, 78, 78, 78, 78, 78, 78, 78, 35]
              [78, 78, 78, 78, 78, 78, 78, 78, 35].length < 2 ^ 63
      ∧ PersistentList.MidKey.diffLoopFits
          (PersistentList.MidKey.data [78, 78, 78, 78, 78, 78, 78, 78, 35]
            [78, 78, 78, 78, 78, 78, 78, 78, 35].length)
          (PersistentList.MidKey.data [78, 78, 78, 78, 78, 78, 78, 80]
            [78, 78, 78, 78, 78, 78, 78, 78, 35].length)
          [78, 78, 78, 78, 78, 78, 78, 78, 35].length 0 0 1 = true :=
  C23_midpoint_longer_first exampleList [78, 78, 78, 78, 78, 78, 78, 78, 35]
    [78, 78, 78, 78, 78, 78, 78, 80] (validSeq_of_all _ (by decide))
    (validSeq_of_all _ (by decide)) (by decide) (by decide) (by decide)

end ListStore
